import Mathlib

/-! Ownership tree (`base/treenode.cpp`), icon projection model
(`apk/iconitemsmodel.h`), project tabs (`widgets/projecttabswidget.cpp`) and Android
explorer (`windows/androidexplorer.cpp`).

Shallow embedding of the `TreeNode` class as operations on an explicit object heap.
A pointer is an address, the heap maps an address to the object stored there, a
deleted object leaves its address unmapped.  Every member function of
`treenode.cpp` is a function on heaps with the same name.  The icon model, the tab
widget and the explorer follow, each in a namespace of its own; their theorems come
after all definitions, in the same order.
-/

namespace TreeNodes

/-- Address of a heap object (a non-null `TreeNode *`). -/
abbrev Ptr := Nat

/-- Enumeration `IconItemsModel::IconType`. -/
inductive IconType where
  | TypeIcon
  | TypeRoundIcon
  | TypeBanner
  deriving DecidableEq, Repr

/-- Dynamic class of a heap object: `TreeNode` itself or one of its two subclasses
declared in `iconitemsmodel.h`. -/
inductive NodeClass where
  | treeNode
  | activityNode (scope : Nat)
  | iconNode (iconType : IconType)
  deriving DecidableEq, Repr

/-- Fields of a `TreeNode` object: `parent` (`none` is the null pointer) and
`children`, together with the dynamic class of the object. -/
structure TreeNode where
  parent : Option Ptr
  children : List Ptr
  cls : NodeClass
  deriving DecidableEq, Repr

/-- Object heap: `none` at an address means that no object lives there. -/
abbrev Heap := Ptr → Option TreeNode

/-- Ways in which a call can abort. -/
inductive Fault where
  | assertion
  | invalidPointer
  | indexOutOfRange
  | outOfFuel
  deriving DecidableEq, Repr

/-- Outcome of a mutating call: the new heap, or the fault together with the heap
as it was when the call aborted. -/
abbrev Res := Except (Fault × Heap) Heap

/-- Overwrite the cell at address `p`. -/
def Heap.set (h : Heap) (p : Ptr) (v : Option TreeNode) : Heap :=
  fun q => if q = p then v else h q

/-- Modelled from the spec: the `TreeNode` constructor (`base/treenode.h` is not part of
the sources).  A new object has a null parent back-reference and an empty child
sequence; `new` places it at an address where no object lives. -/
def construct (h : Heap) (p : Ptr) (c : NodeClass) : Heap :=
  h.set p (some { parent := none, children := [], cls := c })

/-- `QVector::indexOf`: position of the first occurrence, `-1` when absent. -/
def indexOf (l : List Ptr) (x : Ptr) : Int :=
  if l.indexOf x < l.length then (l.indexOf x : Int) else -1

/-- `QVector::at` and `QVector::operator[]`: defined for `0 <= i < size` only. -/
def at? (l : List Ptr) (i : Int) : Option Ptr :=
  if 0 ≤ i then l[i.toNat]? else none

/-- `TreeNode::addChild`: `node->parent = this; children.append(node);`. -/
def addChild (h : Heap) (this node : Ptr) : Res :=
  match h node with
  | none => .error (Fault.invalidPointer, h)
  | some nd =>
    let h1 := h.set node (some { nd with parent := some this })
    match h1 this with
    | none => .error (Fault.invalidPointer, h1)
    | some t => .ok (h1.set this (some { t with children := t.children ++ [node] }))

/-- `TreeNode::hasChild`: `children.contains(node)`. -/
def hasChild (h : Heap) (this node : Ptr) : Option Bool :=
  (h this).map fun t => t.children.contains node

/-- `TreeNode::hasChildren`: `!children.isEmpty()`. -/
def hasChildren (h : Heap) (this : Ptr) : Option Bool :=
  (h this).map fun t => !t.children.isEmpty

/-- `TreeNode::childCount`: `children.count()`. -/
def childCount (h : Heap) (this : Ptr) : Option Nat :=
  (h this).map fun t => t.children.length

/-- `TreeNode::getChild`: `children.at(row)`. -/
def getChild (h : Heap) (this : Ptr) (row : Int) : Option Ptr :=
  (h this).bind fun t => at? t.children row

/-- `TreeNode::getParent`: the outer option is the validity of `this`, the inner
one the returned pointer. -/
def getParent (h : Heap) (this : Ptr) : Option (Option Ptr) :=
  (h this).map fun t => t.parent

/-- `TreeNode::getChildren`. -/
def getChildren (h : Heap) (this : Ptr) : Option (List Ptr) :=
  (h this).map fun t => t.children

/-- `TreeNode::row`: `parent ? parent->children.indexOf(this) : 0`. -/
def row (h : Heap) (this : Ptr) : Option Int :=
  (h this).bind fun t =>
    match t.parent with
    | none => some 0
    | some p => (h p).map fun pn => indexOf pn.children this

/-- Body of `TreeNode::removeChildren`, `qDeleteAll(children); children.clear();`,
over a given meaning `del` of `delete`. -/
def removeChildrenWith (del : Heap → Ptr → Res) (h : Heap) (this : Ptr) : Res :=
  match h this with
  | none => .error (Fault.invalidPointer, h)
  | some t => do
    let h1 ← t.children.foldlM del h
    match h1 this with
    | none => .error (Fault.invalidPointer, h1)
    | some t1 => .ok (h1.set this (some { t1 with children := [] }))

/-- The expression `delete p`: run `TreeNode::~TreeNode`, which calls `removeChildren`,
then release the storage.  The fuel bounds the nesting depth of destructor calls. -/
def deleteNode : Nat → Heap → Ptr → Res
  | 0, h, _ => .error (Fault.outOfFuel, h)
  | fuel + 1, h, p => do
    let h1 ← removeChildrenWith (deleteNode fuel) h p
    .ok (h1.set p none)

/-- `TreeNode::removeChildren`. -/
def removeChildren (fuel : Nat) (h : Heap) (this : Ptr) : Res :=
  removeChildrenWith (deleteNode fuel) h this

/-- `TreeNode::removeChild`: `delete children[row]; children.remove(row);`. -/
def removeChild (fuel : Nat) (h : Heap) (this : Ptr) (row : Int) : Res :=
  match h this with
  | none => .error (Fault.invalidPointer, h)
  | some t =>
    match at? t.children row with
    | none => .error (Fault.indexOutOfRange, h)
    | some c => do
      let h1 ← deleteNode fuel h c
      match h1 this with
      | none => .error (Fault.invalidPointer, h1)
      | some t1 =>
        match at? t1.children row with
        | none => .error (Fault.indexOutOfRange, h1)
        | some _ => .ok (h1.set this (some { t1 with children := t1.children.eraseIdx row.toNat }))

/-- `TreeNode::removeSelf`: `Q_ASSERT(parent); parent->removeChild(row());`. -/
def removeSelf (fuel : Nat) (h : Heap) (this : Ptr) : Res :=
  match h this with
  | none => .error (Fault.invalidPointer, h)
  | some t =>
    match t.parent with
    | none => .error (Fault.assertion, h)
    | some p =>
      match row h this with
      | none => .error (Fault.invalidPointer, h)
      | some r => removeChild fuel h p r

/-! ## The ownership-tree invariant -/

/-- Child edge of the heap: `c` occurs in the child sequence of the live object `p`. -/
def IsChild (h : Heap) (p c : Ptr) : Prop :=
  ∃ t, h p = some t ∧ c ∈ t.children

/-- Object `q` belongs to the subtree hanging from `a` (`a` itself included). -/
def InSub (h : Heap) (a q : Ptr) : Prop :=
  Relation.ReflTransGen (IsChild h) a q

/-- The ownership-tree invariant of the data model, for all objects of a heap. -/
structure Forest (h : Heap) : Prop where
  backref : ∀ p t c, h p = some t → c ∈ t.children →
    ∃ cn, h c = some cn ∧ cn.parent = some p
  nodup : ∀ p t, h p = some t → t.children.Nodup
  attached : ∀ n nd p, h n = some nd → nd.parent = some p →
    ∃ t, h p = some t ∧ n ∈ t.children
  depth : ∃ d : Ptr → Nat, ∀ p c, IsChild h p c → d p < d c
  height : ∃ ht : Ptr → Nat, ∀ p c, IsChild h p c → ht c < ht p

/-- Well-formedness of the subtree hanging from `a`, with `ht` bounding its height. -/
def SubOK (h : Heap) (ht : Ptr → Nat) (a : Ptr) : Prop :=
  ∀ q, InSub h a q → ∃ t, h q = some t ∧ t.children.Nodup ∧
    ∀ c ∈ t.children, ht c < ht q ∧ ∃ cn, h c = some cn ∧ cn.parent = some q

/-- Heap `k` is heap `h` with the objects satisfying `dead` released. -/
def Carved (h k : Heap) (dead : Ptr → Prop) : Prop :=
  ∀ q, (dead q → k q = none) ∧ (¬ dead q → k q = h q)

/-- Specification of a deleting function at heights below `f`. -/
def DeletesBelow (del : Heap → Ptr → Res) (ht : Ptr → Nat) (f : Nat) : Prop :=
  ∀ h d, SubOK h ht d → ht d < f → ∃ k, del h d = .ok k ∧ Carved h k (InSub h d)

/-- The objects reachable from `a` through child sequences form a tree of live objects:
`a` is live, its children are pairwise distinct, each child is the root of such a tree,
and the trees of two different children have no object in common. -/
inductive TreeAt (h : Heap) : Ptr → Prop
  | node (a : Ptr) (t : TreeNode) : h a = some t → t.children.Nodup →
      (∀ c ∈ t.children, TreeAt h c) →
      (∀ c1 ∈ t.children, ∀ c2 ∈ t.children, c1 ≠ c2 → ∀ q, InSub h c1 q → ¬ InSub h c2 q) →
      TreeAt h a

/-- Every live object with a parent is listed in the child sequence of that parent. -/
def Attached (h : Heap) : Prop :=
  ∀ n nd p, h n = some nd → nd.parent = some p → IsChild h p n

/-! ## Call sequences -/

/-- Calls that change the tree: construction of an object and the four mutating member
functions of `TreeNode`. -/
inductive Op where
  | create (p : Ptr) (c : NodeClass)
  | addChild (this node : Ptr)
  | removeChild (this : Ptr) (row : Int)
  | removeChildren (this : Ptr)
  | removeSelf (this : Ptr)

/-- A call that ran to completion, taking heap `h` to heap `k`. -/
def Step (h : Heap) : Op → Heap → Prop
  | .create p c, k => h p = none ∧ k = construct h p c
  | .addChild this node, k => addChild h this node = .ok k
  | .removeChild this row, k => ∃ fuel, removeChild fuel h this row = .ok k
  | .removeChildren this, k => ∃ fuel, removeChildren fuel h this = .ok k
  | .removeSelf this, k => ∃ fuel, removeSelf fuel h this = .ok k

/-- Heap holding a single root object and nothing else. -/
def rootHeap (r : Ptr) : Heap :=
  construct (fun _ => none) r NodeClass.treeNode

/-- Heaps reachable from a single root by completed calls. -/
inductive Reachable (r : Ptr) : Heap → Prop
  | root : Reachable r (rootHeap r)
  | step {h k : Heap} {op : Op} : Reachable r h → Step h op k → Reachable r k

/-- The argument `node` of an insertion under `this` is a live object without parent that
is neither `this` nor one of its ancestors. -/
def Detached (h : Heap) (this node : Ptr) : Prop :=
  ∃ nd, h node = some nd ∧ nd.parent = none ∧ ¬ InSub h node this

/-- Discipline on calls: `addChild` receives detached nodes only. -/
def Disciplined (h : Heap) : Op → Prop
  | .addChild this node => Detached h this node
  | _ => True

/-- Heaps reachable from a single root by completed, disciplined calls. -/
inductive ReachableD (r : Ptr) : Heap → Prop
  | root : ReachableD r (rootHeap r)
  | step {h k : Heap} {op : Op} : ReachableD r h → Disciplined h op → Step h op k →
      ReachableD r k

/-- Every node of the tree under `r`, other than `r`, has one parent, its back-reference
designates that parent, and it occurs once in the child sequence of that parent. -/
def OwnedOnce (h : Heap) (r : Ptr) : Prop :=
  ∀ n, n ≠ r → InSub h r n → ∃ p t nd, h n = some nd ∧ h p = some t ∧ nd.parent = some p ∧
    t.children.count n = 1 ∧ ∀ q tq, h q = some tq → n ∈ tq.children → q = p

/-- Follow `getParent` for `k` steps. -/
def climb (h : Heap) : Nat → Ptr → Option Ptr
  | 0, n => some n
  | k + 1, n =>
    match getParent h n with
    | some (some p) => climb h k p
    | _ => none

/-- No node is its own ancestor: parent chains end at a parentless node and no node is
reachable from itself through child sequences. -/
def NoCycle (h : Heap) : Prop :=
  (∀ n t, h n = some t → ∃ k r, climb h k n = some r ∧ getParent h r = some none) ∧
    ∀ n, ¬ Relation.TransGen (IsChild h) n n

/-- Heap of an outcome: the result, or the heap at the abort. -/
def Res.heap : Res → Heap
  | .ok k => k
  | .error e => e.2

/-- Sample tree: root `0` with children `1` and `2`, and `3` the only child of `1`. -/
def sampleHeap : Heap := fun q =>
  if q = 0 then some { parent := none, children := [1, 2], cls := NodeClass.treeNode }
  else if q = 1 then some { parent := some 0, children := [3], cls := NodeClass.treeNode }
  else if q = 2 then some { parent := some 0, children := [], cls := NodeClass.treeNode }
  else if q = 3 then some { parent := some 1, children := [], cls := NodeClass.treeNode }
  else none

/-- Root `0` and one child `1`, built by `new` and one `addChild`. -/
def pairHeap : Heap :=
  Res.heap (addChild (construct (rootHeap 0) 1 NodeClass.treeNode) 0 1)

/-- The heap after `root->addChild(node)` is called a second time with the same node. -/
def dupHeap : Heap :=
  Res.heap (addChild pairHeap 0 1)

/-- The heap after `root->addChild(root)` on a single root. -/
def loopHeap : Heap :=
  Res.heap (addChild (rootHeap 0) 0 0)

/-- The sample tree after `addChild` puts node `3`, a child of node `1`, also under node
`2`: node `3` is listed by both and designates node `2` as its parent. -/
def sharedHeap : Heap :=
  Res.heap (addChild sampleHeap 2 3)

/-- Heap `k` holds only objects of heap `h`, each with its class and parent unchanged and
with a subsequence of its former children. -/
def Shrinks (h k : Heap) : Prop :=
  ∀ q tq, k q = some tq → ∃ t, h q = some t ∧ tq.cls = t.cls ∧ tq.parent = t.parent ∧
    tq.children.Sublist t.children

/-- Heap `k` is heap `h` with some objects released. -/
def Frame (h k : Heap) : Prop :=
  ∀ q, k q = none ∨ k q = h q

/-- Objects released between `h` and `k` take their children with them. -/
def Closed (h k : Heap) : Prop :=
  ∀ x y, IsChild h x y → k x = none → k y = none

/-- Heap `k` is heap `h` with the subtree hanging from `c` released, and nothing else. -/
structure Releases (h k : Heap) (c : Ptr) : Prop where
  frame : Frame h k
  gone : k c = none
  closed : Closed h k
  origin : ∀ q, k q = none → h q = none ∨ InSub h c q

/-- The part of the ownership-tree invariant that concerns parents: children are live and
designate their parent, no child is listed twice, and a node with a parent is listed by it. -/
structure Owned (h : Heap) : Prop where
  backref : ∀ p t c, h p = some t → c ∈ t.children →
    ∃ cn, h c = some cn ∧ cn.parent = some p
  nodup : ∀ p t, h p = some t → t.children.Nodup
  attached : ∀ n nd p, h n = some nd → nd.parent = some p →
    ∃ t, h p = some t ∧ n ∈ t.children

/-- The part of the ownership-tree invariant that excludes cycles: a node with a parent
is listed by it, and a depth strictly increases along child sequences. -/
structure Rooted (h : Heap) : Prop where
  attached : ∀ n nd p, h n = some nd → nd.parent = some p →
    ∃ t, h p = some t ∧ n ∈ t.children
  depth : ∃ d : Ptr → Nat, ∀ p c, IsChild h p c → d p < d c

/-- Discipline on calls: the argument of `addChild` is neither the receiver nor a node
from which the receiver is reachable through child sequences. -/
def NotAncestor (h : Heap) : Op → Prop
  | .addChild this node => ¬ InSub h node this
  | _ => True

/-- Heaps reachable from a single root by completed calls that respect `NotAncestor`. -/
inductive ReachableA (r : Ptr) : Heap → Prop
  | root : ReachableA r (rootHeap r)
  | step {h k : Heap} {op : Op} : ReachableA r h → NotAncestor h op → Step h op k →
      ReachableA r k

/-- Discipline on calls: `addChild` receives nodes without parent only. -/
def Unattached (h : Heap) : Op → Prop
  | .addChild _ node => ∃ nd, h node = some nd ∧ nd.parent = none
  | _ => True

/-- Heaps reachable from a single root by completed calls that respect `Unattached`. -/
inductive ReachableP (r : Ptr) : Heap → Prop
  | root : ReachableP r (rootHeap r)
  | step {h k : Heap} {op : Op} : ReachableP r h → Unattached h op → Step h op k →
      ReachableP r k

/-- Every live `IconNode` is a leaf. -/
def LeafIcons (h : Heap) : Prop :=
  ∀ p t ty, h p = some t → t.cls = NodeClass.iconNode ty →
    childCount h p = some 0 ∧ hasChildren h p = some false

/-- Calls that the deleted member `IconNode::addChild` leaves available on an object used
at its own class: `addChild` is never invoked with an `IconNode` as receiver. -/
def IconSafe (h : Heap) : Op → Prop
  | .addChild this _ => ∀ t ty, h this = some t → t.cls ≠ NodeClass.iconNode ty
  | _ => True

/-- Heaps reachable from a single root by completed calls that respect `IconSafe`. -/
inductive ReachableI (r : Ptr) : Heap → Prop
  | root : ReachableI r (rootHeap r)
  | step {h k : Heap} {op : Op} : ReachableI r h → IconSafe h op → Step h op k →
      ReachableI r k

/-- Root `0` with an `IconNode` at address `1` as its only child. -/
def iconHeap : Heap :=
  Res.heap (addChild (construct (rootHeap 0) 1 (NodeClass.iconNode IconType.TypeIcon)) 0 1)

/-- The heap after a new `TreeNode` at address `2` is passed to `TreeNode::addChild`,
called on the `IconNode` through its base class. -/
def iconParentHeap : Heap :=
  Res.heap (addChild (construct iconHeap 2 NodeClass.treeNode) 1 2)

/-- Modelled from the spec: insertion of a group node at a chosen position of the child
sequence (`node->parent = this; getChildren().insert(pos, node);`), used where the spec
places a new `ActivityNode` in scope declaration order.  `treenode.cpp` has no member for
it; the position is left to the caller. -/
def insertChild (h : Heap) (this : Ptr) (pos : Nat) (node : Ptr) : Res :=
  match h node with
  | none => .error (Fault.invalidPointer, h)
  | some nd =>
    let h1 := h.set node (some { nd with parent := some this })
    match h1 this with
    | none => .error (Fault.invalidPointer, h1)
    | some t =>
      if pos ≤ t.children.length then
        .ok (h1.set this (some { t with children := t.children.insertIdx pos node }))
      else .error (Fault.indexOutOfRange, h1)

end TreeNodes

/-! # The icon projection model (`apk/iconitemsmodel.h`)

The header declares the enumerations, the node classes and the data members of
`IconItemsModel`; the member functions are declared there and defined in a file that is
not part of the sources, so their effect on the data members is modelled from the
specification. -/

namespace IconItems

open TreeNodes

/-- Enumeration `IconItemsModel::Row`. -/
inductive Row where
  | ApplicationRow
  | ActivitiesRow
  | RowCount
  deriving DecidableEq, Repr

/-- Enumeration `IconItemsModel::Column`. -/
inductive Column where
  | CaptionColumn
  | PathColumn
  | TypeColumn
  | ColumnCount
  deriving DecidableEq, Repr

/-- Value of an enumerator of `Row`: enumerators without initialiser count up from zero
in declaration order. -/
def Row.value (r : Row) : Int := r.toCtorIdx

/-- Value of an enumerator of `Column`. -/
def Column.value (c : Column) : Int := c.toCtorIdx

/-- A `QHash` between source identities (`QPersistentModelIndex`) and `IconNode`
addresses, as a finite map given by its lookup function. -/
abbrev QHash := Nat → Option Nat

/-- `QHash::insert`: an existing value for the key is replaced. -/
def QHash.insert (m : QHash) (k v : Nat) : QHash :=
  fun x => if x = k then some v else m x

/-- `QHash::remove`. -/
def QHash.remove (m : QHash) (k : Nat) : QHash :=
  fun x => if x = k then none else m x

/-- The empty `QHash`. -/
def QHash.empty : QHash := fun _ => none

/-- Data members of `IconItemsModel` (the scope list plays no part in the model: scope
resolution is an external capability whose results arrive with the events). -/
structure IconItemsModel where
  heap : Heap
  sourceToProxyMap : QHash
  proxyToSourceMap : QHash
  root : Ptr
  applicationNode : Ptr
  activitiesNode : Ptr

/-- Modelled from the spec: the heap built by the constructor of `IconItemsModel`, the
root and the two groups, each group constructed and added to the root, Application first
and Activities second. -/
def initHeap (r ap ac : Ptr) : Heap :=
  Res.heap (addChild (construct (Res.heap (addChild
    (construct (construct (fun _ => none) r NodeClass.treeNode) ap NodeClass.treeNode) r ap))
      ac NodeClass.treeNode) r ac)

/-- Modelled from the spec: the constructor of `IconItemsModel` ("exactly two top-level
groups are always present", row 0 the Application group, row 1 the Activities group),
with empty maps. -/
def IconItemsModel.init (r ap ac : Ptr) : IconItemsModel :=
  { heap := initHeap r ap ac
    sourceToProxyMap := QHash.empty
    proxyToSourceMap := QHash.empty
    root := r
    applicationNode := ap
    activitiesNode := ac }

/-- Modelled from the spec: the test that object `c` is the `ActivityNode` of scope `sc`. -/
def isActivityOf (h : Heap) (sc : Nat) (c : Ptr) : Bool :=
  decide ((h c).map (fun t => t.cls) = some (NodeClass.activityNode sc))

/-- Modelled from the spec: the test that object `g` is an `ActivityNode`. -/
def isActivity (h : Heap) (g : Ptr) : Bool :=
  match h g with
  | some t =>
    match t.cls with
    | NodeClass.activityNode _ => true
    | _ => false
  | none => false

/-- Modelled from the spec: lookup of the `ActivityNode` of scope `sc` among the children
of the Activities group. -/
def findActivity (h : Heap) (activities : Ptr) (sc : Nat) : Option Ptr :=
  (h activities).bind fun t => t.children.find? (isActivityOf h sc)

/-- Modelled from the spec: the owning group node of a new icon, "Application, or the
specific ActivityNode, created lazily on first matching icon and inserted in scope
declaration order".  `group` is `none` for the application scope and `some sc` for the
activity scope `sc`; `freshAct` is the address `new` gives to a lazily created
`ActivityNode` and `pos` the position scope order assigns to it. -/
def ownerGroup (m : IconItemsModel) (group : Option Nat) (freshAct : Ptr) (pos : Nat) :
    Option (Heap × Ptr) :=
  match group with
  | none => some (m.heap, m.applicationNode)
  | some sc =>
    match findActivity m.heap m.activitiesNode sc with
    | some a => some (m.heap, a)
    | none =>
      if m.heap freshAct = none then
        match insertChild (construct m.heap freshAct (NodeClass.activityNode sc))
            m.activitiesNode pos freshAct with
        | .ok h1 => some (h1, freshAct)
        | .error _ => none
      else none

/-- Modelled from the spec: the leaf creation of the initial build and of the insert
notification: "creates an IconNode, inserts it under the owning group node, and registers
the bidirectional mapping entry".  `freshIcon` is the address `new` gives to the
`IconNode`. -/
def createLeaf (m : IconItemsModel) (s : Nat) (group : Option Nat) (ty : IconType)
    (freshIcon freshAct : Ptr) (pos : Nat) : Option IconItemsModel :=
  match ownerGroup m group freshAct pos with
  | none => none
  | some (h1, g) =>
    if h1 freshIcon = none then
      match addChild (construct h1 freshIcon (NodeClass.iconNode ty)) g freshIcon with
      | .ok h2 =>
        some { m with
          heap := h2
          sourceToProxyMap := m.sourceToProxyMap.insert s freshIcon
          proxyToSourceMap := m.proxyToSourceMap.insert freshIcon s }
      | .error _ => none
    else none

/-- Modelled from the spec: `IconItemsModel::appendIcon`, which the header declares with
a `bool` result.  The two maps are "kept as mutual inverses at all times", so a source
identity that is already a key of `sourceToProxyMap` is refused: the result is `false` and
nothing changes.  Otherwise the leaf is created and the result is `true`.  `none` stands
for a call that aborts. -/
def appendIcon (m : IconItemsModel) (s : Nat) (group : Option Nat) (ty : IconType)
    (freshIcon freshAct : Ptr) (pos : Nat) : Option (Bool × IconItemsModel) :=
  match m.sourceToProxyMap s with
  | some _ => some (false, m)
  | none => (createLeaf m s group ty freshIcon freshAct pos).map fun k => (true, k)

/-- Modelled from the spec: the reaction of `IconItemsModel::sourceRowsAboutToBeRemoved`
to one source node of the range: "look up its proxy via sourceToProxy; if found, remove
the IconNode from its synthetic parent (destroying it), erase both map entries, and if an
ActivityNode is left with no children, remove it too"; a source node without proxy is a
no-op. -/
def removeSourceRow (fuel : Nat) (m : IconItemsModel) (s : Nat) :
    Option IconItemsModel :=
  match m.sourceToProxyMap s with
  | none => some m
  | some p =>
    match getParent m.heap p with
    | some (some g) =>
      match removeSelf fuel m.heap p with
      | .error _ => none
      | .ok h1 =>
        if isActivity h1 g && decide (childCount h1 g = some 0) then
          match removeSelf fuel h1 g with
          | .ok h2 =>
            some { m with
              heap := h2
              sourceToProxyMap := m.sourceToProxyMap.remove s
              proxyToSourceMap := m.proxyToSourceMap.remove p }
          | .error _ => none
        else
          some { m with
            heap := h1
            sourceToProxyMap := m.sourceToProxyMap.remove s
            proxyToSourceMap := m.proxyToSourceMap.remove p }
    | _ => none

/-- Modelled from the spec: the first half of `IconItemsModel::sourceModelReset`, "discard
the entire synthetic tree and mapping tables"; the two groups stay (the two-row shape "is
fixed and never mutated structurally"). -/
def discardTree (fuel : Nat) (m : IconItemsModel) : Option IconItemsModel :=
  match removeChildren fuel m.heap m.applicationNode with
  | .error _ => none
  | .ok h1 =>
    match removeChildren fuel h1 m.activitiesNode with
    | .error _ => none
    | .ok h2 =>
      some { m with
        heap := h2
        sourceToProxyMap := QHash.empty
        proxyToSourceMap := QHash.empty }

/-- Modelled from the spec: the elementary reactions of the model, one call of
`appendIcon`, the removal for one source node, the data-changed reaction and the
discarding of the tree. -/
inductive Action where
  | append (s : Nat) (group : Option Nat) (ty : IconType) (freshIcon freshAct : Ptr) (pos : Nat)
  | aboutToRemove (fuel : Nat) (s : Nat)
  | dataChanged
  | discard (fuel : Nat)

/-- Modelled from the spec: effect of an elementary reaction (`none` when a call aborts);
data-changed causes "no structural change". -/
def act (m : IconItemsModel) : Action → Option IconItemsModel
  | .append s group ty freshIcon freshAct pos =>
    (appendIcon m s group ty freshIcon freshAct pos).map Prod.snd
  | .aboutToRemove fuel s => removeSourceRow fuel m s
  | .dataChanged => some m
  | .discard fuel => discardTree fuel m

/-- Reactions performed one after the other. -/
def run (m : IconItemsModel) : List Action → Option IconItemsModel
  | [] => some m
  | a :: as => (act m a).bind fun k => run k as

/-- Modelled from the spec: one result of the external scope resolution, a source node
matching a (scope, slot) pair: the source identity, the scope (`none` for the application,
`some sc` for an activity), the icon type of the slot, and the addresses and position the
leaf creation will use. -/
structure Hit where
  source : Nat
  group : Option Nat
  iconType : IconType
  freshIcon : Ptr
  freshAct : Ptr
  pos : Nat

/-- The call of `appendIcon` for a hit. -/
def Hit.action (x : Hit) : Action :=
  Action.append x.source x.group x.iconType x.freshIcon x.freshAct x.pos

/-- Modelled from the spec: `IconItemsModel::populateFromSource`, the initial build: "for
each resolvable (scope, slot) pair, looks up matching source nodes and, for each, creates
an IconNode", in resolution order. -/
def populateFromSource (m : IconItemsModel) (hits : List Hit) : Option IconItemsModel :=
  run m (hits.map Hit.action)

/-- Modelled from the spec: `IconItemsModel::sourceRowsInserted`, "the same leaf-creation
logic as initial build, restricted to the inserted subrange"; `hits` are the resolution
results for the inserted rows. -/
def sourceRowsInserted (m : IconItemsModel) (hits : List Hit) : Option IconItemsModel :=
  run m (hits.map Hit.action)

/-- Modelled from the spec: `IconItemsModel::sourceRowsAboutToBeRemoved`, the removal "for
each source node about to be removed"; `rows` are the source identities of the range. -/
def sourceRowsAboutToBeRemoved (fuel : Nat) (m : IconItemsModel) (rows : List Nat) :
    Option IconItemsModel :=
  run m (rows.map (Action.aboutToRemove fuel))

/-- Modelled from the spec: `IconItemsModel::sourceDataChanged`, "no structural change
occurs". -/
def sourceDataChanged (m : IconItemsModel) : Option IconItemsModel :=
  run m [Action.dataChanged]

/-- Modelled from the spec: `IconItemsModel::sourceModelReset`, "discard the entire
synthetic tree and mapping tables; rebuild ab initio via the initial-build procedure". -/
def sourceModelReset (fuel : Nat) (m : IconItemsModel) (hits : List Hit) :
    Option IconItemsModel :=
  run m (Action.discard fuel :: hits.map Hit.action)

/-- Modelled from the spec: the notifications of the source model, and the initial
population. -/
inductive Notification where
  | populate (hits : List Hit)
  | rowsInserted (hits : List Hit)
  | rowsAboutToBeRemoved (fuel : Nat) (rows : List Nat)
  | dataChanged
  | modelReset (fuel : Nat) (hits : List Hit)

/-- The elementary reactions a notification consists of. -/
def Notification.actions : Notification → List Action
  | .populate hits => hits.map Hit.action
  | .rowsInserted hits => hits.map Hit.action
  | .rowsAboutToBeRemoved fuel rows => rows.map (Action.aboutToRemove fuel)
  | .dataChanged => [Action.dataChanged]
  | .modelReset fuel hits => Action.discard fuel :: hits.map Hit.action

/-- Reaction of the model to a notification. -/
def notify (m : IconItemsModel) : Notification → Option IconItemsModel
  | .populate hits => populateFromSource m hits
  | .rowsInserted hits => sourceRowsInserted m hits
  | .rowsAboutToBeRemoved fuel rows => sourceRowsAboutToBeRemoved fuel m rows
  | .dataChanged => sourceDataChanged m
  | .modelReset fuel hits => sourceModelReset fuel m hits

/-- States reachable from the constructed model by any sequence of notifications. -/
inductive ReachableM : IconItemsModel → Prop
  | init (r ap ac : Ptr) : r ≠ ap → r ≠ ac → ap ≠ ac → ReachableM (IconItemsModel.init r ap ac)
  | step {m k : IconItemsModel} (n : Notification) : ReachableM m → notify m n = some k →
      ReachableM k

/-- The two maps are mutual inverses. -/
def MutualInverse (m : IconItemsModel) : Prop :=
  ∀ s p, m.sourceToProxyMap s = some p ↔ m.proxyToSourceMap p = some s

/-- Modelled from the spec: `IconItemsModel::rowCount`; the view adapter "exposes the
synthetic tree", so the rows under an address are the children of its node, the invalid
address (`none`) standing for the root. -/
def rowCount (m : IconItemsModel) (parent : Option Ptr) : Option Int :=
  (childCount m.heap (parent.getD m.root)).map fun n => (n : Int)

/-- Modelled from the spec: `IconItemsModel::columnCount`, "three columns (caption, path,
type)" under every address. -/
def columnCount (_m : IconItemsModel) (_parent : Option Ptr) : Int :=
  Column.ColumnCount.value

/-- The fixed top shape: the root exposes `RowCount` rows, Application and Activities in
this order, and `ColumnCount` columns. -/
def TopShape (m : IconItemsModel) : Prop :=
  rowCount m none = some Row.RowCount.value ∧ columnCount m none = Column.ColumnCount.value ∧
    getChild m.heap m.root Row.ApplicationRow.value = some m.applicationNode ∧
    getChild m.heap m.root Row.ActivitiesRow.value = some m.activitiesNode

/-- Shape of the heap of the model: an ownership tree whose root lists exactly the two
groups, with every `IconNode` a leaf. -/
structure HeapOK (h : Heap) (r ap ac : Ptr) : Prop where
  forest : Forest h
  rootCell : h r = some { parent := none, children := [ap, ac], cls := NodeClass.treeNode }
  appCell : ∃ t, h ap = some t ∧ t.cls = NodeClass.treeNode
  actCell : ∃ t, h ac = some t ∧ t.cls = NodeClass.treeNode
  leaves : ∀ p t ty, h p = some t → t.cls = NodeClass.iconNode ty → t.children = []

/-- Invariant of the model under arbitrary notifications. -/
structure Core (m : IconItemsModel) : Prop where
  heapOK : HeapOK m.heap m.root m.applicationNode m.activitiesNode
  forward : ∀ s p, m.sourceToProxyMap s = some p → m.proxyToSourceMap p = some s
  keys : ∀ p s, m.proxyToSourceMap p = some s →
    ∃ t ty, m.heap p = some t ∧ t.cls = NodeClass.iconNode ty

/-- Modelled from the spec: `IconItemsModel::mapToSource`, which "returns the registered
source identity or an invalid result".  A synthetic address is given by the node it bears
(`none` is the invalid address), the registered identity is the value `proxyToSourceMap`
holds for that node, and `none` is the invalid result. -/
def mapToSource (m : IconItemsModel) (proxyIndex : Option Ptr) : Option Nat :=
  proxyIndex.bind m.proxyToSourceMap

/-- Modelled from the spec: `IconItemsModel::mapFromSource`, "valid only for source
identities present in `sourceToProxy`; otherwise invalid": the value `sourceToProxyMap`
holds for the identity, `none` being the invalid address. -/
def mapFromSource (m : IconItemsModel) (sourceIndex : Option Nat) : Option Ptr :=
  sourceIndex.bind m.sourceToProxyMap

/-- Node `p` is a live `IconNode`. -/
def IsIconNode (h : Heap) (p : Ptr) : Prop :=
  ∃ t ty, h p = some t ∧ t.cls = NodeClass.iconNode ty

/-- Node `p` is a live group or activity node: the root, a group, or an `ActivityNode`. -/
def IsGroupRow (h : Heap) (p : Ptr) : Prop :=
  ∃ t, h p = some t ∧ ∀ ty, t.cls ≠ NodeClass.iconNode ty

/-- Every `IconNode` of the tree hanging from `r` is a key of the map `p2s`. -/
def Keyed (h : Heap) (r : Ptr) (p2s : QHash) : Prop :=
  ∀ p, InSub h r p → IsIconNode h p → ∃ s, p2s p = some s

/-- Source identity `7` resolved for the application scope; the `IconNode` goes to
address `3`. -/
def hitApplication : Hit :=
  { source := 7, group := none, iconType := IconType.TypeIcon, freshIcon := 3, freshAct := 0,
    pos := 0 }

/-- Source identity `7` resolved for the activity scope `5`; a new `ActivityNode` goes to
address `5` and the `IconNode` to address `4`. -/
def hitActivity : Hit :=
  { source := 7, group := some 5, iconType := IconType.TypeIcon, freshIcon := 4, freshAct := 5,
    pos := 0 }

/-- Model with root `0` and groups `1` and `2` after an initial population in which source
identity `7` resolves for the application scope only. -/
def onceRegistered : IconItemsModel :=
  (notify (IconItemsModel.init 0 1 2) (Notification.populate [hitApplication])).getD
    (IconItemsModel.init 0 1 2)

/-- Model with root `0` and groups `1` and `2` after an initial population in which source
identity `7` resolves for the application scope and then for the activity scope `5`: the
second resolution is refused. -/
def twiceRegistered : IconItemsModel :=
  (notify (IconItemsModel.init 0 1 2)
    (Notification.populate [hitApplication, hitActivity])).getD (IconItemsModel.init 0 1 2)

end IconItems

/-! # The project tabs (`widgets/projecttabswidget.cpp`)

`ProjectTabsWidget` is a `QTabWidget` whose pages are editors.  The state of the widget is
the sequence of its pages, the index of the current page and the modified flag of the
project it shows.  Editor classes are defined outside the sources: an editor enters the
model as the address and title a `new` expression yields, `save()` as a function of the
environment. -/

namespace ProjectTabs

/-- A `QString`, as the sequence of its characters. -/
abbrev QString := List Char

/-- Address of an editor object (`BaseEditor *`). -/
abbrev Widget := Nat

/-- The editor classes that `ProjectTabsWidget` instantiates. -/
inductive EditorClass where
  | ProjectManager
  | TitleEditor
  | CodeEditor
  | ImageEditor
  deriving DecidableEq, Repr

/-- A page of the tab widget: the editor object, its class, its dynamic property
`"identifier"` and the text of its tab. -/
structure Page where
  widget : Widget
  cls : EditorClass
  identifier : QString
  text : QString
  deriving DecidableEq, Repr

/-- State of a `ProjectTabsWidget`: the pages in index order, `currentIndex()` and the
modified state of `project`. -/
structure ProjectTabsWidget where
  pages : List Page
  currentIndex : Int
  projectModified : Bool
  deriving DecidableEq, Repr

/-- What a `new` expression for an editor yields: the address of the object and the title
its class gives it (`getTitle()`). -/
structure NewEditor where
  address : Widget
  title : QString
  deriving DecidableEq, Repr

/-- The results of `CodeEditor::supportedFormats()` and `ImageEditor::supportedFormats()`. -/
structure Formats where
  code : List QString
  image : List QString

/-- A `ResourceModelIndex`, as far as the tabs use it: `index.path()`. -/
structure ResourceModelIndex where
  path : QString
  deriving DecidableEq, Repr

/-- `QTabWidget::count`. -/
def count (w : ProjectTabsWidget) : Int := w.pages.length

/-- The page at an index, for `0 <= index < count()` only. -/
def page? (w : ProjectTabsWidget) (index : Int) : Option Page :=
  if 0 ≤ index then w.pages[index.toNat]? else none

/-- `QTabWidget::widget`: null when the index is out of range. -/
def widget (w : ProjectTabsWidget) (index : Int) : Option Widget :=
  (page? w index).map Page.widget

/-- `QTabWidget::indexOf`: index of the page of a widget, `-1` when there is none. -/
def indexOf (w : ProjectTabsWidget) (x : Widget) : Int :=
  TreeNodes.indexOf (w.pages.map Page.widget) x

/-- `QTabWidget::setCurrentIndex`: an index out of range is ignored. -/
def setCurrentIndex (w : ProjectTabsWidget) (index : Int) : ProjectTabsWidget :=
  if 0 ≤ index ∧ index < count w then { w with currentIndex := index } else w

/-- `QTabWidget::tabText`: the empty string when the index is out of range. -/
def tabText (w : ProjectTabsWidget) (index : Int) : QString :=
  ((page? w index).map Page.text).getD []

/-- `QTabWidget::setTabText`: an index out of range is ignored. -/
def setTabText (w : ProjectTabsWidget) (index : Int) (text : QString) : ProjectTabsWidget :=
  match page? w index with
  | some p => { w with pages := w.pages.set index.toNat { p with text := text } }
  | none => w

/-- `ProjectTabsWidget::addTab`: `QTabWidget::addTab` puts the page behind the existing
ones and returns its index, which is then made current.  The slots connected here are
`savedStateChanged` below and the title and icon updates. -/
def addTab (w : ProjectTabsWidget) (tab : Page) : Int × ProjectTabsWidget :=
  let tabIndex := count w
  (tabIndex, setCurrentIndex { w with pages := w.pages ++ [tab] } tabIndex)

/-- `ProjectTabsWidget::getTabByIdentifier`: the first page, in index order, whose
property `"identifier"` equals the argument, null when there is none. -/
def getTabByIdentifier (w : ProjectTabsWidget) (identifier : QString) : Option Widget :=
  (w.pages.find? fun tab => decide (tab.identifier = identifier)).map Page.widget

/-- `ProjectTabsWidget::openProjectTab`; `e` is what `new ProjectManager` yields. -/
def openProjectTab (w : ProjectTabsWidget) (e : NewEditor) :
    Option Widget × ProjectTabsWidget :=
  let identifier : QString := ['p', 'r', 'o', 'j', 'e', 'c', 't']
  match getTabByIdentifier w identifier with
  | some existing => (some existing, setCurrentIndex w (indexOf w existing))
  | none =>
    let tab : Page :=
      { widget := e.address, cls := EditorClass.ProjectManager, identifier := identifier,
        text := e.title }
    (some tab.widget, (addTab w tab).2)

/-- `ProjectTabsWidget::openTitlesTab`; `e` is what `new TitleEditor` yields. -/
def openTitlesTab (w : ProjectTabsWidget) (e : NewEditor) :
    Option Widget × ProjectTabsWidget :=
  let identifier : QString := ['t', 'i', 't', 'l', 'e', 's']
  match getTabByIdentifier w identifier with
  | some existing => (some existing, setCurrentIndex w (indexOf w existing))
  | none =>
    let editor : Page :=
      { widget := e.address, cls := EditorClass.TitleEditor, identifier := identifier,
        text := e.title }
    (some editor.widget, (addTab w editor).2)

/-- The part of a string behind the last occurrence of `c`, `none` without occurrence. -/
def afterLast (c : Char) (s : QString) : Option QString :=
  if c ∈ s then some (s.reverse.takeWhile fun x => decide (x ≠ c)).reverse else none

/-- `QFileInfo(path).suffix()`: the characters of the file name behind its last `'.'`,
the file name being what follows the last `'/'`. -/
def suffix (path : QString) : QString :=
  (afterLast '.' ((afterLast '/' path).getD path)).getD []

/-- `ProjectTabsWidget::openResourceTab`; `e` is what `new CodeEditor` or
`new ImageEditor` yields. -/
def openResourceTab (fm : Formats) (w : ProjectTabsWidget) (index : ResourceModelIndex)
    (e : NewEditor) : Option Widget × ProjectTabsWidget :=
  let path := index.path
  let identifier := path
  match getTabByIdentifier w identifier with
  | some existing => (some existing, setCurrentIndex w (indexOf w existing))
  | none =>
    let extension := suffix path
    if extension ∈ fm.code then
      let editor : Page :=
        { widget := e.address, cls := EditorClass.CodeEditor, identifier := identifier,
          text := e.title }
      (some editor.widget, (addTab w editor).2)
    else if extension ∈ fm.image then
      let editor : Page :=
        { widget := e.address, cls := EditorClass.ImageEditor, identifier := identifier,
          text := e.title }
      (some editor.widget, (addTab w editor).2)
    else (none, w)

/-- A `QTabWidget` without pages. -/
def emptyTabs (projectModified : Bool) : ProjectTabsWidget :=
  { pages := [], currentIndex := -1, projectModified := projectModified }

/-- The constructor of `ProjectTabsWidget`: it ends with `openProjectTab()`. -/
def ProjectTabsWidget.new (projectModified : Bool) (e : NewEditor) : ProjectTabsWidget :=
  (openProjectTab (emptyTabs projectModified) e).2

/-- What a call asks to open. -/
inductive Target where
  | project
  | titles
  | resource (index : ResourceModelIndex)
  deriving DecidableEq, Repr

/-- The identifier under which a target is looked up and registered. -/
def Target.identifier : Target → QString
  | .project => ['p', 'r', 'o', 'j', 'e', 'c', 't']
  | .titles => ['t', 'i', 't', 'l', 'e', 's']
  | .resource index => index.path

/-- A call of `openProjectTab`, `openTitlesTab` or `openResourceTab`. -/
def openTab (fm : Formats) (w : ProjectTabsWidget) (t : Target) (e : NewEditor) :
    Option Widget × ProjectTabsWidget :=
  match t with
  | .project => openProjectTab w e
  | .titles => openTitlesTab w e
  | .resource index => openResourceTab fm w index e

/-- The widgets of the pages, in index order. -/
def widgets (w : ProjectTabsWidget) : List Widget := w.pages.map Page.widget

/-- The identifiers of the pages, in index order. -/
def identifiers (w : ProjectTabsWidget) : List QString := w.pages.map Page.identifier

/-- States reachable from a constructed widget by calls of the three opening functions;
the address a `new` expression yields is not the address of a live editor. -/
inductive Reachable (fm : Formats) : ProjectTabsWidget → Prop
  | init (projectModified : Bool) (e : NewEditor) :
      Reachable fm (ProjectTabsWidget.new projectModified e)
  | step {w : ProjectTabsWidget} (t : Target) (e : NewEditor) : Reachable fm w →
      e.address ∉ widgets w → Reachable fm (openTab fm w t e).2

/-- The target has no editor: a resource whose extension neither editor supports. -/
def Unsupported (fm : Formats) : Target → Prop
  | .resource index => suffix index.path ∉ fm.code ∧ suffix index.path ∉ fm.image
  | _ => False

/-- Outcome of an opening call: a page with the requested identifier existed, the call
returned its editor, kept the pages and made that page current. -/
def Found (w w2 : ProjectTabsWidget) (identifier : QString) (ret : Option Widget) : Prop :=
  ∃ p, p ∈ w.pages ∧ p.identifier = identifier ∧ ret = some p.widget ∧
    w2.pages = w.pages ∧ page? w2 w2.currentIndex = some p

/-- Outcome of an opening call: no page had the requested identifier, the call put one
page carrying it behind the others, made it current and returned its editor. -/
def Added (w w2 : ProjectTabsWidget) (identifier : QString) (e : NewEditor)
    (ret : Option Widget) : Prop :=
  (∀ p ∈ w.pages, p.identifier ≠ identifier) ∧
    ∃ p, p.identifier = identifier ∧ p.widget = e.address ∧ ret = some e.address ∧
      w2.pages = w.pages ++ [p] ∧ page? w2 w2.currentIndex = some p

/-- Outcome of an opening call: no page had the requested identifier, neither editor
supports the extension, and the call returned null and changed nothing. -/
def Refused (fm : Formats) (w w2 : ProjectTabsWidget) (t : Target)
    (ret : Option Widget) : Prop :=
  (∀ p ∈ w.pages, p.identifier ≠ t.identifier) ∧ Unsupported fm t ∧ ret = none ∧ w2 = w

/-- The tab save indicator, `QString(" %1").arg(QChar(0x2022))`. -/
def indicator : QString := [' ', Char.ofNat 0x2022]

/-- `QString::endsWith`. -/
def endsWith (s t : QString) : Bool := decide (t <:+ s)

/-- `QString::chop`: the string without its last `n` characters, empty when it has no
more than `n`. -/
def chop (s : QString) (n : Nat) : QString := s.take (s.length - n)

/-- The slot that `addTab` connects to `SaveableEditor::savedStateChanged` of the editor
`saveableTab`. -/
def savedStateChanged (w : ProjectTabsWidget) (saveableTab : Widget) (tabSaved : Bool) :
    ProjectTabsWidget :=
  let w1 := if !tabSaved then { w with projectModified := true } else w
  let tabIndex := indexOf w1 saveableTab
  let tabTitle := tabText w1 tabIndex
  let titleModified := endsWith tabTitle indicator
  if !tabSaved && !titleModified then
    setTabText w1 tabIndex (tabTitle ++ indicator)
  else if tabSaved && titleModified then
    setTabText w1 tabIndex (chop tabTitle indicator.length)
  else w1

/-- The text of the tab of an editor. -/
def titleOf (w : ProjectTabsWidget) (x : Widget) : QString :=
  tabText w (indexOf w x)

/-- The loop of `saveTabs` from `index` on, at most `n` rounds; `save` is the virtual
`save()` of the editors, acting on the environment. -/
def saveLoop {σ : Type} (save : Widget → σ → Bool × σ) (w : ProjectTabsWidget) :
    Nat → Int → Bool → σ → Bool × σ
  | 0, _, result, env => (result, env)
  | n + 1, index, result, env =>
    if index < count w then
      match widget w index with
      | some tab =>
        let r := save tab env
        saveLoop save w n (index + 1) (if !r.1 then false else result) r.2
      | none => (result, env)
    else (result, env)

/-- `ProjectTabsWidget::saveTabs`; the loop takes `count()` rounds. -/
def saveTabs {σ : Type} (save : Widget → σ → Bool × σ) (w : ProjectTabsWidget) (env : σ) :
    Bool × σ :=
  saveLoop save w w.pages.length 0 true env

/-- A `save()` that also records, in order, the editor of each invocation and what the
invocation returned. -/
def recorded {σ : Type} (save : Widget → σ → Bool × σ) :
    Widget → σ × List (Widget × Bool) → Bool × (σ × List (Widget × Bool)) :=
  fun tab st => ((save tab st.1).1, ((save tab st.1).2, st.2 ++ [(tab, (save tab st.1).1)]))

/-- Formats for examples: the code editor supports `xml`, the image editor `png`. -/
def sampleFormats : Formats :=
  { code := [['x', 'm', 'l']], image := [['p', 'n', 'g']] }

/-- A widget with the project tab at address `10` and a code editor for `a.xml` at
address `11`. -/
def sampleTabs : ProjectTabsWidget :=
  (openTab sampleFormats
    (ProjectTabsWidget.new false { address := 10, title := ['A', 'P', 'K'] })
    (Target.resource { path := ['a', '.', 'x', 'm', 'l'] })
    { address := 11, title := ['a', '.', 'x', 'm', 'l'] }).2

end ProjectTabs

/-! # The Android explorer (`windows/androidexplorer.cpp`)

The clipboard of the explorer and the enabled state of its paste action.  The file system
model and the file list are defined outside the sources: a slot reads them through a
`View`, and the `move` and `copy` requests the explorer sends to the model are kept in
the order they are sent. -/

namespace Explorer

/-- A `QString`, as the sequence of its characters. -/
abbrev QString := List Char

/-- A `QModelIndex` of the file list: a row of the model, or the invalid index `none`. -/
abbrev QModelIndex := Option Nat

/-- Enumeration `AndroidFileSystemItem::Type`, as far as the explorer uses it. -/
inductive AndroidFileSystemItem where
  | AndroidFSFile
  | AndroidFSDirectory
  deriving DecidableEq, Repr

/-- What a slot reads from `fileSystemModel` and `fileList` while it runs:
`getCurrentPath()`, `getItemPath(index)`, `getItemType(index)` and
`fileList->currentIndex()`. -/
structure View where
  currentPath : QString
  itemPath : Nat → QString
  itemType : Nat → AndroidFileSystemItem
  currentIndex : QModelIndex

/-- A request sent to `fileSystemModel`. -/
inductive Request where
  | move (src dst : QString)
  | copy (src dst : QString)
  deriving DecidableEq, Repr

/-- The member `clipboard`. -/
structure Clipboard where
  data : QString
  move : Bool
  deriving DecidableEq, Repr

/-- State of an `AndroidExplorer`: the clipboard, `actionPaste->isEnabled()`, and the
requests sent so far, oldest first. -/
structure AndroidExplorer where
  clipboard : Clipboard
  pasteEnabled : Bool
  requests : List Request
  deriving DecidableEq, Repr

/-- The state the constructor leaves: `actionPaste->setEnabled(false)`, a default
constructed clipboard path, no request sent; `move0` is the initial value the class
definition gives to `clipboard.move`. -/
def AndroidExplorer.new (move0 : Bool) : AndroidExplorer :=
  { clipboard := { data := [], move := move0 }, pasteEnabled := false, requests := [] }

/-- `AndroidExplorer::move`: forwards to `fileSystemModel->move`. -/
def move (x : AndroidExplorer) (src dst : QString) : AndroidExplorer :=
  { x with requests := x.requests ++ [Request.move src dst] }

/-- `AndroidExplorer::copy`: forwards to `fileSystemModel->copy`. -/
def copy (x : AndroidExplorer) (src dst : QString) : AndroidExplorer :=
  { x with requests := x.requests ++ [Request.copy src dst] }

/-- `AndroidExplorer::setClipboard`. -/
def setClipboard (v : View) (x : AndroidExplorer) (index : QModelIndex) (move : Bool) :
    AndroidExplorer :=
  let isValid := index.isSome
  { x with
    clipboard :=
      { data :=
          match index with
          | some i => v.itemPath i
          | none => []
        move := move }
    pasteEnabled := isValid }

/-- The slot of `actionCopy`. -/
def copyTriggered (v : View) (x : AndroidExplorer) : AndroidExplorer :=
  setClipboard v x v.currentIndex false

/-- The slot of `actionCut`. -/
def cutTriggered (v : View) (x : AndroidExplorer) : AndroidExplorer :=
  setClipboard v x v.currentIndex true

/-- The destination of a paste: the current directory, or the selected item when it is
a directory. -/
def destination (v : View) : QString :=
  match v.currentIndex with
  | some i =>
    if v.itemType i = AndroidFileSystemItem.AndroidFSDirectory then v.itemPath i
    else v.currentPath
  | none => v.currentPath

/-- The slot of `actionPaste`.  `setClipboard({})` passes the invalid index and leaves the
move flag to the default argument of the declaration, `dflt`. -/
def pasteTriggered (dflt : Bool) (v : View) (x : AndroidExplorer) : AndroidExplorer :=
  let src := x.clipboard.data
  let dst := destination v
  if x.clipboard.move then
    setClipboard v (move x src dst) none dflt
  else
    copy x src dst

/-- The paste action: a disabled `QAction` cannot be chosen, so its slot runs only while
the action is enabled. -/
def paste (dflt : Bool) (v : View) (x : AndroidExplorer) : AndroidExplorer :=
  if x.pasteEnabled then pasteTriggered dflt v x else x

/-- What happens to an explorer: a call of `setClipboard` (the copy and cut actions are
such calls) or the paste action, each with the view at that moment. -/
inductive Event where
  | setClipboard (v : View) (index : QModelIndex) (move : Bool)
  | paste (v : View)

/-- Effect of an event. -/
def Event.apply (dflt : Bool) (x : AndroidExplorer) : Event → AndroidExplorer
  | .setClipboard v index mv => Explorer.setClipboard v x index mv
  | .paste v => Explorer.paste dflt v x

/-- The state after a history of events, starting from the constructed explorer. -/
def after (dflt move0 : Bool) (history : List Event) : AndroidExplorer :=
  history.foldl (Event.apply dflt) (AndroidExplorer.new move0)

/-- A view of a directory `/sdcard` whose row `0` is the file `/sdcard/a` and whose other
rows are directories `/sdcard/d`; row `0` is selected. -/
def sampleView : View :=
  { currentPath := ['/', 's', 'd', 'c', 'a', 'r', 'd']
    itemPath := fun i =>
      if i = 0 then ['/', 's', 'd', 'c', 'a', 'r', 'd', '/', 'a']
      else ['/', 's', 'd', 'c', 'a', 'r', 'd', '/', 'd']
    itemType := fun i =>
      if i = 0 then AndroidFileSystemItem.AndroidFSFile
      else AndroidFileSystemItem.AndroidFSDirectory
    currentIndex := some 0 }

end Explorer

namespace TreeNodes

theorem insub_ht {h : Heap} {ht : Ptr → Nat} {a q : Ptr} (ok : SubOK h ht a)
    (hq : InSub h a q) : ht q ≤ ht a := by
  induction hq with
  | refl => exact le_refl _
  | tail hab hbc ih =>
    obtain ⟨t, ht1, _, hc⟩ := ok _ hab
    obtain ⟨t2, ht2, hmem⟩ := hbc
    rw [ht1] at ht2
    cases ht2
    exact le_of_lt (lt_of_lt_of_le (hc _ hmem).1 ih)

theorem subOK_of_insub {h : Heap} {ht : Ptr → Nat} {a c : Ptr} (ok : SubOK h ht a)
    (hc : InSub h a c) : SubOK h ht c :=
  fun q hq => ok q (Relation.ReflTransGen.trans hc hq)

theorem parent_unique {h : Heap} {ht : Ptr → Nat} {a p c : Ptr} (ok : SubOK h ht a)
    (hp : InSub h a p) (hpc : IsChild h p c) : ∃ cn, h c = some cn ∧ cn.parent = some p := by
  obtain ⟨t, ht1, _, hc⟩ := ok _ hp
  obtain ⟨t2, ht2, hmem⟩ := hpc
  rw [ht1] at ht2
  cases ht2
  exact (hc _ hmem).2

theorem sibling_disjoint {h : Heap} {ht : Ptr → Nat} {a c1 c2 q : Ptr} (ok : SubOK h ht a)
    (h1 : IsChild h a c1) (h2 : IsChild h a c2) (hne : c1 ≠ c2)
    (hq : InSub h c1 q) : ¬ InSub h c2 q := by
  have ok1 : SubOK h ht c1 := subOK_of_insub ok (Relation.ReflTransGen.single h1)
  have ok2 : SubOK h ht c2 := subOK_of_insub ok (Relation.ReflTransGen.single h2)
  have lt1 : ht c1 < ht a := by
    obtain ⟨t, ht1, _, hc⟩ := ok _ Relation.ReflTransGen.refl
    obtain ⟨t2, ht2, hmem⟩ := h1
    rw [ht1] at ht2; cases ht2
    exact (hc _ hmem).1
  have lt2 : ht c2 < ht a := by
    obtain ⟨t, ht1, _, hc⟩ := ok _ Relation.ReflTransGen.refl
    obtain ⟨t2, ht2, hmem⟩ := h2
    rw [ht1] at ht2; cases ht2
    exact (hc _ hmem).1
  obtain ⟨n1, hn1, hp1⟩ := parent_unique ok Relation.ReflTransGen.refl h1
  obtain ⟨n2, hn2, hp2⟩ := parent_unique ok Relation.ReflTransGen.refl h2
  induction hq with
  | refl =>
    intro h21
    rcases Relation.ReflTransGen.cases_tail h21 with heq | ⟨b, hb, hbc⟩
    · exact hne heq
    · obtain ⟨cn, hcn, hpar⟩ := parent_unique ok2 hb hbc
      rw [hn1] at hcn; cases hcn
      rw [hp1] at hpar; cases hpar
      have := insub_ht ok2 hb
      omega
  | tail hab hbc ih =>
    rename_i b c
    intro h2c
    rcases Relation.ReflTransGen.cases_tail h2c with heq | ⟨b2, hb2, hb2c⟩
    · subst heq
      obtain ⟨cn, hcn, hpar⟩ := parent_unique ok1 hab hbc
      rw [hn2] at hcn; cases hcn
      rw [hp2] at hpar; cases hpar
      have := insub_ht ok1 hab
      omega
    · obtain ⟨cn, hcn, hpar⟩ := parent_unique ok1 hab hbc
      obtain ⟨cn2, hcn2, hpar2⟩ := parent_unique ok2 hb2 hb2c
      rw [hcn] at hcn2; cases hcn2
      rw [hpar] at hpar2; cases hpar2
      exact ih hb2

theorem insub_congr {h k : Heap} {a : Ptr} (agree : ∀ q, InSub h a q → k q = h q) (q : Ptr) :
    InSub k a q ↔ InSub h a q := by
  constructor
  · intro hq
    induction hq with
    | refl => exact Relation.ReflTransGen.refl
    | tail hab hbc ih =>
      obtain ⟨t, ht1, hmem⟩ := hbc
      rw [agree _ ih] at ht1
      exact Relation.ReflTransGen.tail ih ⟨t, ht1, hmem⟩
  · intro hq
    induction hq with
    | refl => exact Relation.ReflTransGen.refl
    | tail hab hbc ih =>
      obtain ⟨t, ht1, hmem⟩ := hbc
      rw [← agree _ hab] at ht1
      exact Relation.ReflTransGen.tail ih ⟨t, ht1, hmem⟩

theorem subOK_congr {h k : Heap} {ht : Ptr → Nat} {a : Ptr} (ok : SubOK h ht a)
    (agree : ∀ q, InSub h a q → k q = h q) : SubOK k ht a := by
  intro q hq
  have hq2 : InSub h a q := (insub_congr agree q).1 hq
  obtain ⟨t, ht1, hnd, hc⟩ := ok q hq2
  refine ⟨t, by rw [agree q hq2]; exact ht1, hnd, ?_⟩
  intro c hmem
  refine ⟨(hc c hmem).1, ?_⟩
  obtain ⟨cn, hcn, hpar⟩ := (hc c hmem).2
  exact ⟨cn, by rw [agree c (Relation.ReflTransGen.tail hq2 ⟨t, ht1, hmem⟩)]; exact hcn, hpar⟩

theorem foldlM_carve {del : Heap → Ptr → Res} {ht : Ptr → Nat} {f : Nat}
    (hdel : DeletesBelow del ht f) :
    ∀ (ds : List Ptr) (h : Heap), ds.Nodup → (∀ d ∈ ds, SubOK h ht d ∧ ht d < f) →
      (∀ d1 ∈ ds, ∀ d2 ∈ ds, d1 ≠ d2 → ∀ q, InSub h d1 q → ¬ InSub h d2 q) →
      ∃ k, ds.foldlM del h = .ok k ∧ Carved h k (fun q => ∃ d ∈ ds, InSub h d q) := by
  intro ds
  induction ds with
  | nil =>
    intro h _ _ _
    refine ⟨h, rfl, ?_⟩
    intro q
    constructor
    · rintro ⟨d, hd, _⟩
      cases hd
    · intro _
      rfl
  | cons d ds ih =>
    intro h hnd hok hdisj
    obtain ⟨k1, hk1, hc1⟩ := hdel h d (hok d (List.mem_cons_self _ _)).1
      (hok d (List.mem_cons_self _ _)).2
    have hnd2 := List.nodup_cons.1 hnd
    have agree : ∀ e ∈ ds, ∀ q, InSub h e q → k1 q = h q := by
      intro e he q hq
      refine (hc1 q).2 ?_
      intro hdq
      have hne : d ≠ e := by
        intro heq
        subst heq
        exact hnd2.1 he
      exact hdisj d (List.mem_cons_self _ _) e (List.mem_cons_of_mem _ he) hne q hdq hq
    obtain ⟨k, hk, hc⟩ := ih k1 hnd2.2
      (fun e he => ⟨subOK_congr (hok e (List.mem_cons_of_mem _ he)).1 (agree e he),
        (hok e (List.mem_cons_of_mem _ he)).2⟩)
      (by
        intro d1 hd1 d2 hd2 hne q hq1 hq2
        exact hdisj d1 (List.mem_cons_of_mem _ hd1) d2 (List.mem_cons_of_mem _ hd2) hne q
          ((insub_congr (agree d1 hd1) q).1 hq1) ((insub_congr (agree d2 hd2) q).1 hq2))
    refine ⟨k, ?_, ?_⟩
    · rw [List.foldlM_cons, hk1]
      exact hk
    · intro q
      constructor
      · rintro ⟨e, he, heq⟩
        by_cases hdead : ∃ e2 ∈ ds, InSub k1 e2 q
        · exact (hc q).1 hdead
        · rw [(hc q).2 hdead]
          rcases List.mem_cons.1 he with rfl | he2
          · exact (hc1 q).1 heq
          · exact absurd ⟨e, he2, (insub_congr (agree e he2) q).2 heq⟩ hdead
      · intro hnot
        have h1 : ¬ ∃ e2 ∈ ds, InSub k1 e2 q := by
          rintro ⟨e2, he2, hq2⟩
          exact hnot ⟨e2, List.mem_cons_of_mem _ he2, (insub_congr (agree e2 he2) q).1 hq2⟩
        rw [(hc q).2 h1]
        exact (hc1 q).2 (fun hdq => hnot ⟨d, List.mem_cons_self _ _, hdq⟩)

theorem insub_iff_head {h : Heap} {a q : Ptr} :
    InSub h a q ↔ q = a ∨ ∃ d, IsChild h a d ∧ InSub h d q := by
  constructor
  · intro hq
    rcases Relation.ReflTransGen.cases_head hq with heq | ⟨d, hd, hdq⟩
    · exact Or.inl heq.symm
    · exact Or.inr ⟨d, hd, hdq⟩
  · rintro (rfl | ⟨d, hd, hdq⟩)
    · exact Relation.ReflTransGen.refl
    · exact Relation.ReflTransGen.head hd hdq

theorem insub_leaf {h : Heap} {n x : Ptr} {nd : TreeNode} (hn : h n = some nd)
    (hc : nd.children = []) (hx : InSub h n x) : x = n := by
  rcases insub_iff_head.1 hx with heq | ⟨d, ⟨t, ht1, hm⟩, _⟩
  · exact heq
  · rw [hn] at ht1
    cases ht1
    rw [hc] at hm
    cases hm

theorem child_ht {h : Heap} {ht : Ptr → Nat} {a d : Ptr} (ok : SubOK h ht a)
    (hd : IsChild h a d) : ht d < ht a := by
  obtain ⟨t, ht1, _, hc⟩ := ok _ Relation.ReflTransGen.refl
  obtain ⟨t2, ht2, hmem⟩ := hd
  rw [ht1] at ht2; cases ht2
  exact (hc _ hmem).1

theorem not_insub_child_self {h : Heap} {ht : Ptr → Nat} {a d : Ptr} (ok : SubOK h ht a)
    (hd : IsChild h a d) : ¬ InSub h d a := by
  intro hda
  have h1 := insub_ht (subOK_of_insub ok (Relation.ReflTransGen.single hd)) hda
  have h2 := child_ht ok hd
  omega

theorem removeChildrenWith_spec {del : Heap → Ptr → Res} {ht : Ptr → Nat} {f : Nat}
    (hdel : DeletesBelow del ht f) {h : Heap} {a : Ptr} {t : TreeNode}
    (ok : SubOK h ht a) (ha : h a = some t) (hf : ht a ≤ f) :
    ∃ k, removeChildrenWith del h a = .ok k ∧ k a = some { t with children := [] } ∧
      ∀ q, q ≠ a → ((InSub h a q → k q = none) ∧ (¬ InSub h a q → k q = h q)) := by
  obtain ⟨t0, ht0, hnd, hch⟩ := ok a Relation.ReflTransGen.refl
  rw [ha] at ht0; cases ht0
  have hchild : ∀ d ∈ t.children, IsChild h a d := fun d hd => ⟨t, ha, hd⟩
  obtain ⟨k1, hk1, hc1⟩ := foldlM_carve hdel t.children h hnd
    (fun d hd => ⟨subOK_of_insub ok (Relation.ReflTransGen.single (hchild d hd)),
      lt_of_lt_of_le (child_ht ok (hchild d hd)) hf⟩)
    (fun d1 hd1 d2 hd2 hne q hq => sibling_disjoint ok (hchild d1 hd1) (hchild d2 hd2) hne hq)
  have hka : k1 a = some t := by
    rw [(hc1 a).2 ?_]
    · exact ha
    · rintro ⟨d, hd, hda⟩
      exact not_insub_child_self ok (hchild d hd) hda
  refine ⟨k1.set a (some { t with children := [] }), ?_, ?_, ?_⟩
  · unfold removeChildrenWith
    rw [ha]
    show (t.children.foldlM del h >>= fun h1 => _) = _
    rw [hk1]
    show (match k1 a with
      | none => _
      | some t1 => _) = _
    rw [hka]
  · simp [Heap.set]
  · intro q hqa
    have hset : (k1.set a (some { t with children := [] })) q = k1 q := by
      simp [Heap.set, hqa]
    rw [hset]
    constructor
    · intro hq
      rcases insub_iff_head.1 hq with heq | ⟨d, ⟨t2, ht2, hmem⟩, hdq⟩
      · exact absurd heq hqa
      · rw [ha] at ht2; cases ht2
        exact (hc1 q).1 ⟨d, hmem, hdq⟩
    · intro hq
      refine (hc1 q).2 ?_
      rintro ⟨d, hd, hdq⟩
      exact hq (insub_iff_head.2 (Or.inr ⟨d, hchild d hd, hdq⟩))

theorem deleteNode_spec (ht : Ptr → Nat) : ∀ f, DeletesBelow (deleteNode f) ht f := by
  intro f
  induction f with
  | zero =>
    intro h d _ hlt
    omega
  | succ f ih =>
    intro h d ok hlt
    obtain ⟨t, hd, _, _⟩ := ok d Relation.ReflTransGen.refl
    obtain ⟨k1, hk1, hka, hrest⟩ := removeChildrenWith_spec ih ok hd (by omega)
    refine ⟨k1.set d none, ?_, ?_⟩
    · show (removeChildrenWith (deleteNode f) h d >>= fun h1 => _) = _
      rw [hk1]
      rfl
    · intro q
      by_cases hqd : q = d
      · subst hqd
        constructor
        · intro _
          simp [Heap.set]
        · intro hn
          exact absurd Relation.ReflTransGen.refl hn
      · have hset : (k1.set d none) q = k1 q := by simp [Heap.set, hqd]
        rw [hset]
        exact hrest q hqd

theorem forest_subOK {h : Heap} (fo : Forest h) {ht : Ptr → Nat}
    (hht : ∀ p c, IsChild h p c → ht c < ht p) {a : Ptr} {t : TreeNode} (ha : h a = some t) :
    SubOK h ht a := by
  intro q hq
  have hlive : ∃ tq, h q = some tq := by
    rcases Relation.ReflTransGen.cases_tail hq with heq | ⟨b, _, ⟨tb, htb, hmem⟩⟩
    · subst heq
      exact ⟨t, ha⟩
    · obtain ⟨cn, hcn, _⟩ := fo.backref b tb q htb hmem
      exact ⟨cn, hcn⟩
  obtain ⟨tq, htq⟩ := hlive
  refine ⟨tq, htq, fo.nodup q tq htq, ?_⟩
  intro c hc
  exact ⟨hht q c ⟨tq, htq, hc⟩, fo.backref q tq c htq hc⟩

/-! ### More fuel never changes a result -/

theorem foldlM_mono {del del2 : Heap → Ptr → Res}
    (hm : ∀ h d k, del h d = .ok k → del2 h d = .ok k) :
    ∀ (ds : List Ptr) (h k : Heap), ds.foldlM del h = .ok k → ds.foldlM del2 h = .ok k := by
  intro ds
  induction ds with
  | nil =>
    intro h k hk
    exact hk
  | cons d ds ih =>
    intro h k hk
    rw [List.foldlM_cons] at hk
    rw [List.foldlM_cons]
    cases hx : del h d with
    | error e =>
      rw [hx] at hk
      cases hk
    | ok k1 =>
      rw [hx] at hk
      rw [hm h d k1 hx]
      exact ih k1 k hk

theorem removeChildrenWith_mono {del del2 : Heap → Ptr → Res}
    (hm : ∀ h d k, del h d = .ok k → del2 h d = .ok k) (h : Heap) (a : Ptr) (k : Heap)
    (hk : removeChildrenWith del h a = .ok k) : removeChildrenWith del2 h a = .ok k := by
  unfold removeChildrenWith at hk ⊢
  cases ha : h a with
  | none =>
    rw [ha] at hk
    cases hk
  | some t =>
    rw [ha] at hk
    change (t.children.foldlM del h >>= fun h1 => _) = _ at hk
    show (t.children.foldlM del2 h >>= fun h1 => _) = _
    cases hx : t.children.foldlM del h with
    | error e =>
      rw [hx] at hk
      cases hk
    | ok k1 =>
      rw [hx] at hk
      rw [foldlM_mono hm _ _ _ hx]
      exact hk

theorem deleteNode_succ : ∀ f h d k, deleteNode f h d = .ok k → deleteNode (f + 1) h d = .ok k := by
  intro f
  induction f with
  | zero =>
    intro h d k hk
    cases hk
  | succ f ih =>
    intro h d k hk
    change (removeChildrenWith (deleteNode f) h d >>= fun h1 => _) = _ at hk
    show (removeChildrenWith (deleteNode (f + 1)) h d >>= fun h1 => _) = _
    cases hx : removeChildrenWith (deleteNode f) h d with
    | error e =>
      rw [hx] at hk
      cases hk
    | ok k1 =>
      rw [hx] at hk
      rw [removeChildrenWith_mono ih h d k1 hx]
      exact hk

theorem deleteNode_le {f g : Nat} (hfg : f ≤ g) {h : Heap} {d : Ptr} {k : Heap}
    (hk : deleteNode f h d = .ok k) : deleteNode g h d = .ok k := by
  induction hfg with
  | refl => exact hk
  | step _ ih => exact deleteNode_succ _ _ _ _ ih

/-! ### Released objects only -/

theorem foldlM_frame {del : Heap → Ptr → Res}
    (hdel : ∀ h d k, del h d = .ok k → Frame h k) :
    ∀ (ds : List Ptr) (h k : Heap), ds.foldlM del h = .ok k → Frame h k := by
  intro ds
  induction ds with
  | nil =>
    intro h k hk q
    cases hk
    exact Or.inr rfl
  | cons d ds ih =>
    intro h k hk q
    rw [List.foldlM_cons] at hk
    cases hx : del h d with
    | error e =>
      rw [hx] at hk
      cases hk
    | ok k1 =>
      rw [hx] at hk
      rcases ih k1 k hk q with h1 | h1
      · exact Or.inl h1
      · rw [h1]
        exact hdel h d k1 hx q

theorem removeChildrenWith_frame {del : Heap → Ptr → Res}
    (hdel : ∀ h d k, del h d = .ok k → Frame h k) {h k : Heap} {a : Ptr}
    (hk : removeChildrenWith del h a = .ok k) :
    (∀ q, q ≠ a → k q = none ∨ k q = h q) ∧
      ∃ t, h a = some t ∧ k a = some { t with children := [] } := by
  unfold removeChildrenWith at hk
  cases ha : h a with
  | none =>
    rw [ha] at hk
    cases hk
  | some t =>
    rw [ha] at hk
    change (t.children.foldlM del h >>= fun h1 => _) = _ at hk
    cases hx : t.children.foldlM del h with
    | error e =>
      rw [hx] at hk
      cases hk
    | ok k1 =>
      rw [hx] at hk
      change (match k1 a with
        | none => _
        | some t1 => _) = _ at hk
      have hfr := foldlM_frame hdel _ _ _ hx
      cases hka : k1 a with
      | none =>
        rw [hka] at hk
        cases hk
      | some t1 =>
        rw [hka] at hk
        cases hk
        have ht1 : t1 = t := by
          rcases hfr a with h1 | h1
          · rw [hka] at h1
            cases h1
          · rw [hka, ha] at h1
            exact Option.some.inj h1
        subst ht1
        constructor
        · intro q hq
          have hset : (k1.set a (some { t1 with children := [] })) q = k1 q := by
            simp [Heap.set, hq]
          rw [hset]
          exact hfr q
        · exact ⟨t1, rfl, by simp [Heap.set]⟩

theorem deleteNode_frame : ∀ f h d k, deleteNode f h d = .ok k → Frame h k := by
  intro f
  induction f with
  | zero =>
    intro h d k hk
    cases hk
  | succ f ih =>
    intro h d k hk q
    change (removeChildrenWith (deleteNode f) h d >>= fun h1 => _) = _ at hk
    cases hx : removeChildrenWith (deleteNode f) h d with
    | error e =>
      rw [hx] at hk
      cases hk
    | ok k1 =>
      rw [hx] at hk
      cases hk
      obtain ⟨hrest, _⟩ := removeChildrenWith_frame ih hx
      by_cases hqd : q = d
      · subst hqd
        exact Or.inl (by simp [Heap.set])
      · have hset : (k1.set d none) q = k1 q := by simp [Heap.set, hqd]
        rw [hset]
        exact hrest q hqd

theorem frame_shrinks {h k : Heap} (hf : Frame h k) : Shrinks h k := by
  intro q tq hq
  rcases hf q with h1 | h1
  · rw [hq] at h1
    cases h1
  · rw [hq] at h1
    exact ⟨tq, h1.symm, rfl, rfl, List.Sublist.refl _⟩

theorem removeChildren_shrinks {f : Nat} {h k : Heap} {a : Ptr}
    (hk : removeChildren f h a = .ok k) : Shrinks h k := by
  obtain ⟨hrest, t, ha, hka⟩ := removeChildrenWith_frame (deleteNode_frame f) hk
  intro q tq hq
  by_cases hqa : q = a
  · subst hqa
    rw [hka] at hq
    cases hq
    exact ⟨t, ha, rfl, rfl, List.nil_sublist _⟩
  · rcases hrest q hqa with h1 | h1
    · rw [hq] at h1
      cases h1
    · rw [hq] at h1
      exact ⟨tq, h1.symm, rfl, rfl, List.Sublist.refl _⟩

theorem removeChild_shrinks {f : Nat} {h k : Heap} {p : Ptr} {r : Int}
    (hk : removeChild f h p r = .ok k) : Shrinks h k := by
  unfold removeChild at hk
  cases hp : h p with
  | none =>
    rw [hp] at hk
    cases hk
  | some t =>
    rw [hp] at hk
    cases hr : at? t.children r with
    | none =>
      simp only [hr] at hk
      cases hk
    | some c =>
      simp only [hr] at hk
      change (deleteNode f h c >>= fun h1 => _) = _ at hk
      cases hx : deleteNode f h c with
      | error e =>
        rw [hx] at hk
        cases hk
      | ok k1 =>
        rw [hx] at hk
        change (match k1 p with
          | none => _
          | some t1 => _) = _ at hk
        have hfr := deleteNode_frame f h c k1 hx
        cases hkp : k1 p with
        | none =>
          rw [hkp] at hk
          cases hk
        | some t1 =>
          rw [hkp] at hk
          have ht1 : t1 = t := by
            rcases hfr p with h1 | h1
            · rw [hkp] at h1
              cases h1
            · rw [hkp, hp] at h1
              exact Option.some.inj h1
          subst ht1
          simp only [hr] at hk
          cases hk
          intro q tq hq
          by_cases hqp : q = p
          · subst hqp
            simp only [Heap.set, if_true] at hq
            cases hq
            exact ⟨t1, hp, rfl, rfl, List.eraseIdx_sublist _ _⟩
          · simp only [Heap.set, if_neg hqp] at hq
            exact frame_shrinks hfr q tq hq

theorem removeChild_result {f : Nat} {h k : Heap} {p : Ptr} {r : Int}
    (hk : removeChild f h p r = .ok k) :
    ∃ t c, h p = some t ∧ at? t.children r = some c ∧
      k p = some { t with children := t.children.eraseIdx r.toNat } := by
  unfold removeChild at hk
  cases hp : h p with
  | none =>
    rw [hp] at hk
    cases hk
  | some t =>
    rw [hp] at hk
    cases hr : at? t.children r with
    | none =>
      simp only [hr] at hk
      cases hk
    | some c =>
      simp only [hr] at hk
      change (deleteNode f h c >>= fun h1 => _) = _ at hk
      cases hx : deleteNode f h c with
      | error e =>
        rw [hx] at hk
        cases hk
      | ok k1 =>
        rw [hx] at hk
        change (match k1 p with
          | none => _
          | some t1 => _) = _ at hk
        have hfr := deleteNode_frame f h c k1 hx
        cases hkp : k1 p with
        | none =>
          rw [hkp] at hk
          cases hk
        | some t1 =>
          rw [hkp] at hk
          have ht1 : t1 = t := by
            rcases hfr p with h1 | h1
            · rw [hkp] at h1
              cases h1
            · rw [hkp, hp] at h1
              exact Option.some.inj h1
          subst ht1
          simp only [hr] at hk
          cases hk
          exact ⟨t1, c, rfl, hr, by simp [Heap.set]⟩

theorem removeChildren_result {f : Nat} {h k : Heap} {a : Ptr}
    (hk : removeChildren f h a = .ok k) :
    ∃ t, h a = some t ∧ k a = some { t with children := [] } :=
  (removeChildrenWith_frame (deleteNode_frame f) hk).2

/-! ### A completed `delete` releases exactly a subtree -/

theorem frame_edge {h k : Heap} (hf : Frame h k) {x y : Ptr} (hxy : IsChild k x y) :
    IsChild h x y := by
  obtain ⟨t, ht, hm⟩ := hxy
  rcases hf x with h1 | h1
  · rw [ht] at h1
    cases h1
  · rw [ht] at h1
    exact ⟨t, h1.symm, hm⟩

theorem frame_insub {h k : Heap} (hf : Frame h k) {a q : Ptr} (hq : InSub k a q) :
    InSub h a q := by
  induction hq with
  | refl => exact Relation.ReflTransGen.refl
  | tail _ hbc ih => exact Relation.ReflTransGen.tail ih (frame_edge hf hbc)

theorem frame_none {h k : Heap} (hf : Frame h k) {q : Ptr} (hq : h q = none) : k q = none := by
  rcases hf q with h1 | h1
  · exact h1
  · rw [h1]
    exact hq

theorem closed_insub {h k : Heap} (hc : Closed h k) {a q : Ptr} (ha : k a = none)
    (hq : InSub h a q) : k q = none := by
  induction hq with
  | refl => exact ha
  | tail _ hbc ih => exact hc _ _ hbc ih

theorem foldlM_releases {del : Heap → Ptr → Res}
    (hdel : ∀ h d k, del h d = .ok k → Releases h k d) :
    ∀ (ds : List Ptr) (h k : Heap), ds.foldlM del h = .ok k →
      Frame h k ∧ (∀ d ∈ ds, k d = none) ∧ Closed h k ∧
      ∀ q, k q = none → h q = none ∨ ∃ d ∈ ds, InSub h d q := by
  intro ds
  induction ds with
  | nil =>
    intro h k hk
    cases hk
    refine ⟨fun q => Or.inr rfl, ?_, fun x y _ hx => ?_, fun q hq => Or.inl hq⟩
    · intro d hd
      cases hd
    · obtain ⟨t, ht, _⟩ := ‹IsChild h x y›
      rw [ht] at hx
      cases hx
  | cons d ds ih =>
    intro h k hk
    rw [List.foldlM_cons] at hk
    cases hx : del h d with
    | error e =>
      rw [hx] at hk
      cases hk
    | ok k1 =>
      rw [hx] at hk
      have r1 := hdel h d k1 hx
      obtain ⟨hf2, hgone2, hcl2, hor2⟩ := ih k1 k hk
      refine ⟨?_, ?_, ?_, ?_⟩
      · intro q
        rcases hf2 q with h1 | h1
        · exact Or.inl h1
        · rw [h1]
          exact r1.frame q
      · intro e he
        rcases List.mem_cons.1 he with rfl | he2
        · exact frame_none hf2 r1.gone
        · exact hgone2 e he2
      · intro x y hxy hkx
        by_cases h1x : k1 x = none
        · exact frame_none hf2 (r1.closed x y hxy h1x)
        · have hsame : k1 x = h x := by
            rcases r1.frame x with h1 | h1
            · exact absurd h1 h1x
            · exact h1
          obtain ⟨t, ht, hm⟩ := hxy
          exact hcl2 x y ⟨t, by rw [hsame]; exact ht, hm⟩ hkx
      · intro q hq
        rcases hor2 q hq with h1 | ⟨e, he, hin⟩
        · rcases r1.origin q h1 with h0 | hin
          · exact Or.inl h0
          · exact Or.inr ⟨d, List.mem_cons_self _ _, hin⟩
        · exact Or.inr ⟨e, List.mem_cons_of_mem _ he, frame_insub r1.frame hin⟩

theorem removeChildrenWith_parts {del : Heap → Ptr → Res} {h k : Heap} {a : Ptr}
    (hk : removeChildrenWith del h a = .ok k) :
    ∃ t k1, h a = some t ∧ t.children.foldlM del h = .ok k1 ∧ (∃ t1, k1 a = some t1) ∧
      ∀ q, q ≠ a → k q = k1 q := by
  unfold removeChildrenWith at hk
  cases ha : h a with
  | none =>
    rw [ha] at hk
    cases hk
  | some t =>
    rw [ha] at hk
    change (t.children.foldlM del h >>= fun h1 => _) = _ at hk
    cases hx : t.children.foldlM del h with
    | error e =>
      rw [hx] at hk
      cases hk
    | ok k1 =>
      rw [hx] at hk
      change (match k1 a with
        | none => _
        | some t1 => _) = _ at hk
      cases hka : k1 a with
      | none =>
        rw [hka] at hk
        cases hk
      | some t1 =>
        rw [hka] at hk
        cases hk
        refine ⟨t, k1, rfl, hx, ⟨t1, hka⟩, ?_⟩
        intro q hq
        simp [Heap.set, hq]

theorem deleteNode_releases : ∀ f h c k, deleteNode f h c = .ok k → Releases h k c := by
  intro f
  induction f with
  | zero =>
    intro h c k hk
    cases hk
  | succ f ih =>
    intro h c k hk
    change (removeChildrenWith (deleteNode f) h c >>= fun h1 => _) = _ at hk
    cases hx : removeChildrenWith (deleteNode f) h c with
    | error e =>
      rw [hx] at hk
      cases hk
    | ok k0 =>
      rw [hx] at hk
      cases hk
      obtain ⟨t, k1, hc, hfold, _, hsame⟩ := removeChildrenWith_parts hx
      obtain ⟨hf1, hgone1, hcl1, hor1⟩ := foldlM_releases ih _ _ _ hfold
      have hk : ∀ q, q ≠ c → (k0.set c none) q = k1 q := by
        intro q hq
        simp only [Heap.set, if_neg hq]
        exact hsame q hq
      have hkc : (k0.set c none) c = none := by simp [Heap.set]
      have hdead : ∀ q, k1 q = none → (k0.set c none) q = none := by
        intro q hq
        by_cases hqc : q = c
        · rw [hqc]
          exact hkc
        · rw [hk q hqc]
          exact hq
      refine ⟨?_, hkc, ?_, ?_⟩
      · intro q
        by_cases hqc : q = c
        · rw [hqc]
          exact Or.inl hkc
        · rw [hk q hqc]
          exact hf1 q
      · intro x y hxy hkx
        by_cases hxc : x = c
        · subst hxc
          obtain ⟨t2, ht2, hm⟩ := hxy
          rw [hc] at ht2
          cases ht2
          exact hdead y (hgone1 y hm)
        · rw [hk x hxc] at hkx
          exact hdead y (hcl1 x y hxy hkx)
      · intro q hq
        by_cases hqc : q = c
        · rw [hqc]
          exact Or.inr Relation.ReflTransGen.refl
        · rw [hk q hqc] at hq
          rcases hor1 q hq with h0 | ⟨d, hd, hin⟩
          · exact Or.inl h0
          · exact Or.inr (Relation.ReflTransGen.head ⟨t, hc, hd⟩ hin)

/-! ### Consequences of the invariant -/

theorem owned_of_forest {h : Heap} (fo : Forest h) : Owned h :=
  ⟨fo.backref, fo.nodup, fo.attached⟩

theorem owned_unique_parent {h : Heap} (ow : Owned h) {p q c : Ptr}
    (hp : IsChild h p c) (hq : IsChild h q c) : p = q := by
  obtain ⟨t, ht1, hm⟩ := hp
  obtain ⟨t2, ht2, hm2⟩ := hq
  obtain ⟨cn, hcn, hpar⟩ := ow.backref p t c ht1 hm
  obtain ⟨cn2, hcn2, hpar2⟩ := ow.backref q t2 c ht2 hm2
  rw [hcn] at hcn2; cases hcn2
  rw [hpar] at hpar2
  exact Option.some.inj hpar2

theorem owned_escape {h : Heap} (ow : Owned h) {q c x : Ptr}
    (hqx : IsChild h q x) (hcx : InSub h c x) : x = c ∨ InSub h c q := by
  rcases Relation.ReflTransGen.cases_tail hcx with heq | ⟨b, hb, hbx⟩
  · exact Or.inl heq
  · have := owned_unique_parent ow hbx hqx
    subst this
    exact Or.inr hb

theorem forest_unique_parent {h : Heap} (fo : Forest h) {p q c : Ptr}
    (hp : IsChild h p c) (hq : IsChild h q c) : p = q :=
  owned_unique_parent (owned_of_forest fo) hp hq

theorem insub_escape {h : Heap} (fo : Forest h) {q c x : Ptr}
    (hqx : IsChild h q x) (hcx : InSub h c x) : x = c ∨ InSub h c q :=
  owned_escape (owned_of_forest fo) hqx hcx

theorem depth_insub {h : Heap} {d : Ptr → Nat} (hd : ∀ p c, IsChild h p c → d p < d c)
    {a q : Ptr} (hq : InSub h a q) : d a ≤ d q := by
  induction hq with
  | refl => exact le_refl _
  | tail _ hbc ih => exact le_of_lt (lt_of_le_of_lt ih (hd _ _ hbc))

theorem forest_not_insub_parent {h : Heap} (fo : Forest h) {p c : Ptr}
    (hpc : IsChild h p c) : ¬ InSub h c p := by
  obtain ⟨d, hd⟩ := fo.depth
  intro hcp
  have h1 := depth_insub hd hcp
  have h2 := hd p c hpc
  omega

theorem owned_carve {h k : Heap} (fo : Owned h) (dead : Ptr → Prop)
    (hclosed : ∀ q c, dead q → IsChild h q c → dead c)
    (hdead : ∀ q, dead q → k q = none)
    (hnone : ∀ q, h q = none → k q = none)
    (hlive : ∀ q, ¬ dead q → ∀ t, h q = some t → ∃ t2, k q = some t2 ∧ t2.parent = t.parent ∧
      t2.children.Sublist t.children ∧ (∀ c ∈ t.children, ¬ dead c → c ∈ t2.children) ∧
      (∀ c ∈ t2.children, ¬ dead c)) :
    Owned k ∧ ∀ p c, IsChild k p c → IsChild h p c := by
  have back : ∀ q t2, k q = some t2 → ¬ dead q ∧ ∃ t, h q = some t ∧ t2.parent = t.parent ∧
      t2.children.Sublist t.children ∧ (∀ c ∈ t.children, ¬ dead c → c ∈ t2.children) ∧
      (∀ c ∈ t2.children, ¬ dead c) := by
    intro q t2 hq
    have hnd : ¬ dead q := by
      intro hd
      rw [hdead q hd] at hq
      cases hq
    refine ⟨hnd, ?_⟩
    cases hh : h q with
    | none =>
      rw [hnone q hh] at hq
      cases hq
    | some t =>
      obtain ⟨t3, ht3, h1, h2, h3, h4⟩ := hlive q hnd t hh
      rw [hq] at ht3; cases ht3
      exact ⟨t, rfl, h1, h2, h3, h4⟩
  have edge : ∀ p c, IsChild k p c → IsChild h p c := by
    rintro p c ⟨t2, ht2, hm⟩
    obtain ⟨_, t, ht1, _, hsub, _, _⟩ := back p t2 ht2
    exact ⟨t, ht1, hsub.subset hm⟩
  refine ⟨⟨?_, ?_, ?_⟩, edge⟩
  · intro p t2 c hp hc
    obtain ⟨_, t, ht1, _, hsub, _, hnd⟩ := back p t2 hp
    obtain ⟨cn, hcn, hpar⟩ := fo.backref p t c ht1 (hsub.subset hc)
    obtain ⟨cn2, hcn2, hpar2, _⟩ := hlive c (hnd c hc) cn hcn
    exact ⟨cn2, hcn2, by rw [hpar2, hpar]⟩
  · intro p t2 hp
    obtain ⟨_, t, ht1, _, hsub, _, _⟩ := back p t2 hp
    exact (fo.nodup p t ht1).sublist hsub
  · intro n nd2 p hn hpar
    obtain ⟨hndn, nd, hnd1, hpar1, _, _, _⟩ := back n nd2 hn
    rw [hpar1] at hpar
    obtain ⟨t, ht1, hm⟩ := fo.attached n nd p hnd1 hpar
    have hndp : ¬ dead p := fun hd => hndn (hclosed p n hd ⟨t, ht1, hm⟩)
    obtain ⟨t2, ht2, _, _, hkeep, _⟩ := hlive p hndp t ht1
    exact ⟨t2, ht2, hkeep n hm hndn⟩

theorem forest_carve {h k : Heap} (fo : Forest h) (dead : Ptr → Prop)
    (hclosed : ∀ q c, dead q → IsChild h q c → dead c)
    (hdead : ∀ q, dead q → k q = none)
    (hnone : ∀ q, h q = none → k q = none)
    (hlive : ∀ q, ¬ dead q → ∀ t, h q = some t → ∃ t2, k q = some t2 ∧ t2.parent = t.parent ∧
      t2.children.Sublist t.children ∧ (∀ c ∈ t.children, ¬ dead c → c ∈ t2.children) ∧
      (∀ c ∈ t2.children, ¬ dead c)) :
    Forest k := by
  obtain ⟨ow, edge⟩ := owned_carve (owned_of_forest fo) dead hclosed hdead hnone hlive
  refine ⟨ow.backref, ow.nodup, ow.attached, ?_, ?_⟩
  · obtain ⟨d, hd⟩ := fo.depth
    exact ⟨d, fun p c hpc => hd p c (edge p c hpc)⟩
  · obtain ⟨ht, hht⟩ := fo.height
    exact ⟨ht, fun p c hpc => hht p c (edge p c hpc)⟩

theorem at?_some {l : List Ptr} {i : Int} {c : Ptr} (hi : at? l i = some c) :
    0 ≤ i ∧ ∃ hlt : i.toNat < l.length, l[i.toNat] = c := by
  unfold at? at hi
  split_ifs at hi with h0
  refine ⟨h0, ?_⟩
  obtain ⟨hlt, heq⟩ := List.getElem?_eq_some_iff.1 hi
  exact ⟨hlt, heq⟩

theorem at?_mem {l : List Ptr} {i : Int} {c : Ptr} (hi : at? l i = some c) : c ∈ l := by
  obtain ⟨_, hlt, heq⟩ := at?_some hi
  rw [← heq]
  exact List.getElem_mem _

theorem removeChild_spec {h : Heap} (fo : Forest h) {ht : Ptr → Nat}
    (hht : ∀ p c, IsChild h p c → ht c < ht p) {p : Ptr} {t : TreeNode} {r : Int} {c : Ptr}
    (hp : h p = some t) (hr : at? t.children r = some c) {fuel : Nat} (hf : ht c < fuel) :
    ∃ k, removeChild fuel h p r = .ok k ∧
      k p = some { t with children := t.children.eraseIdx r.toNat } ∧
      ∀ q, q ≠ p → ((InSub h c q → k q = none) ∧ (¬ InSub h c q → k q = h q)) := by
  have hmem := at?_mem hr
  obtain ⟨cn, hcn, _⟩ := fo.backref p t c hp hmem
  obtain ⟨k1, hk1, hc1⟩ := deleteNode_spec ht fuel h c (forest_subOK fo hht hcn) hf
  have hk1p : k1 p = some t := by
    rw [(hc1 p).2 (forest_not_insub_parent fo ⟨t, hp, hmem⟩)]
    exact hp
  refine ⟨k1.set p (some { t with children := t.children.eraseIdx r.toNat }), ?_, ?_, ?_⟩
  · unfold removeChild
    rw [hp]
    simp only [hr]
    show (deleteNode fuel h c >>= fun h1 => _) = _
    rw [hk1]
    show (match k1 p with
      | none => _
      | some t1 => _) = _
    rw [hk1p]
    simp only [hr]
  · simp [Heap.set]
  · intro q hq
    have hset : (k1.set p (some { t with children := t.children.eraseIdx r.toNat })) q = k1 q := by
      simp [Heap.set, hq]
    rw [hset]
    exact hc1 q

/-! ### Lists -/

theorem getElem_not_mem_eraseIdx {l : List Ptr} (hnd : l.Nodup) {i : Nat} (hi : i < l.length) :
    l[i] ∉ l.eraseIdx i := by
  intro hm
  obtain ⟨j, hj, hje⟩ := List.mem_eraseIdx_iff_getElem?.1 hm
  obtain ⟨hjl, hje2⟩ := List.getElem?_eq_some_iff.1 hje
  exact hj ((hnd.getElem_inj_iff).1 hje2)

theorem mem_eraseIdx_of_ne {l : List Ptr} {x : Ptr} {i : Nat} (hi : i < l.length) (hx : x ∈ l)
    (hne : x ≠ l[i]) : x ∈ l.eraseIdx i := by
  obtain ⟨j, hj, rfl⟩ := List.getElem_of_mem hx
  refine List.mem_eraseIdx_iff_getElem?.2 ⟨j, ?_, List.getElem?_eq_getElem hj⟩
  intro hji
  subst hji
  exact hne rfl

theorem indexOf_of_mem {l : List Ptr} {x : Ptr} (hx : x ∈ l) :
    indexOf l x = (List.indexOf x l : Int) ∧ at? l (indexOf l x) = some x := by
  have hlt := List.indexOf_lt_length.2 hx
  have h1 : indexOf l x = (List.indexOf x l : Int) := by
    unfold indexOf
    rw [if_pos hlt]
  refine ⟨h1, ?_⟩
  rw [h1]
  unfold at?
  rw [if_pos (Int.ofNat_nonneg _)]
  simp only [Int.toNat_ofNat]
  exact List.getElem?_indexOf hx

/-! ### Removal keeps the invariant -/

theorem removeChild_forest {h k : Heap} (fo : Forest h) {p : Ptr} {t : TreeNode} {r : Int}
    {c : Ptr} (hp : h p = some t) (hr : at? t.children r = some c)
    (hkp : k p = some { t with children := t.children.eraseIdx r.toNat })
    (hrest : ∀ q, q ≠ p → ((InSub h c q → k q = none) ∧ (¬ InSub h c q → k q = h q))) :
    Forest k := by
  obtain ⟨_, hlt, hget⟩ := at?_some hr
  have hmem := at?_mem hr
  have hpc : IsChild h p c := ⟨t, hp, hmem⟩
  have hnp : ¬ InSub h c p := forest_not_insub_parent fo hpc
  refine forest_carve fo (InSub h c) ?_ ?_ ?_ ?_
  · intro q x hq hqx
    exact Relation.ReflTransGen.tail hq hqx
  · intro q hq
    have hqp : q ≠ p := by
      rintro rfl
      exact hnp hq
    exact (hrest q hqp).1 hq
  · intro q hq
    have hqp : q ≠ p := by
      rintro rfl
      rw [hp] at hq
      cases hq
    by_cases hd : InSub h c q
    · exact (hrest q hqp).1 hd
    · rw [(hrest q hqp).2 hd]
      exact hq
  · intro q hq t1 ht1
    by_cases hqp : q = p
    · subst hqp
      rw [hp] at ht1; cases ht1
      refine ⟨_, hkp, rfl, List.eraseIdx_sublist _ _, ?_, ?_⟩
      · intro x hx hdx
        refine mem_eraseIdx_of_ne hlt hx ?_
        rintro rfl
        rw [hget] at hdx
        exact hdx Relation.ReflTransGen.refl
      · intro x hx hdx
        have hx2 : x ∈ t.children := List.eraseIdx_subset _ _ hx
        rcases insub_escape fo ⟨t, hp, hx2⟩ hdx with heq | hcp
        · subst heq
          rw [← hget] at hx
          exact getElem_not_mem_eraseIdx (fo.nodup q t hp) hlt hx
        · exact hnp hcp
    · refine ⟨t1, by rw [(hrest q hqp).2 hq]; exact ht1, rfl, List.Sublist.refl _, ?_, ?_⟩
      · intro x hx _
        exact hx
      · intro x hx hdx
        rcases insub_escape fo ⟨t1, ht1, hx⟩ hdx with heq | hcq
        · subst heq
          exact hqp (forest_unique_parent fo ⟨t1, ht1, hx⟩ hpc)
        · exact hq hcq

theorem removeChildren_spec {h : Heap} (fo : Forest h) {ht : Ptr → Nat}
    (hht : ∀ p c, IsChild h p c → ht c < ht p) {a : Ptr} {t : TreeNode} (ha : h a = some t)
    {fuel : Nat} (hf : ht a ≤ fuel) :
    ∃ k, removeChildren fuel h a = .ok k ∧ k a = some { t with children := [] } ∧
      ∀ q, q ≠ a → ((InSub h a q → k q = none) ∧ (¬ InSub h a q → k q = h q)) :=
  removeChildrenWith_spec (deleteNode_spec ht fuel) (forest_subOK fo hht ha) ha hf

theorem removeChildren_forest {h k : Heap} (fo : Forest h) {a : Ptr} {t : TreeNode}
    (ha : h a = some t) (hka : k a = some { t with children := [] })
    (hrest : ∀ q, q ≠ a → ((InSub h a q → k q = none) ∧ (¬ InSub h a q → k q = h q))) :
    Forest k := by
  refine forest_carve fo (fun q => InSub h a q ∧ q ≠ a) ?_ ?_ ?_ ?_
  · rintro q x ⟨hq, _⟩ hqx
    refine ⟨Relation.ReflTransGen.tail hq hqx, ?_⟩
    rintro rfl
    exact forest_not_insub_parent fo hqx hq
  · rintro q ⟨hq, hqa⟩
    exact (hrest q hqa).1 hq
  · intro q hq
    have hqa : q ≠ a := by
      rintro rfl
      rw [ha] at hq
      cases hq
    by_cases hd : InSub h a q
    · exact (hrest q hqa).1 hd
    · rw [(hrest q hqa).2 hd]
      exact hq
  · intro q hq t1 ht1
    by_cases hqa : q = a
    · subst hqa
      rw [ha] at ht1; cases ht1
      refine ⟨_, hka, rfl, List.nil_sublist _, ?_, ?_⟩
      · intro x hx hdx
        exfalso
        refine hdx ⟨Relation.ReflTransGen.single ⟨t, ha, hx⟩, ?_⟩
        rintro rfl
        exact forest_not_insub_parent fo ⟨t, ha, hx⟩ Relation.ReflTransGen.refl
      · intro x hx
        cases hx
    · have hnq : ¬ InSub h a q := fun hd => hq ⟨hd, hqa⟩
      refine ⟨t1, by rw [(hrest q hqa).2 hnq]; exact ht1, rfl, List.Sublist.refl _, ?_, ?_⟩
      · intro x hx _
        exact hx
      · rintro x hx ⟨hdx, hxa⟩
        rcases insub_escape fo ⟨t1, ht1, hx⟩ hdx with heq | haq
        · exact hxa heq
        · exact hnq haq

/-! ### Construction and insertion -/

theorem forest_empty : Forest (fun _ => none) := by
  constructor
  · intro p t c hp
    cases hp
  · intro p t hp
    cases hp
  · intro n nd p hn
    cases hn
  · exact ⟨fun _ => 0, fun p c ⟨t, ht1, _⟩ => by cases ht1⟩
  · exact ⟨fun _ => 0, fun p c ⟨t, ht1, _⟩ => by cases ht1⟩

theorem construct_at (h : Heap) (p : Ptr) (c : NodeClass) :
    construct h p c p = some { parent := none, children := [], cls := c } := by
  simp [construct, Heap.set]

theorem construct_other (h : Heap) (p : Ptr) (c : NodeClass) {q : Ptr} (hq : q ≠ p) :
    construct h p c q = h q := by
  simp [construct, Heap.set, hq]

theorem owned_construct {h : Heap} (fo : Owned h) {p : Ptr} (hp : h p = none)
    (c : NodeClass) :
    Owned (construct h p c) ∧ ∀ a x, IsChild (construct h p c) a x → IsChild h a x := by
  have old : ∀ a ta, construct h p c a = some ta → a ≠ p → h a = some ta := by
    intro a ta ha hap
    rw [construct_other h p c hap] at ha
    exact ha
  have live : ∀ a ta, h a = some ta → a ≠ p ∧ construct h p c a = some ta := by
    intro a ta ha
    have hap : a ≠ p := by
      rintro rfl
      rw [hp] at ha
      cases ha
    exact ⟨hap, by rw [construct_other h p c hap]; exact ha⟩
  have edge : ∀ a x, IsChild (construct h p c) a x → IsChild h a x := by
    rintro a x ⟨ta, hta, hm⟩
    by_cases hap : a = p
    · subst hap
      rw [construct_at] at hta
      cases hta
      cases hm
    · exact ⟨ta, old a ta hta hap, hm⟩
  refine ⟨⟨?_, ?_, ?_⟩, edge⟩
  · intro a ta x ha hx
    obtain ⟨ta0, hta0, hm0⟩ := edge a x ⟨ta, ha, hx⟩
    obtain ⟨cn, hcn, hpar⟩ := fo.backref a ta0 x hta0 hm0
    exact ⟨cn, (live x cn hcn).2, hpar⟩
  · intro a ta ha
    by_cases hap : a = p
    · subst hap
      rw [construct_at] at ha
      cases ha
      exact List.nodup_nil
    · exact fo.nodup a ta (old a ta ha hap)
  · intro n nd a hn hpar
    by_cases hnp : n = p
    · subst hnp
      rw [construct_at] at hn
      cases hn
      cases hpar
    · obtain ⟨ta, hta, hm⟩ := fo.attached n nd a (old n nd hn hnp) hpar
      exact ⟨ta, (live a ta hta).2, hm⟩

theorem construct_forest {h : Heap} (fo : Forest h) {p : Ptr} (hp : h p = none)
    (c : NodeClass) : Forest (construct h p c) := by
  obtain ⟨ow, edge⟩ := owned_construct (owned_of_forest fo) hp c
  refine ⟨ow.backref, ow.nodup, ow.attached, ?_, ?_⟩
  · obtain ⟨d, hd⟩ := fo.depth
    exact ⟨d, fun a x hax => hd a x (edge a x hax)⟩
  · obtain ⟨ht, hht⟩ := fo.height
    exact ⟨ht, fun a x hax => hht a x (edge a x hax)⟩

theorem addChild_spec {h : Heap} {p n : Ptr} {t nd : TreeNode} (hp : h p = some t)
    (hn : h n = some nd) :
    ∃ k, addChild h p n = .ok k ∧
      (p ≠ n → k p = some { t with children := t.children ++ [n] } ∧
        k n = some { nd with parent := some p }) ∧
      (p = n → k p = some { t with parent := some p, children := t.children ++ [n] }) ∧
      ∀ q, q ≠ p → q ≠ n → k q = h q := by
  by_cases hpn : p = n
  · subst hpn
    rw [hp] at hn; cases hn
    refine ⟨(h.set p (some { t with parent := some p })).set p
      (some { t with parent := some p, children := t.children ++ [p] }), ?_, ?_, ?_, ?_⟩
    · unfold addChild
      rw [hp]
      simp only [Heap.set, if_true]
    · intro hne
      exact absurd rfl hne
    · intro _
      simp [Heap.set]
    · intro q hq _
      simp [Heap.set, hq]
  · have h1 : (h.set n (some { nd with parent := some p })) p = some t := by
      simp [Heap.set, hpn, hp]
    refine ⟨(h.set n (some { nd with parent := some p })).set p
      (some { t with children := t.children ++ [n] }), ?_, ?_, ?_, ?_⟩
    · unfold addChild
      rw [hn]
      simp only [h1]
    · intro _
      constructor
      · simp [Heap.set]
      · simp [Heap.set, Ne.symm hpn]
    · intro he
      exact absurd he hpn
    · intro q hq hqn
      simp [Heap.set, hq, hqn]

theorem owned_attach {h k : Heap} (fo : Owned h) {p n : Ptr} {t nd : TreeNode}
    (hp : h p = some t) (hn : h n = some nd) (hroot : nd.parent = none)
    {cs : List Ptr}
    (hcs : ∀ x, x ∈ cs ↔ x ∈ t.children ∨ x = n) (hnd : cs.Nodup)
    (hkp : k p = some { t with children := cs })
    (hkn : k n = some { nd with parent := some p })
    (hrest : ∀ q, q ≠ p → q ≠ n → k q = h q) :
    Owned k ∧ ∀ a x, IsChild k a x → IsChild h a x ∨ (a = p ∧ x = n) := by
  have noedge : ∀ a, ¬ IsChild h a n := by
    rintro a ⟨ta, hta, hm⟩
    obtain ⟨cn, hcn, hpar⟩ := fo.backref a ta n hta hm
    rw [hn] at hcn; cases hcn
    rw [hroot] at hpar
    cases hpar
  have edge : ∀ a x, IsChild k a x → IsChild h a x ∨ (a = p ∧ x = n) := by
    rintro a x ⟨ta, hta, hm⟩
    by_cases hap : a = p
    · subst hap
      rw [hkp] at hta; cases hta
      rcases (hcs x).1 hm with h1 | h1
      · exact Or.inl ⟨t, hp, h1⟩
      · exact Or.inr ⟨rfl, h1⟩
    · by_cases han : a = n
      · subst han
        rw [hkn] at hta; cases hta
        exact Or.inl ⟨nd, hn, hm⟩
      · rw [hrest a hap han] at hta
        exact Or.inl ⟨ta, hta, hm⟩
  have sup : ∀ a ta0, h a = some ta0 → ∃ ta, k a = some ta ∧ ta0.children ⊆ ta.children ∧
      (a ≠ n → ta.parent = ta0.parent) := by
    intro a ta0 ha
    by_cases hap : a = p
    · subst hap
      rw [hp] at ha; cases ha
      exact ⟨_, hkp, fun x hx => (hcs x).2 (Or.inl hx), fun _ => rfl⟩
    · by_cases han : a = n
      · subst han
        rw [hn] at ha; cases ha
        exact ⟨_, hkn, fun x hx => hx, fun hne => absurd rfl hne⟩
      · exact ⟨ta0, by rw [hrest a hap han]; exact ha, fun x hx => hx, fun _ => rfl⟩
  refine ⟨⟨?_, ?_, ?_⟩, edge⟩
  · intro a ta x ha hx
    rcases edge a x ⟨ta, ha, hx⟩ with ⟨ta0, hta0, hm0⟩ | ⟨rfl, rfl⟩
    · obtain ⟨cn, hcn, hpar⟩ := fo.backref a ta0 x hta0 hm0
      have hxn : x ≠ n := by
        rintro rfl
        exact noedge a ⟨ta0, hta0, hm0⟩
      obtain ⟨cn2, hcn2, _, hpar2⟩ := sup x cn hcn
      exact ⟨cn2, hcn2, by rw [hpar2 hxn, hpar]⟩
    · exact ⟨_, hkn, rfl⟩
  · intro a ta ha
    by_cases hap : a = p
    · subst hap
      rw [hkp] at ha; cases ha
      exact hnd
    · by_cases han : a = n
      · subst han
        rw [hkn] at ha; cases ha
        exact fo.nodup a nd hn
      · rw [hrest a hap han] at ha
        exact fo.nodup a ta ha
  · intro x xt a hx hpar
    by_cases hxn : x = n
    · subst hxn
      rw [hkn] at hx; cases hx
      cases hpar
      exact ⟨_, hkp, (hcs _).2 (Or.inr rfl)⟩
    · have hx0 : ∃ xt0, h x = some xt0 ∧ xt0.parent = some a := by
        by_cases hxp : x = p
        · subst hxp
          rw [hkp] at hx; cases hx
          exact ⟨t, hp, hpar⟩
        · rw [hrest x hxp hxn] at hx
          exact ⟨xt, hx, hpar⟩
      obtain ⟨xt0, hxt0, hpar0⟩ := hx0
      obtain ⟨ta0, hta0, hm0⟩ := fo.attached x xt0 a hxt0 hpar0
      obtain ⟨ta, hta, hsub, _⟩ := sup a ta0 hta0
      exact ⟨ta, hta, hsub hm0⟩

theorem attach_forest {h k : Heap} (fo : Forest h) {p n : Ptr} {t nd : TreeNode}
    (hp : h p = some t) (hn : h n = some nd) (hroot : nd.parent = none)
    (hnot : ¬ InSub h n p) {cs : List Ptr}
    (hcs : ∀ x, x ∈ cs ↔ x ∈ t.children ∨ x = n) (hnd : cs.Nodup)
    (hkp : k p = some { t with children := cs })
    (hkn : k n = some { nd with parent := some p })
    (hrest : ∀ q, q ≠ p → q ≠ n → k q = h q) : Forest k := by
  classical
  obtain ⟨ow, edge⟩ := owned_attach (owned_of_forest fo) hp hn hroot hcs hnd hkp hkn hrest
  have noedge : ∀ a, ¬ IsChild h a n := by
    rintro a ⟨ta, hta, hm⟩
    obtain ⟨cn, hcn, hpar⟩ := fo.backref a ta n hta hm
    rw [hn] at hcn; cases hcn
    rw [hroot] at hpar
    cases hpar
  have down : ∀ a x, IsChild h a x → (InSub h n a ↔ InSub h n x) := by
    intro a x hax
    constructor
    · intro ha
      exact Relation.ReflTransGen.tail ha hax
    · intro hx
      rcases insub_escape fo hax hx with heq | ha
      · subst heq
        exact absurd hax (noedge a)
      · exact ha
  refine ⟨ow.backref, ow.nodup, ow.attached, ?_, ?_⟩
  · obtain ⟨d, hd⟩ := fo.depth
    refine ⟨fun q => if InSub h n q then d q + d p + 1 else d q, ?_⟩
    intro a x hax
    rcases edge a x hax with hold | ⟨rfl, rfl⟩
    · have hlt := hd a x hold
      by_cases ha : InSub h n a
      · have hx : InSub h n x := (down a x hold).1 ha
        simp only [if_pos ha, if_pos hx]
        omega
      · have hx : ¬ InSub h n x := fun hx => ha ((down a x hold).2 hx)
        simp only [if_neg ha, if_neg hx]
        exact hlt
    · have hx : InSub h x x := Relation.ReflTransGen.refl
      simp only [if_neg hnot, if_pos hx]
      omega
  · obtain ⟨ht, hht⟩ := fo.height
    refine ⟨fun q => if InSub h n q then ht q else ht q + ht n + 1, ?_⟩
    intro a x hax
    rcases edge a x hax with hold | ⟨rfl, rfl⟩
    · have hlt := hht a x hold
      by_cases ha : InSub h n a
      · have hx : InSub h n x := (down a x hold).1 ha
        simp only [if_pos ha, if_pos hx]
        exact hlt
      · have hx : ¬ InSub h n x := fun hx => ha ((down a x hold).2 hx)
        simp only [if_neg ha, if_neg hx]
        omega
    · have hx : InSub h x x := Relation.ReflTransGen.refl
      simp only [if_neg hnot, if_pos hx]
      omega

theorem not_child_of_parentless {h : Heap} (fo : Forest h) {n : Ptr} {nd : TreeNode}
    (hn : h n = some nd) (hroot : nd.parent = none) (a : Ptr) : ¬ IsChild h a n := by
  rintro ⟨ta, hta, hm⟩
  obtain ⟨cn, hcn, hpar⟩ := fo.backref a ta n hta hm
  rw [hn] at hcn; cases hcn
  rw [hroot] at hpar
  cases hpar

theorem addChild_forest {h k : Heap} (fo : Forest h) {p n : Ptr} {t nd : TreeNode}
    (hp : h p = some t) (hn : h n = some nd) (hroot : nd.parent = none)
    (hnot : ¬ InSub h n p)
    (hkp : k p = some { t with children := t.children ++ [n] })
    (hkn : k n = some { nd with parent := some p })
    (hrest : ∀ q, q ≠ p → q ≠ n → k q = h q) : Forest k := by
  refine attach_forest fo hp hn hroot hnot ?_ ?_ hkp hkn hrest
  · intro x
    rw [List.mem_append, List.mem_singleton]
  · refine List.Nodup.append (fo.nodup p t hp) (List.nodup_singleton n) ?_
    intro x hx1 hx2
    rw [List.mem_singleton.1 hx2] at hx1
    exact not_child_of_parentless fo hn hroot p ⟨t, hp, hx1⟩

theorem insertChild_spec {h : Heap} {p n : Ptr} {t nd : TreeNode} {pos : Nat}
    (hp : h p = some t) (hn : h n = some nd) (hpn : p ≠ n) (hpos : pos ≤ t.children.length) :
    ∃ k, insertChild h p pos n = .ok k ∧
      k p = some { t with children := t.children.insertIdx pos n } ∧
      k n = some { nd with parent := some p } ∧
      ∀ q, q ≠ p → q ≠ n → k q = h q := by
  have h1 : (h.set n (some { nd with parent := some p })) p = some t := by
    simp [Heap.set, hpn, hp]
  refine ⟨(h.set n (some { nd with parent := some p })).set p
    (some { t with children := t.children.insertIdx pos n }), ?_, ?_, ?_, ?_⟩
  · unfold insertChild
    rw [hn]
    simp only [h1, if_pos hpos]
  · simp [Heap.set]
  · simp [Heap.set, Ne.symm hpn]
  · intro q hq hqn
    simp [Heap.set, hq, hqn]

theorem insertChild_live {h : Heap} {p n : Ptr} {pos : Nat} {k : Heap}
    (hk : insertChild h p pos n = .ok k) (hpn : p ≠ n) :
    ∃ t nd, h p = some t ∧ h n = some nd ∧ pos ≤ t.children.length := by
  unfold insertChild at hk
  cases hn : h n with
  | none =>
    rw [hn] at hk
    cases hk
  | some nd =>
    rw [hn] at hk
    cases hp : h p with
    | none =>
      have h1 : (h.set n (some { nd with parent := some p })) p = none := by
        simp [Heap.set, hpn, hp]
      simp only [h1] at hk
      cases hk
    | some t =>
      have h1 : (h.set n (some { nd with parent := some p })) p = some t := by
        simp [Heap.set, hpn, hp]
      simp only [h1] at hk
      by_cases hpos : pos ≤ t.children.length
      · exact ⟨t, nd, rfl, rfl, hpos⟩
      · rw [if_neg hpos] at hk
        cases hk

theorem insertChild_forest {h k : Heap} (fo : Forest h) {p n : Ptr} {t nd : TreeNode}
    {pos : Nat} (hpos : pos ≤ t.children.length)
    (hp : h p = some t) (hn : h n = some nd) (hroot : nd.parent = none)
    (hnot : ¬ InSub h n p)
    (hkp : k p = some { t with children := t.children.insertIdx pos n })
    (hkn : k n = some { nd with parent := some p })
    (hrest : ∀ q, q ≠ p → q ≠ n → k q = h q) : Forest k := by
  refine attach_forest fo hp hn hroot hnot ?_ ?_ hkp hkn hrest
  · intro x
    rw [List.mem_insertIdx hpos]
    exact Or.comm
  · rw [(List.perm_insertIdx n t.children hpos).nodup_iff, List.nodup_cons]
    exact ⟨fun hm => not_child_of_parentless fo hn hroot p ⟨t, hp, hm⟩, fo.nodup p t hp⟩

/-! ### Steps keep the invariant -/

theorem removeChild_le {f g : Nat} (hfg : f ≤ g) {h : Heap} {p : Ptr} {r : Int} {k : Heap}
    (hk : removeChild f h p r = .ok k) : removeChild g h p r = .ok k := by
  unfold removeChild at hk ⊢
  cases hp : h p with
  | none =>
    rw [hp] at hk
    cases hk
  | some t =>
    rw [hp] at hk
    cases hr : at? t.children r with
    | none =>
      simp only [hr] at hk
      cases hk
    | some c =>
      simp only [hr] at hk ⊢
      change (deleteNode f h c >>= fun h1 => _) = _ at hk
      show (deleteNode g h c >>= fun h1 => _) = _
      cases hx : deleteNode f h c with
      | error e =>
        rw [hx] at hk
        cases hk
      | ok k1 =>
        rw [hx] at hk
        rw [deleteNode_le hfg hx]
        exact hk

theorem removeChildren_le {f g : Nat} (hfg : f ≤ g) {h : Heap} {a : Ptr} {k : Heap}
    (hk : removeChildren f h a = .ok k) : removeChildren g h a = .ok k :=
  removeChildrenWith_mono (fun _ _ _ hx => deleteNode_le hfg hx) h a k hk

theorem removeChild_live {f : Nat} {h : Heap} {p : Ptr} {r : Int} {k : Heap}
    (hk : removeChild f h p r = .ok k) : ∃ t c, h p = some t ∧ at? t.children r = some c := by
  unfold removeChild at hk
  cases hp : h p with
  | none =>
    rw [hp] at hk
    cases hk
  | some t =>
    rw [hp] at hk
    cases hr : at? t.children r with
    | none =>
      simp only [hr] at hk
      cases hk
    | some c => exact ⟨t, c, rfl, hr⟩

theorem removeChild_step_forest {f : Nat} {h : Heap} (fo : Forest h) {p : Ptr} {r : Int}
    {k : Heap} (hk : removeChild f h p r = .ok k) : Forest k := by
  obtain ⟨t, c, hp, hr⟩ := removeChild_live hk
  obtain ⟨ht, hht⟩ := fo.height
  obtain ⟨k2, hk2, hkp, hrest⟩ := removeChild_spec fo hht hp hr
    (lt_of_lt_of_le (Nat.lt_succ_self (ht c)) (le_max_right f (ht c + 1)))
  have := removeChild_le (le_max_left f (ht c + 1)) hk
  rw [this] at hk2
  cases hk2
  exact removeChild_forest fo hp hr hkp hrest

theorem removeChildren_live {f : Nat} {h : Heap} {a : Ptr} {k : Heap}
    (hk : removeChildren f h a = .ok k) : ∃ t, h a = some t := by
  unfold removeChildren removeChildrenWith at hk
  cases ha : h a with
  | none =>
    rw [ha] at hk
    cases hk
  | some t => exact ⟨t, rfl⟩

theorem removeChildren_step_forest {f : Nat} {h : Heap} (fo : Forest h) {a : Ptr}
    {k : Heap} (hk : removeChildren f h a = .ok k) : Forest k := by
  obtain ⟨t, ha⟩ := removeChildren_live hk
  obtain ⟨ht, hht⟩ := fo.height
  obtain ⟨k2, hk2, hka, hrest⟩ := removeChildren_spec fo hht ha (le_max_right f (ht a))
  have := removeChildren_le (le_max_left f (ht a)) hk
  rw [this] at hk2
  cases hk2
  exact removeChildren_forest fo ha hka hrest

theorem removeSelf_unfold {f : Nat} {h : Heap} {n : Ptr} {k : Heap}
    (hk : removeSelf f h n = .ok k) : ∃ p r, removeChild f h p r = .ok k := by
  unfold removeSelf at hk
  cases hn : h n with
  | none =>
    rw [hn] at hk
    cases hk
  | some nd =>
    rw [hn] at hk
    cases hpar : nd.parent with
    | none =>
      simp only [hpar] at hk
      cases hk
    | some p =>
      simp only [hpar] at hk
      cases hrow : row h n with
      | none =>
        simp only [hrow] at hk
        cases hk
      | some r =>
        simp only [hrow] at hk
        exact ⟨p, r, hk⟩

theorem addChild_live {h : Heap} {p n : Ptr} {k : Heap} (hk : addChild h p n = .ok k) :
    ∃ t nd, h p = some t ∧ h n = some nd := by
  unfold addChild at hk
  cases hn : h n with
  | none =>
    rw [hn] at hk
    cases hk
  | some nd =>
    rw [hn] at hk
    by_cases hpn : p = n
    · subst hpn
      exact ⟨nd, nd, hn, rfl⟩
    · cases hp : h p with
      | none =>
        have h1 : (h.set n (some { nd with parent := some p })) p = none := by
          simp [Heap.set, hpn, hp]
        simp only [h1] at hk
        cases hk
      | some t => exact ⟨t, nd, rfl, rfl⟩

theorem step_forest {h k : Heap} {op : Op} (fo : Forest h) (hd : Disciplined h op)
    (hs : Step h op k) : Forest k := by
  cases op with
  | create p c =>
    obtain ⟨hp, rfl⟩ := hs
    exact construct_forest fo hp c
  | addChild this node =>
    obtain ⟨nd, hn, hroot, hnot⟩ := hd
    obtain ⟨t, nd2, hp, hn2⟩ := addChild_live hs
    obtain ⟨k2, hk2, hne, _, hrest⟩ := addChild_spec hp hn
    have hs2 : addChild h this node = .ok k := hs
    rw [hs2] at hk2
    cases hk2
    have hpn : this ≠ node := by
      rintro rfl
      exact hnot Relation.ReflTransGen.refl
    exact addChild_forest fo hp hn hroot hnot (hne hpn).1 (hne hpn).2 hrest
  | removeChild this r =>
    obtain ⟨f, hf⟩ := hs
    exact removeChild_step_forest fo hf
  | removeChildren this =>
    obtain ⟨f, hf⟩ := hs
    exact removeChildren_step_forest fo hf
  | removeSelf this =>
    obtain ⟨f, hf⟩ := hs
    obtain ⟨p, r, hpr⟩ := removeSelf_unfold hf
    exact removeChild_step_forest fo hpr

theorem reachableD_forest {r : Ptr} {h : Heap} (hr : ReachableD r h) : Forest h := by
  induction hr with
  | root => exact construct_forest forest_empty rfl _
  | step _ hd hs ih => exact step_forest ih hd hs

theorem owned_ownedOnce {h : Heap} (fo : Owned h) (r : Ptr) : OwnedOnce h r := by
  intro n hnr hn
  rcases Relation.ReflTransGen.cases_tail hn with heq | ⟨b, _, ⟨tb, htb, hm⟩⟩
  · exact absurd heq hnr
  · obtain ⟨nd, hnd, hpar⟩ := fo.backref b tb n htb hm
    refine ⟨b, tb, nd, hnd, htb, hpar, List.count_eq_one_of_mem (fo.nodup b tb htb) hm, ?_⟩
    intro q tq hq hmq
    exact owned_unique_parent fo ⟨tq, hq, hmq⟩ ⟨tb, htb, hm⟩

theorem rooted_climb {h : Heap} (fo : Rooted h) {d : Ptr → Nat}
    (hd : ∀ p c, IsChild h p c → d p < d c) :
    ∀ m n t, d n ≤ m → h n = some t →
      ∃ k r, climb h k n = some r ∧ getParent h r = some none := by
  intro m
  induction m with
  | zero =>
    intro n t hle hn
    cases hpar : t.parent with
    | none => exact ⟨0, n, rfl, by simp [getParent, hn, hpar]⟩
    | some p =>
      obtain ⟨tp, htp, hm⟩ := fo.attached n t p hn hpar
      have := hd p n ⟨tp, htp, hm⟩
      omega
  | succ m ih =>
    intro n t hle hn
    cases hpar : t.parent with
    | none => exact ⟨0, n, rfl, by simp [getParent, hn, hpar]⟩
    | some p =>
      obtain ⟨tp, htp, hm⟩ := fo.attached n t p hn hpar
      have hlt := hd p n ⟨tp, htp, hm⟩
      obtain ⟨k, r, hk, hr⟩ := ih p tp (by omega) htp
      refine ⟨k + 1, r, ?_, hr⟩
      simp only [climb, getParent, hn, hpar, Option.map_some']
      exact hk

theorem rooted_noCycle {h : Heap} (fo : Rooted h) : NoCycle h := by
  obtain ⟨d, hd⟩ := fo.depth
  constructor
  · intro n t hn
    exact rooted_climb fo hd (d n) n t (le_refl _) hn
  · intro n hcyc
    have key : ∀ a b, Relation.TransGen (IsChild h) a b → d a < d b := by
      intro a b hab
      induction hab with
      | single hx => exact hd _ _ hx
      | tail _ hx ih => exact lt_trans ih (hd _ _ hx)
    exact lt_irrefl _ (key n n hcyc)

theorem rooted_of_forest {h : Heap} (fo : Forest h) : Rooted h :=
  ⟨fo.attached, fo.depth⟩

theorem forest_noCycle {h : Heap} (fo : Forest h) : NoCycle h :=
  rooted_noCycle (rooted_of_forest fo)

/-- Attaching a freshly constructed object under a live node. -/
theorem attach_fresh {h : Heap} (fo : Forest h) {g f : Ptr} {tg : TreeNode} (c : NodeClass)
    (hg : h g = some tg) (hf : h f = none) :
    g ≠ f ∧ Forest (construct h f c) ∧ construct h f c g = some tg ∧
      construct h f c f = some { parent := none, children := [], cls := c } ∧
      ¬ InSub (construct h f c) f g := by
  have hgf : g ≠ f := by
    rintro rfl
    rw [hf] at hg
    cases hg
  refine ⟨hgf, construct_forest fo hf c, ?_, construct_at h f c, ?_⟩
  · rw [construct_other h f c hgf]
    exact hg
  · intro hx
    exact hgf (insub_leaf (construct_at h f c) rfl hx)

theorem removeChild_exact {f : Nat} {h k : Heap} (fo : Forest h) {p : Ptr} {r : Int}
    (hk : removeChild f h p r = .ok k) :
    ∃ t c, h p = some t ∧ at? t.children r = some c ∧
      k p = some { t with children := t.children.eraseIdx r.toNat } ∧
      ∀ q, q ≠ p → ((InSub h c q → k q = none) ∧ (¬ InSub h c q → k q = h q)) := by
  obtain ⟨t, c, hp, hr⟩ := removeChild_live hk
  obtain ⟨ht, hht⟩ := fo.height
  obtain ⟨k2, hk2, hkp, hrest⟩ := removeChild_spec fo hht hp hr
    (lt_of_lt_of_le (Nat.lt_succ_self (ht c)) (le_max_right f (ht c + 1)))
  have := removeChild_le (le_max_left f (ht c + 1)) hk
  rw [this] at hk2
  cases hk2
  exact ⟨t, c, hp, hr, hkp, hrest⟩

theorem removeChildren_exact {f : Nat} {h k : Heap} (fo : Forest h) {a : Ptr}
    (hk : removeChildren f h a = .ok k) :
    ∃ t, h a = some t ∧ k a = some { t with children := [] } ∧
      ∀ q, q ≠ a → ((InSub h a q → k q = none) ∧ (¬ InSub h a q → k q = h q)) := by
  obtain ⟨t, ha⟩ := removeChildren_live hk
  obtain ⟨ht, hht⟩ := fo.height
  obtain ⟨k2, hk2, hka, hrest⟩ := removeChildren_spec fo hht ha (le_max_right f (ht a))
  have := removeChildren_le (le_max_left f (ht a)) hk
  rw [this] at hk2
  cases hk2
  exact ⟨t, ha, hka, hrest⟩

theorem addChild_fresh {h : Heap} (fo : Forest h) {g f : Ptr} {tg : TreeNode} (c : NodeClass)
    (hg : h g = some tg) (hf : h f = none) :
    ∃ k, addChild (construct h f c) g f = .ok k ∧ Forest k ∧
      k g = some { tg with children := tg.children ++ [f] } ∧
      k f = some { parent := some g, children := [], cls := c } ∧
      ∀ q, q ≠ g → q ≠ f → k q = h q := by
  obtain ⟨hgf, fo2, hg2, hf2, hnot⟩ := attach_fresh fo c hg hf
  obtain ⟨k, hk, hne, _, hrest⟩ := addChild_spec hg2 hf2
  refine ⟨k, hk, addChild_forest fo2 hg2 hf2 rfl hnot (hne hgf).1 (hne hgf).2 hrest,
    (hne hgf).1, (hne hgf).2, ?_⟩
  intro q hqg hqf
  rw [hrest q hqg hqf, construct_other h f c hqf]

theorem insertChild_fresh {h : Heap} (fo : Forest h) {g f : Ptr} {tg : TreeNode}
    (c : NodeClass) {pos : Nat} (hg : h g = some tg) (hf : h f = none)
    (hpos : pos ≤ tg.children.length) :
    ∃ k, insertChild (construct h f c) g pos f = .ok k ∧ Forest k ∧
      k g = some { tg with children := tg.children.insertIdx pos f } ∧
      k f = some { parent := some g, children := [], cls := c } ∧
      ∀ q, q ≠ g → q ≠ f → k q = h q := by
  obtain ⟨hgf, fo2, hg2, hf2, hnot⟩ := attach_fresh fo c hg hf
  obtain ⟨k, hk, hkg, hkf, hrest⟩ := insertChild_spec hg2 hf2 hgf hpos
  refine ⟨k, hk, insertChild_forest fo2 hpos hg2 hf2 rfl hnot hkg hkf hrest, hkg, hkf, ?_⟩
  intro q hqg hqf
  rw [hrest q hqg hqf, construct_other h f c hqf]

theorem removeSelf_eq {h : Heap} {n p : Ptr} {nd t : TreeNode} (hn : h n = some nd)
    (hpar : nd.parent = some p) (hp : h p = some t) (fuel : Nat) :
    removeSelf fuel h n = removeChild fuel h p (indexOf t.children n) := by
  simp [removeSelf, hn, hpar, row, hp]

theorem removeSelf_inv {f : Nat} {h k : Heap} {n : Ptr} (hk : removeSelf f h n = .ok k) :
    ∃ nd p t, h n = some nd ∧ nd.parent = some p ∧ h p = some t := by
  unfold removeSelf at hk
  cases hn : h n with
  | none =>
    rw [hn] at hk
    cases hk
  | some nd =>
    rw [hn] at hk
    cases hpar : nd.parent with
    | none =>
      simp only [hpar] at hk
      cases hk
    | some p =>
      cases hp : h p with
      | none =>
        simp [hpar, row, hn, hp] at hk
      | some t => exact ⟨nd, p, t, rfl, hpar, hp⟩

/-- Effect of `removeSelf` on a leaf of an ownership tree. -/
theorem removeSelf_leaf {f : Nat} {h k : Heap} (fo : Forest h) {p : Ptr} {tp : TreeNode}
    (hp : h p = some tp) (hleaf : tp.children = []) (hk : removeSelf f h p = .ok k) :
    ∃ g tg, tp.parent = some g ∧ h g = some tg ∧ p ∈ tg.children ∧ g ≠ p ∧
      k g = some { tg with children := tg.children.erase p } ∧ k p = none ∧
      (∀ q, q ≠ g → q ≠ p → k q = h q) ∧ Forest k := by
  obtain ⟨nd, g, tg, hnd, hpar, hg⟩ := removeSelf_inv hk
  rw [hp] at hnd
  cases hnd
  obtain ⟨tg2, htg2, hmem⟩ := fo.attached p tp g hp hpar
  rw [hg] at htg2
  cases htg2
  rw [removeSelf_eq hp hpar hg] at hk
  obtain ⟨hidx, hat⟩ := indexOf_of_mem hmem
  obtain ⟨t, c, ht1, hr, hkg, hrest⟩ := removeChild_exact fo hk
  rw [hg] at ht1
  cases ht1
  rw [hat] at hr
  cases hr
  have hgp : g ≠ p := by
    rintro rfl
    exact forest_not_insub_parent fo ⟨tg, hg, hmem⟩ Relation.ReflTransGen.refl
  have herase : tg.children.eraseIdx (indexOf tg.children p).toNat = tg.children.erase p := by
    rw [hidx, Int.toNat_ofNat]
    exact List.eraseIdx_indexOf_eq_erase p tg.children
  rw [herase] at hkg
  refine ⟨g, tg, hpar, hg, hmem, hgp, hkg, ?_, ?_, removeChild_step_forest fo hk⟩
  · exact (hrest p (Ne.symm hgp)).1 Relation.ReflTransGen.refl
  · intro q hqg hqp
    exact (hrest q hqg).2 (fun hx => hqp (insub_leaf hp hleaf hx))

/-! ### The parent part of the invariant needs no discipline on ancestors -/

theorem removeChild_parts {f : Nat} {h k : Heap} {p : Ptr} {r : Int}
    (hk : removeChild f h p r = .ok k) :
    ∃ t c k1, h p = some t ∧ at? t.children r = some c ∧ deleteNode f h c = .ok k1 ∧
      k1 p = some t ∧ k p = some { t with children := t.children.eraseIdx r.toNat } ∧
      ∀ q, q ≠ p → k q = k1 q := by
  unfold removeChild at hk
  cases hp : h p with
  | none =>
    rw [hp] at hk
    cases hk
  | some t =>
    rw [hp] at hk
    cases hr : at? t.children r with
    | none =>
      simp only [hr] at hk
      cases hk
    | some c =>
      simp only [hr] at hk
      change (deleteNode f h c >>= fun h1 => _) = _ at hk
      cases hx : deleteNode f h c with
      | error e =>
        rw [hx] at hk
        cases hk
      | ok k1 =>
        rw [hx] at hk
        change (match k1 p with
          | none => _
          | some t1 => _) = _ at hk
        have hfr := deleteNode_frame f h c k1 hx
        cases hkp : k1 p with
        | none =>
          rw [hkp] at hk
          cases hk
        | some t1 =>
          rw [hkp] at hk
          have ht1 : t1 = t := by
            rcases hfr p with h1 | h1
            · rw [hkp] at h1
              cases h1
            · rw [hkp, hp] at h1
              exact Option.some.inj h1
          subst ht1
          simp only [hr] at hk
          cases hk
          refine ⟨t1, c, k1, rfl, hr, hx, hkp, by simp [Heap.set], ?_⟩
          intro q hq
          simp [Heap.set, hq]

theorem owned_live_child {h : Heap} (ow : Owned h) {a x : Ptr} (hax : IsChild h a x) :
    h x ≠ none := by
  obtain ⟨t, ht, hm⟩ := hax
  obtain ⟨cn, hcn, _⟩ := ow.backref a t x ht hm
  rw [hcn]
  exact Option.some_ne_none cn

theorem frame_same {h k : Heap} (hf : Frame h k) {q : Ptr} (hq : ¬ k q = none) : k q = h q := by
  rcases hf q with h1 | h1
  · exact absurd h1 hq
  · exact h1

theorem owned_removeChild {f : Nat} {h k : Heap} {p : Ptr} {r : Int} (ow : Owned h)
    (hk : removeChild f h p r = .ok k) : Owned k := by
  obtain ⟨t, c, k1, hp, hr, hdel, hk1p, hkp, hrest⟩ := removeChild_parts hk
  have rel := deleteNode_releases f h c k1 hdel
  obtain ⟨_, hlt, hget⟩ := at?_some hr
  have hmem := at?_mem hr
  have hpc : IsChild h p c := ⟨t, hp, hmem⟩
  have hpl : ∀ q, k1 q = none → q ≠ p := by
    rintro q hq rfl
    rw [hk1p] at hq
    cases hq
  refine (owned_carve ow (fun q => k1 q = none) ?_ ?_ ?_ ?_).1
  · intro q y hq hqy
    exact rel.closed q y hqy hq
  · intro q hq
    rw [hrest q (hpl q hq)]
    exact hq
  · intro q hq
    have hq1 := frame_none rel.frame hq
    rw [hrest q (hpl q hq1)]
    exact hq1
  · intro q hq tq htq
    have hsame := frame_same rel.frame hq
    by_cases hqp : q = p
    · subst hqp
      rw [hp] at htq
      cases htq
      refine ⟨_, hkp, rfl, List.eraseIdx_sublist _ _, ?_, ?_⟩
      · intro x hx hdx
        refine mem_eraseIdx_of_ne hlt hx ?_
        rintro rfl
        rw [hget] at hdx
        exact hdx rel.gone
      · intro x hx hx0
        have hx2 : x ∈ t.children := List.eraseIdx_subset _ _ hx
        rcases rel.origin x hx0 with h0 | hin
        · exact owned_live_child ow ⟨t, hp, hx2⟩ h0
        · rcases owned_escape ow ⟨t, hp, hx2⟩ hin with heq | hcp
          · subst heq
            rw [← hget] at hx
            exact getElem_not_mem_eraseIdx (ow.nodup q t hp) hlt hx
          · exact hq (closed_insub rel.closed rel.gone hcp)
    · refine ⟨tq, by rw [hrest q hqp, hsame]; exact htq, rfl, List.Sublist.refl _, ?_, ?_⟩
      · intro x hx _
        exact hx
      · intro x hx hx0
        rcases rel.origin x hx0 with h0 | hin
        · exact owned_live_child ow ⟨tq, htq, hx⟩ h0
        · rcases owned_escape ow ⟨tq, htq, hx⟩ hin with heq | hcq
          · subst heq
            exact hqp (owned_unique_parent ow ⟨tq, htq, hx⟩ hpc)
          · exact hq (closed_insub rel.closed rel.gone hcq)

theorem owned_removeChildren {f : Nat} {h k : Heap} {a : Ptr} (ow : Owned h)
    (hk : removeChildren f h a = .ok k) : Owned k := by
  obtain ⟨t, k1, ha, hfold, ⟨t1, hk1a⟩, hrest⟩ := removeChildrenWith_parts hk
  obtain ⟨t2, ha2, hka⟩ := removeChildren_result hk
  rw [ha] at ha2
  cases ha2
  obtain ⟨hf1, hgone, hcl, hor⟩ := foldlM_releases (deleteNode_releases f) _ _ _ hfold
  have hal : ∀ q, k1 q = none → q ≠ a := by
    rintro q hq rfl
    rw [hk1a] at hq
    cases hq
  refine (owned_carve ow (fun q => k1 q = none) ?_ ?_ ?_ ?_).1
  · intro q y hq hqy
    exact hcl q y hqy hq
  · intro q hq
    rw [hrest q (hal q hq)]
    exact hq
  · intro q hq
    have hq1 := frame_none hf1 hq
    rw [hrest q (hal q hq1)]
    exact hq1
  · intro q hq tq htq
    have hsame := frame_same hf1 hq
    by_cases hqa : q = a
    · subst hqa
      rw [ha] at htq
      cases htq
      refine ⟨_, hka, rfl, List.nil_sublist _, ?_, ?_⟩
      · intro x hx hdx
        exact absurd (hgone x hx) hdx
      · intro x hx
        cases hx
    · refine ⟨tq, by rw [hrest q hqa, hsame]; exact htq, rfl, List.Sublist.refl _, ?_, ?_⟩
      · intro x hx _
        exact hx
      · intro x hx hx0
        rcases hor x hx0 with h0 | ⟨d, hd, hin⟩
        · exact owned_live_child ow ⟨tq, htq, hx⟩ h0
        · rcases owned_escape ow ⟨tq, htq, hx⟩ hin with heq | hdq
          · subst heq
            exact hqa (owned_unique_parent ow ⟨tq, htq, hx⟩ ⟨t, ha, hd⟩)
          · exact hq (closed_insub hcl (hgone d hd) hdq)

theorem owned_not_child {h : Heap} (ow : Owned h) {n : Ptr} {nd : TreeNode}
    (hn : h n = some nd) (hroot : nd.parent = none) (a : Ptr) : ¬ IsChild h a n := by
  rintro ⟨ta, hta, hm⟩
  obtain ⟨cn, hcn, hpar⟩ := ow.backref a ta n hta hm
  rw [hn] at hcn; cases hcn
  rw [hroot] at hpar
  cases hpar

theorem owned_self {h k : Heap} (ow : Owned h) {p : Ptr} {t : TreeNode} (hp : h p = some t)
    (hroot : t.parent = none)
    (hkp : k p = some { t with parent := some p, children := t.children ++ [p] })
    (hrest : ∀ q, q ≠ p → k q = h q) : Owned k := by
  have noedge := owned_not_child ow hp hroot
  have old : ∀ a x, IsChild h a x → ∃ cn, k x = some cn ∧ cn.parent = some a := by
    rintro a x ⟨ta, hta, hm⟩
    obtain ⟨cn, hcn, hpar⟩ := ow.backref a ta x hta hm
    have hxp : x ≠ p := by
      rintro rfl
      exact noedge a ⟨ta, hta, hm⟩
    exact ⟨cn, by rw [hrest x hxp]; exact hcn, hpar⟩
  refine ⟨?_, ?_, ?_⟩
  · intro a ta x ha hx
    by_cases hap : a = p
    · subst hap
      rw [hkp] at ha
      cases ha
      rcases List.mem_append.1 hx with h1 | h1
      · exact old a x ⟨t, hp, h1⟩
      · rw [List.mem_singleton.1 h1]
        exact ⟨_, hkp, rfl⟩
    · rw [hrest a hap] at ha
      exact old a x ⟨ta, ha, hx⟩
  · intro a ta ha
    by_cases hap : a = p
    · subst hap
      rw [hkp] at ha
      cases ha
      refine List.Nodup.append (ow.nodup a t hp) (List.nodup_singleton a) ?_
      intro x hx1 hx2
      rw [List.mem_singleton.1 hx2] at hx1
      exact noedge a ⟨t, hp, hx1⟩
    · rw [hrest a hap] at ha
      exact ow.nodup a ta ha
  · intro x xt a hx hpar
    by_cases hxp : x = p
    · subst hxp
      rw [hkp] at hx
      cases hx
      cases hpar
      exact ⟨_, hkp, List.mem_append_right _ (List.mem_singleton.2 rfl)⟩
    · rw [hrest x hxp] at hx
      obtain ⟨ta0, hta0, hm0⟩ := ow.attached x xt a hx hpar
      by_cases hap : a = p
      · subst hap
        rw [hp] at hta0
        cases hta0
        exact ⟨_, hkp, List.mem_append_left _ hm0⟩
      · exact ⟨ta0, by rw [hrest a hap]; exact hta0, hm0⟩

theorem owned_addChild {h k : Heap} {p n : Ptr} (ow : Owned h) {nd : TreeNode}
    (hn : h n = some nd) (hroot : nd.parent = none) (hk : addChild h p n = .ok k) :
    Owned k := by
  obtain ⟨t, nd2, hp, hn2⟩ := addChild_live hk
  obtain ⟨k2, hk2, hne, heq, hrest⟩ := addChild_spec hp hn
  rw [hk] at hk2
  cases hk2
  by_cases hpn : p = n
  · subst hpn
    rw [hp] at hn
    cases hn
    exact owned_self ow hp hroot (heq rfl) (fun q hq => hrest q hq hq)
  · refine (owned_attach ow hp hn hroot ?_ ?_ (hne hpn).1 (hne hpn).2 hrest).1
    · intro x
      rw [List.mem_append, List.mem_singleton]
    · refine List.Nodup.append (ow.nodup p t hp) (List.nodup_singleton n) ?_
      intro x hx1 hx2
      rw [List.mem_singleton.1 hx2] at hx1
      exact owned_not_child ow hn hroot p ⟨t, hp, hx1⟩

theorem step_owned {h k : Heap} {op : Op} (ow : Owned h) (hd : Unattached h op)
    (hs : Step h op k) : Owned k := by
  cases op with
  | create p c =>
    obtain ⟨hp, rfl⟩ := hs
    exact (owned_construct ow hp c).1
  | addChild this node =>
    obtain ⟨nd, hn, hroot⟩ := hd
    exact owned_addChild ow hn hroot hs
  | removeChild this r =>
    obtain ⟨f, hf⟩ := hs
    exact owned_removeChild ow hf
  | removeChildren this =>
    obtain ⟨f, hf⟩ := hs
    exact owned_removeChildren ow hf
  | removeSelf this =>
    obtain ⟨f, hf⟩ := hs
    obtain ⟨p, r, hpr⟩ := removeSelf_unfold hf
    exact owned_removeChild ow hpr

theorem reachableP_owned {r : Ptr} {h : Heap} (hr : ReachableP r h) : Owned h := by
  induction hr with
  | root => exact (owned_construct (owned_of_forest forest_empty) rfl _).1
  | step _ hd hs ih => exact step_owned ih hd hs

theorem unattached_of_disciplined {h : Heap} {op : Op} (hd : Disciplined h op) :
    Unattached h op := by
  cases op with
  | addChild this node =>
    obtain ⟨nd, hn, hroot, _⟩ := hd
    exact ⟨nd, hn, hroot⟩
  | create p c => trivial
  | removeChild this r => trivial
  | removeChildren this => trivial
  | removeSelf this => trivial

theorem reachableD_reachableP {r : Ptr} {h : Heap} (hr : ReachableD r h) : ReachableP r h := by
  induction hr with
  | root => exact ReachableP.root
  | step _ hd hs ih => exact ReachableP.step ih (unattached_of_disciplined hd) hs

/-! ### The acyclic part of the invariant needs no discipline on parents -/

theorem shrinks_edge {h k : Heap} (hs : Shrinks h k) {a x : Ptr} (hax : IsChild k a x) :
    IsChild h a x := by
  obtain ⟨ta, hta, hm⟩ := hax
  obtain ⟨t0, ht0, _, _, hsub⟩ := hs a ta hta
  exact ⟨t0, ht0, hsub.subset hm⟩

theorem rooted_construct {h : Heap} (ro : Rooted h) {p : Ptr} (hp : h p = none)
    (c : NodeClass) : Rooted (construct h p c) := by
  have edge : ∀ a x, IsChild (construct h p c) a x → IsChild h a x := by
    rintro a x ⟨ta, hta, hm⟩
    by_cases hap : a = p
    · subst hap
      rw [construct_at] at hta
      cases hta
      cases hm
    · rw [construct_other h p c hap] at hta
      exact ⟨ta, hta, hm⟩
  refine ⟨?_, ?_⟩
  · intro n nd a hn hpar
    by_cases hnp : n = p
    · subst hnp
      rw [construct_at] at hn
      cases hn
      cases hpar
    · rw [construct_other h p c hnp] at hn
      obtain ⟨ta, hta, hm⟩ := ro.attached n nd a hn hpar
      have hap : a ≠ p := by
        rintro rfl
        rw [hp] at hta
        cases hta
      exact ⟨ta, by rw [construct_other h p c hap]; exact hta, hm⟩
  · obtain ⟨d, hd⟩ := ro.depth
    exact ⟨d, fun a x hax => hd a x (edge a x hax)⟩

theorem rooted_addChild {h k : Heap} {p n : Ptr} (ro : Rooted h) (hnot : ¬ InSub h n p)
    (hk : addChild h p n = .ok k) : Rooted k := by
  classical
  have hpn : p ≠ n := by
    rintro rfl
    exact hnot Relation.ReflTransGen.refl
  obtain ⟨t, nd, hp, hn⟩ := addChild_live hk
  obtain ⟨k2, hk2, hne, _, hrest⟩ := addChild_spec hp hn
  rw [hk] at hk2
  cases hk2
  obtain ⟨hkp, hkn⟩ := hne hpn
  have edge : ∀ a x, IsChild k a x → IsChild h a x ∨ (a = p ∧ x = n) := by
    rintro a x ⟨ta, hta, hm⟩
    by_cases hap : a = p
    · subst hap
      rw [hkp] at hta; cases hta
      rcases List.mem_append.1 hm with h1 | h1
      · exact Or.inl ⟨t, hp, h1⟩
      · exact Or.inr ⟨rfl, List.mem_singleton.1 h1⟩
    · by_cases han : a = n
      · subst han
        rw [hkn] at hta; cases hta
        exact Or.inl ⟨nd, hn, hm⟩
      · rw [hrest a hap han] at hta
        exact Or.inl ⟨ta, hta, hm⟩
  have sup : ∀ a ta0, h a = some ta0 → ∃ ta, k a = some ta ∧ ta0.children ⊆ ta.children := by
    intro a ta0 ha
    by_cases hap : a = p
    · subst hap
      rw [hp] at ha; cases ha
      exact ⟨_, hkp, fun x hx => List.mem_append_left _ hx⟩
    · by_cases han : a = n
      · subst han
        rw [hn] at ha; cases ha
        exact ⟨_, hkn, fun x hx => hx⟩
      · exact ⟨ta0, by rw [hrest a hap han]; exact ha, fun x hx => hx⟩
  refine ⟨?_, ?_⟩
  · intro x xt a hx hpar
    by_cases hxn : x = n
    · subst hxn
      rw [hkn] at hx; cases hx
      cases hpar
      exact ⟨_, hkp, List.mem_append_right _ (List.mem_singleton.2 rfl)⟩
    · have hx0 : ∃ xt0, h x = some xt0 ∧ xt0.parent = some a := by
        by_cases hxp : x = p
        · subst hxp
          rw [hkp] at hx; cases hx
          exact ⟨t, hp, hpar⟩
        · rw [hrest x hxp hxn] at hx
          exact ⟨xt, hx, hpar⟩
      obtain ⟨xt0, hxt0, hpar0⟩ := hx0
      obtain ⟨ta0, hta0, hm0⟩ := ro.attached x xt0 a hxt0 hpar0
      obtain ⟨ta, hta, hsub⟩ := sup a ta0 hta0
      exact ⟨ta, hta, hsub hm0⟩
  · obtain ⟨d, hd⟩ := ro.depth
    refine ⟨fun q => if InSub h n q then d q + d p + 1 else d q, ?_⟩
    intro a x hax
    rcases edge a x hax with hold | ⟨rfl, rfl⟩
    · have hlt := hd a x hold
      by_cases ha : InSub h n a
      · have hx : InSub h n x := Relation.ReflTransGen.tail ha hold
        simp only [if_pos ha, if_pos hx]
        omega
      · by_cases hx : InSub h n x
        · simp only [if_neg ha, if_pos hx]
          omega
        · simp only [if_neg ha, if_neg hx]
          exact hlt
    · have hx : InSub h x x := Relation.ReflTransGen.refl
      simp only [if_neg hnot, if_pos hx]
      omega

theorem rooted_removeChild {f : Nat} {h k : Heap} {p : Ptr} {r : Int} (ro : Rooted h)
    (hk : removeChild f h p r = .ok k) : Rooted k := by
  obtain ⟨t, c, k1, hp, hr, hdel, hk1p, hkp, hrest⟩ := removeChild_parts hk
  have rel := deleteNode_releases f h c k1 hdel
  obtain ⟨_, hlt, hget⟩ := at?_some hr
  refine ⟨?_, ?_⟩
  · intro y yt a hy hpar
    have hy0 : ∃ yt0, h y = some yt0 ∧ yt0.parent = some a ∧ ¬ k1 y = none := by
      by_cases hyp : y = p
      · subst hyp
        rw [hkp] at hy
        cases hy
        exact ⟨t, hp, hpar, by rw [hk1p]; exact Option.some_ne_none t⟩
      · rw [hrest y hyp] at hy
        have hl : ¬ k1 y = none := by
          rw [hy]
          exact Option.some_ne_none yt
        exact ⟨yt, by rw [← frame_same rel.frame hl]; exact hy, hpar, hl⟩
    obtain ⟨yt0, hyt0, hpar0, hyl⟩ := hy0
    obtain ⟨ta, hta, hm⟩ := ro.attached y yt0 a hyt0 hpar0
    have hal : ¬ k1 a = none := fun ha0 => hyl (rel.closed a y ⟨ta, hta, hm⟩ ha0)
    by_cases hap : a = p
    · subst hap
      rw [hp] at hta
      cases hta
      refine ⟨_, hkp, mem_eraseIdx_of_ne hlt hm ?_⟩
      rintro rfl
      rw [hget] at hyl
      exact hyl rel.gone
    · exact ⟨ta, by rw [hrest a hap, frame_same rel.frame hal]; exact hta, hm⟩
  · obtain ⟨d, hd⟩ := ro.depth
    exact ⟨d, fun a x hax => hd a x (shrinks_edge (removeChild_shrinks hk) hax)⟩

theorem rooted_removeChildren {f : Nat} {h k : Heap} {a : Ptr} (ro : Rooted h)
    (hk : removeChildren f h a = .ok k) : Rooted k := by
  obtain ⟨t, k1, ha, hfold, ⟨t1, hk1a⟩, hrest⟩ := removeChildrenWith_parts hk
  obtain ⟨t2, ha2, hka⟩ := removeChildren_result hk
  rw [ha] at ha2
  cases ha2
  obtain ⟨hf1, hgone, hcl, _⟩ := foldlM_releases (deleteNode_releases f) _ _ _ hfold
  refine ⟨?_, ?_⟩
  · intro y yt b hy hpar
    have hy0 : ∃ yt0, h y = some yt0 ∧ yt0.parent = some b ∧ ¬ k1 y = none := by
      by_cases hya : y = a
      · subst hya
        rw [hka] at hy
        cases hy
        exact ⟨t, ha, hpar, by rw [hk1a]; exact Option.some_ne_none t1⟩
      · rw [hrest y hya] at hy
        have hl : ¬ k1 y = none := by
          rw [hy]
          exact Option.some_ne_none yt
        exact ⟨yt, by rw [← frame_same hf1 hl]; exact hy, hpar, hl⟩
    obtain ⟨yt0, hyt0, hpar0, hyl⟩ := hy0
    obtain ⟨tb, htb, hm⟩ := ro.attached y yt0 b hyt0 hpar0
    have hbl : ¬ k1 b = none := fun hb0 => hyl (hcl b y ⟨tb, htb, hm⟩ hb0)
    by_cases hba : b = a
    · subst hba
      rw [ha] at htb
      cases htb
      exact absurd (hgone y hm) hyl
    · exact ⟨tb, by rw [hrest b hba, frame_same hf1 hbl]; exact htb, hm⟩
  · obtain ⟨d, hd⟩ := ro.depth
    exact ⟨d, fun b x hbx => hd b x (shrinks_edge (removeChildren_shrinks hk) hbx)⟩

theorem step_rooted {h k : Heap} {op : Op} (ro : Rooted h) (hd : NotAncestor h op)
    (hs : Step h op k) : Rooted k := by
  cases op with
  | create p c =>
    obtain ⟨hp, rfl⟩ := hs
    exact rooted_construct ro hp c
  | addChild this node => exact rooted_addChild ro hd hs
  | removeChild this r =>
    obtain ⟨f, hf⟩ := hs
    exact rooted_removeChild ro hf
  | removeChildren this =>
    obtain ⟨f, hf⟩ := hs
    exact rooted_removeChildren ro hf
  | removeSelf this =>
    obtain ⟨f, hf⟩ := hs
    obtain ⟨p, r, hpr⟩ := removeSelf_unfold hf
    exact rooted_removeChild ro hpr

theorem reachableA_rooted {r : Ptr} {h : Heap} (hr : ReachableA r h) : Rooted h := by
  induction hr with
  | root => exact rooted_construct (rooted_of_forest forest_empty) rfl _
  | step _ hd hs ih => exact step_rooted ih hd hs

theorem notAncestor_of_disciplined {h : Heap} {op : Op} (hd : Disciplined h op) :
    NotAncestor h op := by
  cases op with
  | addChild this node =>
    obtain ⟨nd, _, _, hnot⟩ := hd
    exact hnot
  | create p c => trivial
  | removeChild this r => trivial
  | removeChildren this => trivial
  | removeSelf this => trivial

theorem reachableD_reachableA {r : Ptr} {h : Heap} (hr : ReachableD r h) : ReachableA r h := by
  induction hr with
  | root => exact ReachableA.root
  | step _ hd hs ih => exact ReachableA.step ih (notAncestor_of_disciplined hd) hs

/-! ### The sample tree -/

theorem sampleHeap_forest : Forest sampleHeap := by
  constructor
  · intro p t c hp hc
    unfold sampleHeap at hp
    split_ifs at hp <;> cases hp <;> simp at hc
    · rcases hc with rfl | rfl
      · exact ⟨_, rfl, by subst_vars; rfl⟩
      · exact ⟨_, rfl, by subst_vars; rfl⟩
    · subst hc
      exact ⟨_, rfl, by subst_vars; rfl⟩
  · intro p t hp
    unfold sampleHeap at hp
    split_ifs at hp <;> cases hp <;> decide
  · intro n nd p hn hpar
    unfold sampleHeap at hn
    split_ifs at hn <;> cases hn <;> cases hpar <;> subst_vars
    · exact ⟨_, rfl, by decide⟩
    · exact ⟨_, rfl, by decide⟩
    · exact ⟨_, rfl, by decide⟩
  · refine ⟨fun q => if q = 0 then 0 else if q = 3 then 2 else 1, ?_⟩
    rintro p c ⟨t, hp, hc⟩
    unfold sampleHeap at hp
    split_ifs at hp <;> cases hp <;> simp at hc
    · rcases hc with rfl | rfl <;> subst_vars <;> decide
    · subst_vars
      decide
  · refine ⟨fun q => if q = 0 then 2 else if q = 1 then 1 else 0, ?_⟩
    rintro p c ⟨t, hp, hc⟩
    unfold sampleHeap at hp
    split_ifs at hp <;> cases hp <;> simp at hc
    · rcases hc with rfl | rfl <;> subst_vars <;> decide
    · subst_vars
      decide

/-! ### Deletion returns exactly on trees -/

theorem treeAt_leaf {h : Heap} {a : Ptr} {t : TreeNode} (ha : h a = some t)
    (hc : t.children = []) : TreeAt h a := by
  refine TreeAt.node a t ha (by rw [hc]; exact List.nodup_nil) ?_ ?_
  · intro c hm
    rw [hc] at hm
    cases hm
  · intro c1 hm
    rw [hc] at hm
    cases hm

theorem treeAt_live {h : Heap} {a : Ptr} (ta : TreeAt h a) :
    ∀ q, InSub h a q → ∃ t, h q = some t := by
  induction ta with
  | node a t ha _ _ _ ih =>
    intro q hq
    rcases insub_iff_head.1 hq with heq | ⟨d, ⟨t2, ht2, hm⟩, hdq⟩
    · rw [heq]
      exact ⟨t, ha⟩
    · rw [ha] at ht2
      cases ht2
      exact ih d hm q hdq

theorem treeAt_no_back {h : Heap} {a : Ptr} (ta : TreeAt h a) :
    ∀ d, IsChild h a d → ¬ InSub h d a := by
  induction ta with
  | node a t ha _ _ _ ih =>
    rintro d ⟨t2, ht2, hm⟩ hda
    rw [ha] at ht2
    cases ht2
    rcases insub_iff_head.1 hda with heq | ⟨e, he, hea⟩
    · have hdd : IsChild h d d := by
        rw [heq] at ha
        exact ⟨t, ha, hm⟩
      exact ih d hm d hdd Relation.ReflTransGen.refl
    · exact ih d hm e he (Relation.ReflTransGen.tail hea ⟨t, ha, hm⟩)

theorem treeAt_acyclic {h : Heap} {a q : Ptr} (ta : TreeAt h a) (hq : InSub h a q)
    (hqa : IsChild h q a) : False := by
  rcases insub_iff_head.1 hq with heq | ⟨d, hd, hdq⟩
  · rw [heq] at hqa
    exact treeAt_no_back ta a hqa Relation.ReflTransGen.refl
  · exact treeAt_no_back ta d hd (Relation.ReflTransGen.tail hdq hqa)

theorem treeAt_congr {h k : Heap} {a : Ptr} (ta : TreeAt h a) :
    (∀ q, InSub h a q → k q = h q) → TreeAt k a := by
  induction ta with
  | node a t ha hnd _ hdis ih =>
    intro agree
    have hsub : ∀ c ∈ t.children, ∀ q, InSub h c q → k q = h q := fun c hc q hq =>
      agree q (Relation.ReflTransGen.head ⟨t, ha, hc⟩ hq)
    refine TreeAt.node a t (by rw [agree a Relation.ReflTransGen.refl]; exact ha) hnd
      (fun c hc => ih c hc (hsub c hc)) ?_
    intro c1 h1 c2 h2 hne q hq1 hq2
    exact hdis c1 h1 c2 h2 hne q ((insub_congr (hsub c1 h1) q).1 hq1)
      ((insub_congr (hsub c2 h2) q).1 hq2)

theorem treeAt_of_frame {h k : Heap} {a : Ptr} (hf : Frame h k) (ta : TreeAt k a) :
    TreeAt h a ∧ ∀ q, InSub h a q ↔ InSub k a q := by
  have agree : ∀ q, InSub k a q → h q = k q := by
    intro q hq
    obtain ⟨t, ht⟩ := treeAt_live ta q hq
    rcases hf q with h1 | h1
    · rw [ht] at h1
      cases h1
    · exact h1.symm
  exact ⟨treeAt_congr ta agree, insub_congr agree⟩

theorem foldlM_trees {del : Heap → Ptr → Res}
    (hrel : ∀ h d k, del h d = .ok k → Releases h k d)
    (htree : ∀ h d k, del h d = .ok k → TreeAt h d) :
    ∀ (ds : List Ptr) (h k : Heap), ds.foldlM del h = .ok k →
      ds.Nodup ∧ (∀ d ∈ ds, TreeAt h d) ∧
      ∀ d1 ∈ ds, ∀ d2 ∈ ds, d1 ≠ d2 → ∀ q, InSub h d1 q → ¬ InSub h d2 q := by
  intro ds
  induction ds with
  | nil =>
    intro h k _
    refine ⟨List.nodup_nil, ?_, ?_⟩
    · intro d hd
      cases hd
    · intro d hd
      cases hd
  | cons d ds ih =>
    intro h k hk
    rw [List.foldlM_cons] at hk
    cases hx : del h d with
    | error e =>
      rw [hx] at hk
      cases hk
    | ok k1 =>
      rw [hx] at hk
      have r1 := hrel h d k1 hx
      have t1 := htree h d k1 hx
      obtain ⟨hnd, htr, hdis⟩ := ih k1 k hk
      have lift : ∀ e ∈ ds, TreeAt h e ∧ ∀ q, InSub h e q ↔ InSub k1 e q := fun e he =>
        treeAt_of_frame r1.frame (htr e he)
      have apart : ∀ e ∈ ds, ∀ q, InSub h d q → ¬ InSub h e q := by
        intro e he q hdq heq
        obtain ⟨t, ht⟩ := treeAt_live (htr e he) q (((lift e he).2 q).1 heq)
        rw [closed_insub r1.closed r1.gone hdq] at ht
        cases ht
      have hdn : d ∉ ds := fun hd =>
        apart d hd d Relation.ReflTransGen.refl Relation.ReflTransGen.refl
      refine ⟨List.nodup_cons.2 ⟨hdn, hnd⟩, ?_, ?_⟩
      · intro e he
        rcases List.mem_cons.1 he with heq | he2
        · rw [heq]
          exact t1
        · exact (lift e he2).1
      · intro d1 h1 d2 h2 hne q hq1 hq2
        rcases List.mem_cons.1 h1 with e1 | m1
        · rcases List.mem_cons.1 h2 with e2 | m2
          · exact hne (e1.trans e2.symm)
          · rw [e1] at hq1
            exact apart d2 m2 q hq1 hq2
        · rcases List.mem_cons.1 h2 with e2 | m2
          · rw [e2] at hq2
            exact apart d1 m1 q hq2 hq1
          · exact hdis d1 m1 d2 m2 hne q (((lift d1 m1).2 q).1 hq1)
              (((lift d2 m2).2 q).1 hq2)

theorem deleteNode_tree : ∀ f h c k, deleteNode f h c = .ok k → TreeAt h c := by
  intro f
  induction f with
  | zero =>
    intro h c k hk
    cases hk
  | succ f ih =>
    intro h c k hk
    change (removeChildrenWith (deleteNode f) h c >>= fun h1 => _) = _ at hk
    cases hx : removeChildrenWith (deleteNode f) h c with
    | error e =>
      rw [hx] at hk
      cases hk
    | ok k0 =>
      obtain ⟨t, k1, hc, hfold, _, _⟩ := removeChildrenWith_parts hx
      obtain ⟨hnd, htr, hdis⟩ := foldlM_trees (deleteNode_releases f) ih _ _ _ hfold
      exact TreeAt.node c t hc hnd htr hdis

theorem removeChildren_tree {f : Nat} {h k : Heap} {a : Ptr}
    (hk : removeChildren f h a = .ok k) : TreeAt h a := by
  obtain ⟨t, k1, ha, hfold, _, _⟩ := removeChildrenWith_parts hk
  obtain ⟨hnd, htr, hdis⟩ := foldlM_trees (deleteNode_releases f) (deleteNode_tree f) _ _ _ hfold
  exact TreeAt.node a t ha hnd htr hdis

theorem foldlM_completes {del : Heap → Ptr → Res}
    (hrel : ∀ h d k, del h d = .ok k → Releases h k d) {h : Heap} :
    ∀ (ds : List Ptr) (g : Heap), ds.Nodup → (∀ d ∈ ds, TreeAt h d) →
      (∀ d ∈ ds, ∀ g2, (∀ q, InSub h d q → g2 q = h q) → ∃ k, del g2 d = .ok k) →
      (∀ d1 ∈ ds, ∀ d2 ∈ ds, d1 ≠ d2 → ∀ q, InSub h d1 q → ¬ InSub h d2 q) →
      (∀ d ∈ ds, ∀ q, InSub h d q → g q = h q) →
      ∃ k, ds.foldlM del g = .ok k := by
  intro ds
  induction ds with
  | nil =>
    intro g _ _ _ _ _
    exact ⟨g, rfl⟩
  | cons d ds ih =>
    intro g hnd htr hdel hdis hag
    have hd : d ∈ d :: ds := List.mem_cons_self _ _
    obtain ⟨k1, hk1⟩ := hdel d hd g (hag d hd)
    have r1 := hrel g d k1 hk1
    have hnd2 := List.nodup_cons.1 hnd
    have hag1 : ∀ e ∈ ds, ∀ q, InSub h e q → k1 q = h q := by
      intro e he q hq
      have he2 : e ∈ d :: ds := List.mem_cons_of_mem _ he
      have hgq := hag e he2 q hq
      rcases r1.frame q with h0 | h0
      · exfalso
        rcases r1.origin q h0 with h1 | h1
        · obtain ⟨t, ht⟩ := treeAt_live (htr e he2) q hq
          rw [hgq, ht] at h1
          cases h1
        · have hde : d ≠ e := by
            intro heq
            rw [heq] at hnd2
            exact hnd2.1 he
          exact hdis d hd e he2 hde q ((insub_congr (hag d hd) q).1 h1) hq
      · rw [h0]
        exact hgq
    obtain ⟨k, hk⟩ := ih k1 hnd2.2 (fun e he => htr e (List.mem_cons_of_mem _ he))
      (fun e he => hdel e (List.mem_cons_of_mem _ he))
      (fun d1 h1 d2 h2 => hdis d1 (List.mem_cons_of_mem _ h1) d2 (List.mem_cons_of_mem _ h2))
      hag1
    refine ⟨k, ?_⟩
    rw [List.foldlM_cons, hk1]
    exact hk

theorem removeChildrenWith_completes {del : Heap → Ptr → Res}
    (hrel : ∀ h d k, del h d = .ok k → Releases h k d) {h g : Heap} {a : Ptr} {t : TreeNode}
    (ta : TreeAt h a) (ha : h a = some t)
    (hdel : ∀ d ∈ t.children, ∀ g2, (∀ q, InSub h d q → g2 q = h q) → ∃ k, del g2 d = .ok k)
    (hag : ∀ q, InSub h a q → g q = h q) : ∃ k, removeChildrenWith del g a = .ok k := by
  have hchild : ∀ d ∈ t.children, IsChild h a d := fun d hd => ⟨t, ha, hd⟩
  have hsub : ∀ d ∈ t.children, ∀ q, InSub h d q → g q = h q := fun d hd q hq =>
    hag q (Relation.ReflTransGen.head (hchild d hd) hq)
  have hga : g a = some t := by
    rw [hag a Relation.ReflTransGen.refl]
    exact ha
  have parts : t.children.Nodup ∧ (∀ c ∈ t.children, TreeAt h c) ∧
      ∀ c1 ∈ t.children, ∀ c2 ∈ t.children, c1 ≠ c2 → ∀ q, InSub h c1 q → ¬ InSub h c2 q := by
    cases ta with
    | node _ t2 ha2 hnd htr hdis =>
      rw [ha] at ha2
      cases ha2
      exact ⟨hnd, htr, hdis⟩
  obtain ⟨hnd, htr, hdis⟩ := parts
  obtain ⟨k1, hk1⟩ := foldlM_completes hrel t.children g hnd htr hdel hdis hsub
  obtain ⟨hf1, _, _, hor1⟩ := foldlM_releases hrel _ _ _ hk1
  have hka : k1 a = some t := by
    rcases hf1 a with h0 | h0
    · exfalso
      rcases hor1 a h0 with h1 | ⟨d, hd, hda⟩
      · rw [hga] at h1
        cases h1
      · exact treeAt_no_back ta d (hchild d hd) ((insub_congr (hsub d hd) a).1 hda)
    · rw [h0]
      exact hga
  refine ⟨k1.set a (some { t with children := [] }), ?_⟩
  unfold removeChildrenWith
  rw [hga]
  show (t.children.foldlM del g >>= fun h1 => _) = _
  rw [hk1]
  show (match k1 a with
    | none => _
    | some t1 => _) = _
  rw [hka]

theorem list_bound {P : Ptr → Nat → Prop} : ∀ (l : List Ptr),
    (∀ c ∈ l, ∃ N, ∀ f, N ≤ f → P c f) → ∃ N, ∀ c ∈ l, ∀ f, N ≤ f → P c f := by
  intro l
  induction l with
  | nil =>
    intro _
    refine ⟨0, ?_⟩
    intro c hc
    cases hc
  | cons c l ih =>
    intro hall
    obtain ⟨N1, h1⟩ := hall c (List.mem_cons_self _ _)
    obtain ⟨N2, h2⟩ := ih (fun e he => hall e (List.mem_cons_of_mem _ he))
    refine ⟨max N1 N2, ?_⟩
    intro e he f hf
    rcases List.mem_cons.1 he with heq | he2
    · rw [heq]
      exact h1 f (le_trans (le_max_left _ _) hf)
    · exact h2 e he2 f (le_trans (le_max_right _ _) hf)

theorem treeAt_completes {h : Heap} {a : Ptr} (ta : TreeAt h a) :
    ∃ N, ∀ fuel, N ≤ fuel → ∀ g, (∀ q, InSub h a q → g q = h q) →
      ∃ k, deleteNode fuel g a = .ok k := by
  induction ta with
  | node a t ha hnd htr hdis ih =>
    obtain ⟨N, hN⟩ := list_bound t.children ih
    refine ⟨N + 1, ?_⟩
    intro fuel hfuel g hag
    cases fuel with
    | zero => omega
    | succ f =>
      obtain ⟨k0, hk0⟩ := removeChildrenWith_completes (deleteNode_releases f)
        (TreeAt.node a t ha hnd htr hdis) ha
        (fun d hd g2 hg2 => hN d hd f (by omega) g2 hg2) hag
      refine ⟨k0.set a none, ?_⟩
      show (removeChildrenWith (deleteNode f) g a >>= fun h1 => _) = _
      rw [hk0]
      rfl

theorem removeChildren_completes {h : Heap} {a : Ptr} (ta : TreeAt h a) :
    ∃ N, ∀ fuel, N ≤ fuel → ∃ k, removeChildren fuel h a = .ok k := by
  obtain ⟨t, ha⟩ := treeAt_live ta a Relation.ReflTransGen.refl
  have htr : ∀ c ∈ t.children, TreeAt h c := by
    cases ta with
    | node _ t2 ha2 _ htr _ =>
      rw [ha] at ha2
      cases ha2
      exact htr
  obtain ⟨N, hN⟩ := @list_bound (fun c f => ∀ g, (∀ q, InSub h c q → g q = h q) →
    ∃ k, deleteNode f g c = .ok k) t.children (fun c hc => treeAt_completes (htr c hc))
  refine ⟨N, ?_⟩
  intro fuel hfuel
  exact removeChildrenWith_completes (deleteNode_releases fuel) ta ha
    (fun d hd g2 hg2 => hN d hd fuel hfuel g2 hg2) (fun _ _ => rfl)

theorem removeChild_completes {h : Heap} {p c : Ptr} {t : TreeNode} {r : Int}
    (hp : h p = some t) (hr : at? t.children r = some c) (tc : TreeAt h c) :
    ∃ N, ∀ fuel, N ≤ fuel → ∃ k, removeChild fuel h p r = .ok k := by
  obtain ⟨N, hN⟩ := treeAt_completes tc
  refine ⟨N, ?_⟩
  intro fuel hfuel
  obtain ⟨k1, hk1⟩ := hN fuel hfuel h (fun _ _ => rfl)
  have r1 := deleteNode_releases fuel h c k1 hk1
  have hk1p : k1 p = some t := by
    rcases r1.frame p with h0 | h0
    · exfalso
      rcases r1.origin p h0 with h1 | h1
      · rw [hp] at h1
        cases h1
      · exact treeAt_acyclic tc h1 ⟨t, hp, at?_mem hr⟩
    · rw [h0]
      exact hp
  refine ⟨k1.set p (some { t with children := t.children.eraseIdx r.toNat }), ?_⟩
  unfold removeChild
  rw [hp]
  simp only [hr]
  show (deleteNode fuel h c >>= fun h1 => _) = _
  rw [hk1]
  show (match k1 p with
    | none => _
    | some t1 => _) = _
  rw [hk1p]
  simp only [hr]

theorem removeChild_tree {f : Nat} {h k : Heap} {p c : Ptr} {t : TreeNode} {r : Int}
    (hp : h p = some t) (hr : at? t.children r = some c)
    (hk : removeChild f h p r = .ok k) : TreeAt h c := by
  obtain ⟨t2, c2, k1, hp2, hr2, hdel, _⟩ := removeChild_parts hk
  rw [hp] at hp2
  cases hp2
  rw [hr] at hr2
  cases hr2
  exact deleteNode_tree f h c k1 hdel

theorem forest_treeAt {h : Heap} (fo : Forest h) {a : Ptr} {t : TreeNode}
    (ha : h a = some t) : TreeAt h a := by
  obtain ⟨ht, hht⟩ := fo.height
  have key : ∀ n a t, ht a ≤ n → h a = some t → TreeAt h a := by
    intro n
    induction n with
    | zero =>
      intro a t hn ha
      refine TreeAt.node a t ha (fo.nodup a t ha) ?_ ?_
      · intro c hc
        have := hht a c ⟨t, ha, hc⟩
        omega
      · intro c1 hc1
        have := hht a c1 ⟨t, ha, hc1⟩
        omega
    | succ n ih =>
      intro a t hn ha
      refine TreeAt.node a t ha (fo.nodup a t ha) ?_ ?_
      · intro c hc
        obtain ⟨cn, hcn, _⟩ := fo.backref a t c ha hc
        have := hht a c ⟨t, ha, hc⟩
        exact ih c cn (by omega) hcn
      · intro c1 h1 c2 h2 hne q hq
        exact sibling_disjoint (forest_subOK fo hht ha) ⟨t, ha, h1⟩ ⟨t, ha, h2⟩ hne hq
  exact key (ht a) a t (le_refl _) ha

theorem loopHeap_reachable : Reachable 0 loopHeap :=
  Reachable.step Reachable.root (show Step _ (Op.addChild 0 0) _ from rfl)

theorem dupHeap_reachable : Reachable 0 dupHeap :=
  Reachable.step
    (Reachable.step
      (Reachable.step Reachable.root
        (show Step _ (Op.create 1 NodeClass.treeNode) _ from ⟨rfl, rfl⟩))
      (show Step _ (Op.addChild 0 1) _ from rfl))
    (show Step _ (Op.addChild 0 1) _ from rfl)

theorem loopHeap_delete :
    ∀ fuel, deleteNode fuel loopHeap 0 = .error (Fault.outOfFuel, loopHeap) := by
  intro fuel
  induction fuel with
  | zero => rfl
  | succ f ih =>
    have hcell : loopHeap 0 =
        some { parent := some 0, children := [0], cls := NodeClass.treeNode } := rfl
    have h1 : removeChildrenWith (deleteNode f) loopHeap 0 =
        .error (Fault.outOfFuel, loopHeap) := by
      unfold removeChildrenWith
      rw [hcell]
      show ([0].foldlM (deleteNode f) loopHeap >>= fun h1 => _) = _
      rw [List.foldlM_cons, ih]
      rfl
    show (removeChildrenWith (deleteNode f) loopHeap 0 >>= fun h1 => _) = _
    rw [h1]
    rfl

theorem loopHeap_removeChild :
    ∀ fuel, removeChild fuel loopHeap 0 0 = .error (Fault.outOfFuel, loopHeap) := by
  intro fuel
  have hcell : loopHeap 0 =
      some { parent := some 0, children := [0], cls := NodeClass.treeNode } := rfl
  have hat : at? [0] 0 = some 0 := rfl
  unfold removeChild
  rw [hcell]
  simp only [hat]
  show (deleteNode fuel loopHeap 0 >>= fun h1 => _) = _
  rw [loopHeap_delete]
  rfl

theorem sharedHeap_tree1 : TreeAt sharedHeap 1 := by
  have h3 : sharedHeap 3 = some { parent := some 2, children := [], cls := NodeClass.treeNode } :=
    rfl
  have h1 : sharedHeap 1 = some { parent := some 0, children := [3], cls := NodeClass.treeNode } :=
    rfl
  refine TreeAt.node 1 _ h1 (by decide) ?_ ?_
  · intro c hc
    rw [List.mem_singleton.1 hc]
    exact treeAt_leaf h3 rfl
  · intro c1 m1 c2 m2 hne
    exact absurd ((List.mem_singleton.1 m1).trans (List.mem_singleton.1 m2).symm) hne

theorem sharedHeap_tree3 : TreeAt sharedHeap 3 :=
  treeAt_leaf (rfl : sharedHeap 3 =
    some { parent := some 2, children := [], cls := NodeClass.treeNode }) rfl

theorem sharedHeap_not_forest : ¬ Forest sharedHeap := by
  intro fo
  obtain ⟨cn, hcn, hpar⟩ := fo.backref 1
    { parent := some 0, children := [3], cls := NodeClass.treeNode } 3 rfl (by decide)
  have h3 : sharedHeap 3 = some { parent := some 2, children := [], cls := NodeClass.treeNode } :=
    rfl
  rw [h3] at hcn
  cases hcn
  cases hpar

/-! ## Claims on single calls -/

theorem at?_append_left {l : List Ptr} {i : Int} (x : Ptr) (h0 : 0 ≤ i) (hi : i < l.length) :
    at? (l ++ [x]) i = at? l i ∧ (at? l i).isSome := by
  have hlt : i.toNat < l.length := by omega
  unfold at?
  rw [if_pos h0, if_pos h0, List.getElem?_append_left hlt, List.getElem?_eq_getElem hlt]
  exact ⟨rfl, rfl⟩

theorem at?_append_length (l : List Ptr) (x : Ptr) :
    at? (l ++ [x]) (((l.length + 1 : Nat) : Int) - 1) = some x := by
  have h1 : (((l.length + 1 : Nat) : Int) - 1) = (l.length : Int) := by
    push_cast
    ring
  rw [h1]
  unfold at?
  rw [if_pos (Int.ofNat_nonneg _)]
  simp

/-- C1: for live objects `p` and `n`, `p.addChild(n)` completes; afterwards the child
sequence of `p` is its former sequence followed by `n`, so `childCount` has grown by
one, `getChild(childCount - 1)` is `n`, every former child keeps its row, and
`n.getParent()` is `p`. -/
theorem addChild_appends (h : Heap) (p n : Ptr) (t nd : TreeNode) (hp : h p = some t)
    (hn : h n = some nd) :
    ∃ k, addChild h p n = .ok k ∧
      getChildren k p = some (t.children ++ [n]) ∧
      childCount k p = some (t.children.length + 1) ∧
      getChild k p (((t.children.length + 1 : Nat) : Int) - 1) = some n ∧
      (∀ i : Int, 0 ≤ i → i < t.children.length →
        getChild k p i = getChild h p i ∧ (getChild h p i).isSome) ∧
      getParent k n = some (some p) := by
  obtain ⟨k, hk, hne, heq, _⟩ := addChild_spec hp hn
  have hkp : ∃ tp, k p = some tp ∧ tp.children = t.children ++ [n] := by
    by_cases hpn : p = n
    · exact ⟨_, heq hpn, rfl⟩
    · exact ⟨_, (hne hpn).1, rfl⟩
  have hkn : ∃ tn, k n = some tn ∧ tn.parent = some p := by
    by_cases hpn : p = n
    · subst hpn
      exact ⟨_, heq rfl, rfl⟩
    · exact ⟨_, (hne hpn).2, rfl⟩
  obtain ⟨tp, htp, hch⟩ := hkp
  obtain ⟨tn, htn, hpar⟩ := hkn
  refine ⟨k, hk, ?_, ?_, ?_, ?_, ?_⟩
  · simp [getChildren, htp, hch]
  · simp [childCount, htp, hch]
  · simp only [getChild, htp, hch, Option.some_bind]
    exact at?_append_length _ _
  · intro i h0 hi
    simp only [getChild, htp, hp, hch, Option.some_bind]
    exact at?_append_left n h0 hi
  · simp [getParent, htn, hpar]

theorem addChild_appends_witness :
    ∃ k, addChild (construct sampleHeap 4 NodeClass.treeNode) 0 4 = .ok k ∧
      getChildren k 0 = some ([1, 2] ++ [4]) ∧
      childCount k 0 = some (2 + 1) ∧
      getChild k 0 (((2 + 1 : Nat) : Int) - 1) = some 4 ∧
      (∀ i : Int, 0 ≤ i → i < (2 : Nat) →
        getChild k 0 i = getChild (construct sampleHeap 4 NodeClass.treeNode) 0 i ∧
          (getChild (construct sampleHeap 4 NodeClass.treeNode) 0 i).isSome) ∧
      getParent k 4 = some (some 0) :=
  addChild_appends (construct sampleHeap 4 NodeClass.treeNode) 0 4
    { parent := none, children := [1, 2], cls := NodeClass.treeNode }
    { parent := none, children := [], cls := NodeClass.treeNode } rfl rfl

theorem at?_eraseIdx_lt {l : List Ptr} {r i : Int} (h0 : 0 ≤ i) (hi : i < r) :
    at? (l.eraseIdx r.toNat) i = at? l i := by
  unfold at?
  rw [if_pos h0, if_pos h0]
  exact List.getElem?_eraseIdx_of_lt _ _ _ (by omega)

theorem at?_eraseIdx_ge {l : List Ptr} {r i : Int} (h0 : 0 ≤ r) (hi : r ≤ i) :
    at? (l.eraseIdx r.toNat) i = at? l (i + 1) := by
  unfold at?
  rw [if_pos (le_trans h0 hi), if_pos (by omega)]
  rw [List.getElem?_eraseIdx_of_ge _ _ _ (by omega)]
  congr 1
  omega

theorem at?_of_lt {l : List Ptr} {r : Int} (h0 : 0 ≤ r) (hr : r < l.length) :
    ∃ c, at? l r = some c := by
  have hlt : r.toNat < l.length := by omega
  refine ⟨l[r.toNat], ?_⟩
  unfold at?
  rw [if_pos h0, List.getElem?_eq_getElem hlt]

/-- C2, as stated, fails: after `root->addChild(root)` the root has the single child at
row `0`, itself, and `removeChild(0)` does not return: the destructor of the child deletes
the child again, and every bound on the nesting of destructor calls is exceeded. -/
theorem removeChild_counterexample :
    Reachable 0 loopHeap ∧ getChildren loopHeap 0 = some [0] ∧ childCount loopHeap 0 = some 1 ∧
      ∀ fuel, removeChild fuel loopHeap 0 0 = .error (Fault.outOfFuel, loopHeap) :=
  ⟨loopHeap_reachable, rfl, rfl, loopHeap_removeChild⟩

/-- C2, amended: for a node `p` with `k` pairwise distinct children and a row `0 <= r < k`
holding the child `c`, `p.removeChild(r)` returns if and only if the objects reachable
from `c` through child sequences form a tree of live objects; it then returns for every
sufficient bound on the nesting of destructor calls and leaves `p` with `k - 1` children:
`c` is no longer a child, the former children at rows below `r` keep their rows, and those
above `r` move down by one row each. -/
theorem removeChild_compacts (h : Heap) (p : Ptr) (t : TreeNode)
    (hp : h p = some t) (hnd : t.children.Nodup) (r : Int) (h0 : 0 ≤ r)
    (hr : r < t.children.length) (c : Ptr) (hc : getChild h p r = some c) :
    (TreeAt h c → ∃ N, ∀ fuel, N ≤ fuel → ∃ k, removeChild fuel h p r = .ok k) ∧
    (∀ fuel k, removeChild fuel h p r = .ok k → TreeAt h c ∧
      childCount k p = some (t.children.length - 1) ∧
      hasChild k p c = some false ∧
      (∀ i : Int, 0 ≤ i → i < r → getChild k p i = getChild h p i ∧ (getChild h p i).isSome) ∧
      (∀ i : Int, r ≤ i → i + 1 < t.children.length →
        getChild k p i = getChild h p (i + 1) ∧ (getChild h p (i + 1)).isSome)) := by
  have hat : at? t.children r = some c := by
    simpa only [getChild, hp, Option.some_bind] using hc
  constructor
  · intro tc
    exact removeChild_completes hp hat tc
  · intro fuel k hk
    obtain ⟨t2, c2, hp2, hc2, hkp⟩ := removeChild_result hk
    rw [hp] at hp2
    cases hp2
    rw [hat] at hc2
    cases hc2
    obtain ⟨_, hlt, hget⟩ := at?_some hat
    refine ⟨removeChild_tree hp hat hk, ?_, ?_, ?_, ?_⟩
    · simp only [childCount, hkp, Option.map_some', List.length_eraseIdx, if_pos hlt]
    · simp only [hasChild, hkp, Option.map_some', Option.some.injEq, List.contains_eq_any_beq,
        List.any_eq_false, beq_iff_eq]
      intro x hx hxc
      subst hxc
      rw [← hget] at hx
      exact getElem_not_mem_eraseIdx hnd hlt hx
    · intro i hi0 hir
      simp only [getChild, hkp, hp, Option.some_bind]
      refine ⟨at?_eraseIdx_lt hi0 hir, ?_⟩
      obtain ⟨x, hx⟩ := at?_of_lt hi0 (lt_trans hir hr)
      rw [hx]
      rfl
    · intro i hri hi
      simp only [getChild, hkp, hp, Option.some_bind]
      refine ⟨at?_eraseIdx_ge h0 hri, ?_⟩
      obtain ⟨x, hx⟩ := at?_of_lt (by omega : (0 : Int) ≤ i + 1) hi
      rw [hx]
      rfl

theorem removeChild_compacts_witness :
    ¬ Forest sharedHeap ∧ TreeAt sharedHeap 1 ∧
    (∃ N, ∀ fuel, N ≤ fuel → ∃ k, removeChild fuel sharedHeap 0 0 = .ok k) ∧
    (∀ fuel k, removeChild fuel sharedHeap 0 0 = .ok k → TreeAt sharedHeap 1 ∧
      childCount k 0 = some (2 - 1) ∧
      hasChild k 0 1 = some false ∧
      (∀ i : Int, 0 ≤ i → i < 0 →
        getChild k 0 i = getChild sharedHeap 0 i ∧ (getChild sharedHeap 0 i).isSome) ∧
      (∀ i : Int, 0 ≤ i → i + 1 < (2 : Nat) →
        getChild k 0 i = getChild sharedHeap 0 (i + 1) ∧
          (getChild sharedHeap 0 (i + 1)).isSome)) :=
  ⟨sharedHeap_not_forest, sharedHeap_tree1,
    (removeChild_compacts sharedHeap 0
      { parent := none, children := [1, 2], cls := NodeClass.treeNode } rfl (by decide) 0
      (by decide) (by decide) 1 rfl).1 sharedHeap_tree1,
    (removeChild_compacts sharedHeap 0
      { parent := none, children := [1, 2], cls := NodeClass.treeNode } rfl (by decide) 0
      (by decide) (by decide) 1 rfl).2⟩

theorem row_of_parent {h : Heap} {n p : Ptr} {nd t : TreeNode} (hn : h n = some nd)
    (hpar : nd.parent = some p) (hp : h p = some t) :
    row h n = some (indexOf t.children n) := by
  simp [row, hn, hpar, hp]

/-- C3, as stated, fails: after `root->addChild(root)` the root has a non-null parent,
itself, and appears in the child sequence of that parent, and `removeSelf` on it does not
return: every bound on the nesting of destructor calls is exceeded. -/
theorem removeSelf_counterexample :
    Reachable 0 loopHeap ∧ getParent loopHeap 0 = some (some 0) ∧
      hasChild loopHeap 0 0 = some true ∧
      ∀ fuel, removeSelf fuel loopHeap 0 = .error (Fault.outOfFuel, loopHeap) := by
  refine ⟨loopHeap_reachable, rfl, rfl, ?_⟩
  intro fuel
  have hcell : loopHeap 0 =
      some { parent := some 0, children := [0], cls := NodeClass.treeNode } := rfl
  rw [removeSelf_eq hcell rfl hcell fuel]
  exact loopHeap_removeChild fuel

/-- C3, amended: `removeSelf` on a node without parent stops at the assertion with the
heap untouched; on a node `n` listed by its parent `p` it is the call
`p.removeChild(n.row())`, where row `n.row()` of `p` holds `n`; it returns if and only if
the objects reachable from `n` through child sequences form a tree of live objects, and
then `p` has lost the one child `n` (which is no longer a child when `p` listed it once)
and the other children of `p` keep their order. -/
theorem removeSelf_delegates (h : Heap) (n : Ptr) (nd : TreeNode) (hn : h n = some nd) :
    (nd.parent = none → ∀ fuel, removeSelf fuel h n = .error (Fault.assertion, h)) ∧
    (∀ p t, nd.parent = some p → h p = some t → n ∈ t.children →
      ∃ r, row h n = some r ∧ getChild h p r = some n ∧
        (∀ fuel, removeSelf fuel h n = removeChild fuel h p r) ∧
        (TreeAt h n → ∃ N, ∀ fuel, N ≤ fuel → ∃ k, removeSelf fuel h n = .ok k) ∧
        (∀ fuel k, removeSelf fuel h n = .ok k → TreeAt h n ∧
          getChildren k p = some (t.children.erase n) ∧
          childCount k p = some (t.children.length - 1) ∧
          (t.children.count n = 1 → hasChild k p n = some false))) := by
  constructor
  · intro hpar fuel
    simp [removeSelf, hn, hpar]
  · intro p t hpar hp hmem
    have hrow := row_of_parent hn hpar hp
    have hself : ∀ fuel, removeSelf fuel h n = removeChild fuel h p (indexOf t.children n) :=
      removeSelf_eq hn hpar hp
    obtain ⟨hidx, hat⟩ := indexOf_of_mem hmem
    have herase : t.children.eraseIdx (indexOf t.children n).toNat = t.children.erase n := by
      rw [hidx, Int.toNat_ofNat]
      exact List.eraseIdx_indexOf_eq_erase n t.children
    refine ⟨_, hrow, ?_, hself, ?_, ?_⟩
    · simp only [getChild, hp, Option.some_bind]
      exact hat
    · intro tn
      obtain ⟨N, hN⟩ := removeChild_completes hp hat tn
      refine ⟨N, ?_⟩
      intro fuel hfuel
      obtain ⟨k, hk⟩ := hN fuel hfuel
      exact ⟨k, by rw [hself]; exact hk⟩
    · intro fuel k hk
      rw [hself] at hk
      obtain ⟨t2, c, hp2, _, hkp⟩ := removeChild_result hk
      rw [hp] at hp2
      cases hp2
      rw [herase] at hkp
      refine ⟨removeChild_tree hp hat hk, ?_, ?_, ?_⟩
      · simp [getChildren, hkp]
      · simp only [childCount, hkp, Option.map_some', List.length_erase_of_mem hmem]
      · intro hcount
        simp only [hasChild, hkp, Option.map_some', Option.some.injEq,
          List.contains_eq_any_beq, List.any_eq_false, beq_iff_eq]
        intro x hx hxn
        subst hxn
        have h1 : (t.children.erase n).count n = 0 := by
          rw [List.count_erase_self, hcount]
        exact List.count_eq_zero.1 h1 hx

theorem removeSelf_delegates_witness :
    (∀ fuel, removeSelf fuel sharedHeap 0 = .error (Fault.assertion, sharedHeap)) ∧
    ¬ Forest sharedHeap ∧ TreeAt sharedHeap 3 ∧
    ∃ r, row sharedHeap 3 = some r ∧ getChild sharedHeap 2 r = some 3 ∧
      (∀ fuel, removeSelf fuel sharedHeap 3 = removeChild fuel sharedHeap 2 r) ∧
      (∃ N, ∀ fuel, N ≤ fuel → ∃ k, removeSelf fuel sharedHeap 3 = .ok k) ∧
      (∀ fuel k, removeSelf fuel sharedHeap 3 = .ok k → TreeAt sharedHeap 3 ∧
        getChildren k 2 = some ([3].erase 3) ∧ childCount k 2 = some (1 - 1) ∧
        hasChild k 2 3 = some false) :=
  ⟨(removeSelf_delegates sharedHeap 0
      { parent := none, children := [1, 2], cls := NodeClass.treeNode } rfl).1 rfl,
    sharedHeap_not_forest, sharedHeap_tree3,
    match (removeSelf_delegates sharedHeap 3
      { parent := some 2, children := [], cls := NodeClass.treeNode } rfl).2 2
      { parent := some 0, children := [3], cls := NodeClass.treeNode } rfl rfl (by decide) with
    | ⟨r, hrow, hget, hcall, hdone, hres⟩ =>
      ⟨r, hrow, hget, hcall, hdone sharedHeap_tree3, fun fuel k hk =>
        ⟨(hres fuel k hk).1, (hres fuel k hk).2.1, (hres fuel k hk).2.2.1,
          (hres fuel k hk).2.2.2 (by decide)⟩⟩⟩

theorem index_unique {x : Ptr} : ∀ (l : List Ptr) (a : Nat), l.count x = 1 → l[a]? = some x →
    a = List.indexOf x l := by
  intro l
  induction l with
  | nil =>
    intro a hc
    simp at hc
  | cons y l ih =>
    intro a hc ha
    by_cases hyx : y = x
    · subst hyx
      rw [List.indexOf_cons_self]
      rw [List.count_cons_self] at hc
      have h0 : l.count y = 0 := by omega
      cases a with
      | zero => rfl
      | succ a =>
        rw [List.getElem?_cons_succ] at ha
        have hm : y ∈ l := List.mem_iff_getElem?.2 ⟨a, ha⟩
        exact absurd hm (List.count_eq_zero.1 h0)
    · rw [List.indexOf_cons_ne _ hyx]
      rw [List.count_cons_of_ne (fun e => hyx e.symm)] at hc
      cases a with
      | zero =>
        rw [List.getElem?_cons_zero] at ha
        exact absurd (Option.some.inj ha) hyx
      | succ a =>
        rw [List.getElem?_cons_succ] at ha
        rw [ih a hc ha]

theorem at?_index {l : List Ptr} {x : Ptr} {j : Int} (hc : l.count x = 1)
    (hj : at? l j = some x) : j = indexOf l x := by
  have hm : x ∈ l := at?_mem hj
  obtain ⟨hidx, _⟩ := indexOf_of_mem hm
  unfold at? at hj
  split_ifs at hj with h0
  have := index_unique l j.toNat hc hj
  rw [hidx, ← this]
  omega

/-- C4: `row()` is `0` for a node without parent; for a node `n` occurring once in the
child sequence of its parent `p` it is the position `i` of `n` there, so that
`n.getParent().getChild(n.row())` is `n`; and for every valid row `r` of a parent with
pairwise distinct children, `getChild(r).row()` is `r`. -/
theorem row_is_index (h : Heap) (n : Ptr) (nd : TreeNode) (hn : h n = some nd) :
    (nd.parent = none → row h n = some 0) ∧
    (∀ p t, nd.parent = some p → h p = some t → t.children.count n = 1 →
      ∃ i, row h n = some i ∧ getChild h p i = some n ∧
        ∀ j, getChild h p j = some n → j = i) ∧
    (nd.children.Nodup → ∀ r c, getChild h n r = some c → getParent h c = some (some n) →
      row h c = some r) := by
  refine ⟨?_, ?_, ?_⟩
  · intro hpar
    simp [row, hn, hpar]
  · intro p t hpar hp hc
    have hm : n ∈ t.children := List.count_pos_iff.1 (by omega)
    refine ⟨indexOf t.children n, row_of_parent hn hpar hp, ?_, ?_⟩
    · simp only [getChild, hp, Option.some_bind]
      exact (indexOf_of_mem hm).2
    · intro j hj
      simp only [getChild, hp, Option.some_bind] at hj
      exact at?_index hc hj
  · intro hnd r c hr hpar
    simp only [getChild, hn, Option.some_bind] at hr
    have hm : c ∈ nd.children := at?_mem hr
    cases hc : h c with
    | none => simp [getParent, hc] at hpar
    | some cn =>
      have hpar2 : cn.parent = some n := by
        simpa [getParent, hc] using hpar
      rw [row_of_parent hc hpar2 hn]
      rw [at?_index (List.count_eq_one_of_mem hnd hm) hr]

theorem row_is_index_witness :
    row sampleHeap 0 = some 0 ∧
    (∃ i, row sampleHeap 2 = some i ∧ getChild sampleHeap 0 i = some 2 ∧
        ∀ j, getChild sampleHeap 0 j = some 2 → j = i) ∧
    row sampleHeap 2 = some 1 :=
  ⟨(row_is_index sampleHeap 0
      { parent := none, children := [1, 2], cls := NodeClass.treeNode } rfl).1 rfl,
    (row_is_index sampleHeap 2
      { parent := some 0, children := [], cls := NodeClass.treeNode } rfl).2.1 0
      { parent := none, children := [1, 2], cls := NodeClass.treeNode } rfl rfl (by decide),
    (row_is_index sampleHeap 0
      { parent := none, children := [1, 2], cls := NodeClass.treeNode } rfl).2.2 (by decide) 1 2
      (by decide) (by decide)⟩

theorem attached_construct {h : Heap} (hJ : Attached h) {p : Ptr} (hp : h p = none)
    (c : NodeClass) : Attached (construct h p c) := by
  intro n nd q hn hpar
  by_cases hnp : n = p
  · rw [hnp, construct_at] at hn
    cases hn
    cases hpar
  · rw [construct_other _ _ _ hnp] at hn
    obtain ⟨tq, hq, hm⟩ := hJ n nd q hn hpar
    have hqp : q ≠ p := by
      intro heq
      rw [heq, hp] at hq
      cases hq
    exact ⟨tq, by rw [construct_other _ _ _ hqp]; exact hq, hm⟩

theorem attached_addChild {h k : Heap} {p n : Ptr} (hJ : Attached h)
    (hk : addChild h p n = .ok k) : Attached k := by
  obtain ⟨t, nd, hp, hn⟩ := addChild_live hk
  obtain ⟨k2, hk2, hne, heq, hrest⟩ := addChild_spec hp hn
  rw [hk] at hk2
  cases hk2
  have grown : ∀ y ty x, h y = some ty → x ∈ ty.children → IsChild k y x := by
    intro y ty x hy hx
    by_cases hyp : y = p
    · rw [hyp] at hy ⊢
      rw [hp] at hy
      cases hy
      by_cases hpn : p = n
      · exact ⟨_, heq hpn, List.mem_append_left _ hx⟩
      · exact ⟨_, (hne hpn).1, List.mem_append_left _ hx⟩
    · by_cases hyn : y = n
      · rw [hyn] at hy ⊢
        rw [hn] at hy
        cases hy
        have hpn : p ≠ n := fun e => hyp (hyn.trans e.symm)
        exact ⟨_, (hne hpn).2, hx⟩
      · exact ⟨ty, by rw [hrest y hyp hyn]; exact hy, hx⟩
  have listed : IsChild k p n := by
    by_cases hpn : p = n
    · exact ⟨_, heq hpn, List.mem_append_right _ (List.mem_singleton_self _)⟩
    · exact ⟨_, (hne hpn).1, List.mem_append_right _ (List.mem_singleton_self _)⟩
  intro x xd y hx hpar
  by_cases hxn : x = n
  · rw [hxn] at hx ⊢
    by_cases hpn : p = n
    · rw [← hpn, heq hpn] at hx
      cases hx
      cases hpar
      rw [← hpn]
      rw [← hpn] at listed
      exact listed
    · rw [(hne hpn).2] at hx
      cases hx
      cases hpar
      exact listed
  · by_cases hxp : x = p
    · rw [hxp] at hx ⊢
      rw [(hne (fun e => hxn (hxp.trans e))).1] at hx
      cases hx
      obtain ⟨ty, hy, hm⟩ := hJ p t y hp hpar
      exact grown y ty p hy hm
    · rw [hrest x hxp hxn] at hx
      obtain ⟨ty, hy, hm⟩ := hJ x xd y hx hpar
      exact grown y ty x hy hm

theorem attached_removeChild {f : Nat} {h k : Heap} {q : Ptr} {r : Int} (hJ : Attached h)
    (hk : removeChild f h q r = .ok k) : Attached k := by
  obtain ⟨t, c, k1, hq, hr, hdel, hk1q, hkq, hrest⟩ := removeChild_parts hk
  have r1 := deleteNode_releases f h c k1 hdel
  obtain ⟨_, hlt, hget⟩ := at?_some hr
  have alive : ∀ x tx, k1 x = some tx → h x = some tx := by
    intro x tx hx
    rcases r1.frame x with h0 | h0
    · rw [hx] at h0
      cases h0
    · rw [← h0]
      exact hx
  have keep : ∀ n p tp, k1 n ≠ none → h p = some tp → n ∈ tp.children → IsChild k p n := by
    intro n p tp hn hp hm
    have hk1p : k1 p = some tp := by
      rcases r1.frame p with h0 | h0
      · exact absurd (r1.closed p n ⟨tp, hp, hm⟩ h0) hn
      · rw [h0]
        exact hp
    by_cases hpq : p = q
    · rw [hpq] at hp ⊢
      rw [hq] at hp
      cases hp
      refine ⟨_, hkq, mem_eraseIdx_of_ne hlt hm ?_⟩
      rw [hget]
      intro hnc
      rw [hnc] at hn
      exact hn r1.gone
    · exact ⟨tp, by rw [hrest p hpq]; exact hk1p, hm⟩
  intro n nd p hn hpar
  by_cases hnq : n = q
  · rw [hnq] at hn ⊢
    rw [hkq] at hn
    cases hn
    obtain ⟨tp, hp, hm⟩ := hJ q t p hq hpar
    exact keep q p tp (by rw [hk1q]; exact Option.some_ne_none _) hp hm
  · rw [hrest n hnq] at hn
    obtain ⟨tp, hp, hm⟩ := hJ n nd p (alive n nd hn) hpar
    exact keep n p tp (by rw [hn]; exact Option.some_ne_none _) hp hm

theorem attached_removeChildren {f : Nat} {h k : Heap} {a : Ptr} (hJ : Attached h)
    (hk : removeChildren f h a = .ok k) : Attached k := by
  obtain ⟨t, k1, ha, hfold, ⟨t1, hk1a⟩, hrest⟩ := removeChildrenWith_parts hk
  obtain ⟨t2, ha2, hka⟩ := removeChildren_result hk
  rw [ha] at ha2
  cases ha2
  obtain ⟨hf1, hgone, hcl, _⟩ := foldlM_releases (deleteNode_releases f) _ _ _ hfold
  have alive : ∀ x tx, k1 x = some tx → h x = some tx := by
    intro x tx hx
    rcases hf1 x with h0 | h0
    · rw [hx] at h0
      cases h0
    · rw [← h0]
      exact hx
  have keep : ∀ n p tp, k1 n ≠ none → h p = some tp → n ∈ tp.children → IsChild k p n := by
    intro n p tp hn hp hm
    have hpa : p ≠ a := by
      intro heq
      rw [heq, ha] at hp
      cases hp
      exact hn (hgone n hm)
    have hk1p : k1 p = some tp := by
      rcases hf1 p with h0 | h0
      · exact absurd (hcl p n ⟨tp, hp, hm⟩ h0) hn
      · rw [h0]
        exact hp
    exact ⟨tp, by rw [hrest p hpa]; exact hk1p, hm⟩
  intro n nd p hn hpar
  by_cases hna : n = a
  · rw [hna] at hn ⊢
    rw [hka] at hn
    cases hn
    obtain ⟨tp, hp, hm⟩ := hJ a t p ha hpar
    exact keep a p tp (by rw [hk1a]; exact Option.some_ne_none _) hp hm
  · rw [hrest n hna] at hn
    obtain ⟨tp, hp, hm⟩ := hJ n nd p (alive n nd hn) hpar
    exact keep n p tp (by rw [hn]; exact Option.some_ne_none _) hp hm

theorem reachable_attached {r : Ptr} {h : Heap} (hr : Reachable r h) : Attached h := by
  induction hr with
  | root =>
    intro n nd p hn hpar
    by_cases hnr : n = r
    · rw [hnr] at hn
      unfold rootHeap at hn
      rw [construct_at] at hn
      cases hn
      cases hpar
    · unfold rootHeap at hn
      rw [construct_other _ _ _ hnr] at hn
      cases hn
  | @step h k op _ hs ih =>
    cases op with
    | create p c =>
      obtain ⟨hp, rfl⟩ := hs
      exact attached_construct ih hp c
    | addChild this node => exact attached_addChild ih hs
    | removeChild this r =>
      obtain ⟨f, hf⟩ := hs
      exact attached_removeChild ih hf
    | removeChildren this =>
      obtain ⟨f, hf⟩ := hs
      exact attached_removeChildren ih hf
    | removeSelf this =>
      obtain ⟨f, hf⟩ := hs
      obtain ⟨p, r, hpr⟩ := removeSelf_unfold hf
      exact attached_removeChild ih hpr

theorem removeChildren_keeps {f : Nat} {h k : Heap} {a p : Ptr}
    (hk : removeChildren f h a = .ok k) (hpa : IsChild h p a) : p ≠ a ∧ k p = h p := by
  have ta := removeChildren_tree hk
  have hne : p ≠ a := by
    intro heq
    rw [heq] at hpa
    exact treeAt_no_back ta a hpa Relation.ReflTransGen.refl
  obtain ⟨t, k1, ha, hfold, _, hsame⟩ := removeChildrenWith_parts hk
  obtain ⟨hf1, _, _, hor1⟩ := foldlM_releases (deleteNode_releases f) _ _ _ hfold
  refine ⟨hne, ?_⟩
  rw [hsame p hne]
  rcases hf1 p with h0 | h0
  · exfalso
    rcases hor1 p h0 with h1 | ⟨d, hd, hdp⟩
    · obtain ⟨tp, htp, _⟩ := hpa
      rw [htp] at h1
      cases h1
    · exact treeAt_no_back ta d ⟨t, ha, hd⟩ (Relation.ReflTransGen.tail hdp hpa)
  · exact h0

/-- C7, as stated, fails: after `root->addChild(node)` has been called twice with the same
node, `removeChildren()` on the root does not return normally: with no destructor call
allowed it stops at once, and otherwise the second `delete` of the node meets an object
that is already released. -/
theorem removeChildren_counterexample :
    Reachable 0 dupHeap ∧ getChildren dupHeap 0 = some [1, 1] ∧
      removeChildren 0 dupHeap 0 = .error (Fault.outOfFuel, dupHeap) ∧
      ∀ fuel, ∃ k, removeChildren (fuel + 1) dupHeap 0 = .error (Fault.invalidPointer, k) :=
  ⟨dupHeap_reachable, rfl, rfl, fun _ => ⟨_, rfl⟩⟩

/-- C7, amended: `removeChildren()` on a node returns if and only if the objects reachable
from the node through child sequences form a tree of live objects; it then returns for
every sufficient bound on the nesting of destructor calls, and afterwards the child
sequence of the node is empty: `childCount()` is `0`, `hasChildren()` is false and
`hasChild(n)` is false for every `n`; the parent reference of the node is unchanged, and
so is its row in its parent whenever that parent lists the node, which is the case in
every heap built from a root by construction and the member functions. -/
theorem removeChildren_clears (h : Heap) (a : Ptr) (t : TreeNode) (ha : h a = some t) :
    (TreeAt h a → ∃ N, ∀ fuel, N ≤ fuel → ∃ k, removeChildren fuel h a = .ok k) ∧
    (∀ fuel k, removeChildren fuel h a = .ok k → TreeAt h a ∧
      childCount k a = some 0 ∧ hasChildren k a = some false ∧
      (∀ n, hasChild k a n = some false) ∧ getParent k a = getParent h a ∧
      ((∀ p, t.parent = some p → IsChild h p a) → row k a = row h a) ∧
      (∀ r, Reachable r h → row k a = row h a)) := by
  constructor
  · exact removeChildren_completes
  · intro fuel k hk
    obtain ⟨t2, ha2, hka⟩ := removeChildren_result hk
    rw [ha] at ha2
    cases ha2
    have hrow : (∀ p, t.parent = some p → IsChild h p a) → row k a = row h a := by
      intro hlist
      cases hpar : t.parent with
      | none => simp [row, hka, ha, hpar]
      | some p =>
        obtain ⟨_, hkp⟩ := removeChildren_keeps hk (hlist p hpar)
        simp [row, hka, ha, hpar, hkp]
    refine ⟨removeChildren_tree hk, ?_, ?_, ?_, ?_, hrow, ?_⟩
    · simp [childCount, hka]
    · simp [hasChildren, hka]
    · intro n
      simp [hasChild, hka]
    · simp [getParent, hka, ha]
    · intro r hr
      exact hrow (fun p hpar => reachable_attached hr a t p ha hpar)

theorem removeChildren_clears_witness :
    ¬ Forest sharedHeap ∧ TreeAt sharedHeap 1 ∧
    (∃ N, ∀ fuel, N ≤ fuel → ∃ k, removeChildren fuel sharedHeap 1 = .ok k) ∧
    (∀ fuel k, removeChildren fuel sharedHeap 1 = .ok k → TreeAt sharedHeap 1 ∧
      childCount k 1 = some 0 ∧ hasChildren k 1 = some false ∧
      (∀ n, hasChild k 1 n = some false) ∧ getParent k 1 = getParent sharedHeap 1 ∧
      row k 1 = row sharedHeap 1) :=
  ⟨sharedHeap_not_forest, sharedHeap_tree1,
    (removeChildren_clears sharedHeap 1
      { parent := some 0, children := [3], cls := NodeClass.treeNode } rfl).1 sharedHeap_tree1,
    fun fuel k hk =>
      have hres := (removeChildren_clears sharedHeap 1
        { parent := some 0, children := [3], cls := NodeClass.treeNode } rfl).2 fuel k hk
      ⟨hres.1, hres.2.1, hres.2.2.1, hres.2.2.2.1, hres.2.2.2.2.1,
        hres.2.2.2.2.2.1 (fun p hp =>
          ⟨{ parent := none, children := [1, 2], cls := NodeClass.treeNode },
            by cases hp; rfl, by decide⟩)⟩⟩

/-! ## Claims on call sequences -/

theorem pairHeap_reachableD : ReachableD 0 pairHeap := by
  have h1 : ReachableD 0 (construct (rootHeap 0) 1 NodeClass.treeNode) :=
    ReachableD.step ReachableD.root (show Disciplined _ (Op.create 1 NodeClass.treeNode) from trivial)
      (show Step _ (Op.create 1 NodeClass.treeNode) _ from ⟨rfl, rfl⟩)
  refine ReachableD.step h1 (show Disciplined _ (Op.addChild 0 1) from ?_)
    (show Step _ (Op.addChild 0 1) _ from rfl)
  refine ⟨_, rfl, rfl, ?_⟩
  intro hx
  have := insub_leaf (rfl : construct (rootHeap 0) 1 NodeClass.treeNode 1 = some _) rfl hx
  exact absurd this (by decide)

theorem reachableD_reachable {r : Ptr} {h : Heap} (hr : ReachableD r h) : Reachable r h := by
  induction hr with
  | root => exact Reachable.root
  | step _ _ hs ih => exact Reachable.step ih hs

/-- C5, as stated, fails: after `new`, `root->addChild(node)` and the same `addChild`
again, the node occurs twice in the child sequence of the root. -/
theorem ownership_counterexample :
    Reachable 0 dupHeap ∧ getChildren dupHeap 0 = some [1, 1] ∧ ¬ OwnedOnce dupHeap 0 := by
  refine ⟨Reachable.step (reachableD_reachable pairHeap_reachableD)
    (show Step _ (Op.addChild 0 1) _ from rfl), rfl, ?_⟩
  intro ho
  obtain ⟨p, t, nd, hn, hp, hpar, hcount, _⟩ :=
    ho 1 (by decide) (Relation.ReflTransGen.single ⟨_, rfl, by decide⟩)
  have h1 : dupHeap 1 = some { parent := some 0, children := [], cls := NodeClass.treeNode } :=
    rfl
  rw [h1] at hn
  cases hn
  cases hpar
  have h0 : dupHeap 0 = some { parent := none, children := [1, 1], cls := NodeClass.treeNode } :=
    rfl
  rw [h0] at hp
  cases hp
  exact absurd hcount (by decide)

/-- C5, amended: in every heap reachable from a single root by construction of nodes,
`removeChild`, `removeChildren`, `removeSelf`, and `addChild` calls whose argument has no
parent, every node of the tree other than the root has one parent, its back-reference
designates that parent, and it occurs once in the child sequence of that parent. -/
theorem ownership_preserved (r : Ptr) (h : Heap) (hr : ReachableP r h) : OwnedOnce h r :=
  owned_ownedOnce (reachableP_owned hr) r

theorem ownership_preserved_witness : ReachableP 0 pairHeap ∧ OwnedOnce pairHeap 0 :=
  ⟨reachableD_reachableP pairHeap_reachableD,
    ownership_preserved 0 pairHeap (reachableD_reachableP pairHeap_reachableD)⟩

/-- C6, as stated, fails: `root->addChild(root)` on a single root makes the root its own
parent and its own child. -/
theorem cycle_counterexample :
    Reachable 0 loopHeap ∧ getParent loopHeap 0 = some (some 0) ∧
      hasChild loopHeap 0 0 = some true ∧ ¬ NoCycle loopHeap := by
  refine ⟨Reachable.step Reachable.root (show Step _ (Op.addChild 0 0) _ from rfl), rfl, rfl, ?_⟩
  intro hn
  exact hn.2 0 (Relation.TransGen.single ⟨_, rfl, by decide⟩)

/-- C6, amended: in every heap reachable from a single root by construction of nodes,
`removeChild`, `removeChildren`, `removeSelf`, and `addChild` calls whose argument is
neither the receiver nor a node from which the receiver is reachable through child
sequences, no node is its own ancestor: following `getParent()` from any node reaches a
node without parent in finitely many steps, and no node is reachable from itself through
child sequences. -/
theorem no_cycle_preserved (r : Ptr) (h : Heap) (hr : ReachableA r h) : NoCycle h :=
  rooted_noCycle (reachableA_rooted hr)

theorem no_cycle_preserved_witness : ReachableA 0 pairHeap ∧ NoCycle pairHeap :=
  ⟨reachableD_reachableA pairHeap_reachableD,
    no_cycle_preserved 0 pairHeap (reachableD_reachableA pairHeap_reachableD)⟩

/-! ## Leaf nodes -/

theorem leafIcons_shrinks {h k : Heap} (hl : LeafIcons h) (hs : Shrinks h k) : LeafIcons k := by
  intro p t ty hp hcls
  obtain ⟨t0, ht0, hc, _, hsub⟩ := hs p t hp
  have h0 := (hl p t0 ty ht0 (by rw [← hc]; exact hcls)).1
  simp only [childCount, ht0, Option.map_some', Option.some.injEq] at h0
  have hnil : t0.children = [] := List.length_eq_zero.1 h0
  rw [hnil] at hsub
  have hnil2 : t.children = [] := List.sublist_nil.1 hsub
  simp [childCount, hasChildren, hp, hnil2]

theorem step_leafIcons {h k : Heap} {op : Op} (hl : LeafIcons h) (hsafe : IconSafe h op)
    (hs : Step h op k) : LeafIcons k := by
  cases op with
  | create p c =>
    obtain ⟨hp, rfl⟩ := hs
    intro q t ty hq hcls
    by_cases hqp : q = p
    · subst hqp
      rw [construct_at] at hq
      cases hq
      simp [childCount, hasChildren, construct_at]
    · rw [construct_other h p c hqp] at hq
      have := hl q t ty hq hcls
      simpa [childCount, hasChildren, construct_other h p c hqp] using this
  | addChild this node =>
    obtain ⟨t, nd, hp, hn⟩ := addChild_live hs
    obtain ⟨k2, hk2, hne, heq, hrest⟩ := addChild_spec hp hn
    have hs2 : addChild h this node = .ok k := hs
    rw [hs2] at hk2
    cases hk2
    have hsafe2 : ∀ ty, t.cls ≠ NodeClass.iconNode ty := fun ty => hsafe t ty hp
    intro q tq ty hq hcls
    by_cases hqp : q = this
    · subst hqp
      exfalso
      by_cases hpn : q = node
      · rw [heq hpn] at hq
        cases hq
        exact hsafe2 ty hcls
      · rw [(hne hpn).1] at hq
        cases hq
        exact hsafe2 ty hcls
    · by_cases hqn : q = node
      · subst hqn
        rw [(hne (Ne.symm hqp)).2] at hq
        cases hq
        have := hl q nd ty hn hcls
        simpa [childCount, hasChildren, hn, (hne (Ne.symm hqp)).2] using this
      · have hkq := hrest q hqp hqn
        rw [hkq] at hq
        have := hl q tq ty hq hcls
        simpa [childCount, hasChildren, hkq] using this
  | removeChild this r =>
    obtain ⟨f, hf⟩ := hs
    exact leafIcons_shrinks hl (removeChild_shrinks hf)
  | removeChildren this =>
    obtain ⟨f, hf⟩ := hs
    exact leafIcons_shrinks hl (removeChildren_shrinks hf)
  | removeSelf this =>
    obtain ⟨f, hf⟩ := hs
    obtain ⟨p, r, hpr⟩ := removeSelf_unfold hf
    exact leafIcons_shrinks hl (removeChild_shrinks hpr)

theorem iconHeap_reachableI : ReachableI 0 iconHeap := by
  have h1 : ReachableI 0 (construct (rootHeap 0) 1 (NodeClass.iconNode IconType.TypeIcon)) :=
    ReachableI.step ReachableI.root
      (show IconSafe _ (Op.create 1 (NodeClass.iconNode IconType.TypeIcon)) from trivial)
      (show Step _ (Op.create 1 (NodeClass.iconNode IconType.TypeIcon)) _ from ⟨rfl, rfl⟩)
  refine ReachableI.step h1 (show IconSafe _ (Op.addChild 0 1) from ?_)
    (show Step _ (Op.addChild 0 1) _ from rfl)
  intro t ty ht hc
  have h0 : construct (rootHeap 0) 1 (NodeClass.iconNode IconType.TypeIcon) 0 =
      some { parent := none, children := [], cls := NodeClass.treeNode } := rfl
  rw [h0] at ht
  cases ht
  cases hc

theorem reachableI_reachable {r : Ptr} {h : Heap} (hr : ReachableI r h) : Reachable r h := by
  induction hr with
  | root => exact Reachable.root
  | step _ _ hs ih => exact Reachable.step ih hs

/-- C8, as stated, fails: `TreeNode::addChild`, reached through the base class of an
`IconNode` that is a child of the root, appends a new node to it. -/
theorem leaf_counterexample :
    Reachable 0 iconParentHeap ∧
      (iconParentHeap 1).map (fun t => t.cls) = some (NodeClass.iconNode IconType.TypeIcon) ∧
      childCount iconParentHeap 1 = some 1 ∧ hasChildren iconParentHeap 1 = some true ∧
      ¬ LeafIcons iconParentHeap := by
  refine ⟨Reachable.step (Reachable.step (reachableI_reachable iconHeap_reachableI)
      (show Step _ (Op.create 2 NodeClass.treeNode) _ from ⟨rfl, rfl⟩))
    (show Step _ (Op.addChild 1 2) _ from rfl), rfl, rfl, rfl, ?_⟩
  intro hl
  have h1 := (hl 1 _ IconType.TypeIcon (rfl : iconParentHeap 1 = some
    { parent := some 0, children := [2], cls := NodeClass.iconNode IconType.TypeIcon }) rfl).1
  exact absurd h1 (by decide)

/-- C8, amended: in every heap reachable from a single root by construction of nodes,
`removeChild`, `removeChildren`, `removeSelf`, and `addChild` calls whose receiver is not
an `IconNode` (the calls left once `IconNode::addChild` is deleted), every `IconNode` has
`childCount()` equal to `0` and `hasChildren()` false. -/
theorem leaf_preserved (r : Ptr) (h : Heap) (hr : ReachableI r h) : LeafIcons h := by
  induction hr with
  | root =>
    intro p t ty hp hcls
    by_cases hpr : p = r
    · subst hpr
      simp [rootHeap, construct_at] at hp
      subst hp
      cases hcls
    · rw [rootHeap, construct_other _ _ _ hpr] at hp
      cases hp
  | step _ hsafe hs ih => exact step_leafIcons ih hsafe hs

theorem leaf_preserved_witness : ReachableI 0 iconHeap ∧ LeafIcons iconHeap :=
  ⟨iconHeap_reachableI, leaf_preserved 0 iconHeap iconHeap_reachableI⟩

end TreeNodes

namespace IconItems

open TreeNodes

/-! ## Heap changes of the model -/

theorem grow_heapOK {h k : Heap} {r ap ac g f : Ptr} {tg : TreeNode} {cs : List Ptr}
    {c : NodeClass} (ok : HeapOK h r ap ac) (fo : Forest k) (hg : h g = some tg)
    (hnic : ∀ ty, tg.cls ≠ NodeClass.iconNode ty) (hgr : g ≠ r) (hf : h f = none)
    (hkg : k g = some { tg with children := cs })
    (hkf : k f = some { parent := some g, children := [], cls := c })
    (hrest : ∀ q, q ≠ g → q ≠ f → k q = h q) :
    HeapOK k r ap ac ∧ ∀ q t, h q = some t → ∃ t2, k q = some t2 ∧ t2.cls = t.cls := by
  have stable : ∀ q t, h q = some t → ∃ t2, k q = some t2 ∧ t2.cls = t.cls := by
    intro q t hq
    by_cases hqg : q = g
    · subst hqg
      rw [hg] at hq
      cases hq
      exact ⟨_, hkg, rfl⟩
    · have hqf : q ≠ f := by
        rintro rfl
        rw [hf] at hq
        cases hq
      exact ⟨t, by rw [hrest q hqg hqf]; exact hq, rfl⟩
  refine ⟨⟨fo, ?_, ?_, ?_, ?_⟩, stable⟩
  · have hrf : r ≠ f := by
      rintro rfl
      have := ok.rootCell
      rw [hf] at this
      cases this
    rw [hrest r (Ne.symm hgr) hrf]
    exact ok.rootCell
  · obtain ⟨t, ht, hc⟩ := ok.appCell
    obtain ⟨t2, ht2, hc2⟩ := stable ap t ht
    exact ⟨t2, ht2, by rw [hc2, hc]⟩
  · obtain ⟨t, ht, hc⟩ := ok.actCell
    obtain ⟨t2, ht2, hc2⟩ := stable ac t ht
    exact ⟨t2, ht2, by rw [hc2, hc]⟩
  · intro q t ty hq hcls
    by_cases hqg : q = g
    · subst hqg
      rw [hkg] at hq
      cases hq
      exact absurd hcls (hnic ty)
    · by_cases hqf : q = f
      · subst hqf
        rw [hkf] at hq
        cases hq
        rfl
      · rw [hrest q hqg hqf] at hq
        exact ok.leaves q t ty hq hcls

theorem shrink_heapOK {h k : Heap} {r ap ac x g : Ptr} {tx tg : TreeNode}
    (ok : HeapOK h r ap ac) (fo : Forest k) (hx : h x = some tx)
    (hxc : tx.cls ≠ NodeClass.treeNode) (hg : h g = some tg) (hmem : x ∈ tg.children)
    (hkg : k g = some { tg with children := tg.children.erase x }) (hkx : k x = none)
    (hrest : ∀ q, q ≠ g → q ≠ x → k q = h q) :
    HeapOK k r ap ac ∧ ∀ q t, h q = some t → q ≠ x → ∃ t2, k q = some t2 ∧ t2.cls = t.cls := by
  have stable : ∀ q t, h q = some t → q ≠ x → ∃ t2, k q = some t2 ∧ t2.cls = t.cls := by
    intro q t hq hqx
    by_cases hqg : q = g
    · subst hqg
      rw [hg] at hq
      cases hq
      exact ⟨_, hkg, rfl⟩
    · exact ⟨t, by rw [hrest q hqg hqx]; exact hq, rfl⟩
  have hne : ∀ q t, h q = some t → t.cls = NodeClass.treeNode → q ≠ x := by
    rintro q t hq hc rfl
    rw [hx] at hq
    cases hq
    exact hxc hc
  obtain ⟨ta, hta, hca⟩ := ok.appCell
  obtain ⟨tc, htc, hcc⟩ := ok.actCell
  refine ⟨⟨fo, ?_, ?_, ?_, ?_⟩, stable⟩
  · have hrx : r ≠ x := hne r _ ok.rootCell rfl
    have hrg : r ≠ g := by
      rintro rfl
      rw [ok.rootCell] at hg
      cases hg
      simp only [List.mem_cons, List.mem_singleton, List.not_mem_nil, or_false] at hmem
      rcases hmem with rfl | rfl
      · exact hne x ta hta hca rfl
      · exact hne x tc htc hcc rfl
    rw [hrest r hrg hrx]
    exact ok.rootCell
  · obtain ⟨t2, ht2, hc2⟩ := stable ap ta hta (hne ap ta hta hca)
    exact ⟨t2, ht2, by rw [hc2, hca]⟩
  · obtain ⟨t2, ht2, hc2⟩ := stable ac tc htc (hne ac tc htc hcc)
    exact ⟨t2, ht2, by rw [hc2, hcc]⟩
  · intro q t ty hq hcls
    by_cases hqg : q = g
    · subst hqg
      rw [hkg] at hq
      cases hq
      have := ok.leaves q tg ty hg hcls
      show tg.children.erase x = []
      rw [this]
      rfl
    · have hqx : q ≠ x := by
        rintro rfl
        rw [hkx] at hq
        cases hq
      rw [hrest q hqg hqx] at hq
      exact ok.leaves q t ty hq hcls

theorem clear_heapOK {f : Nat} {h k : Heap} {r ap ac a : Ptr} (ok : HeapOK h r ap ac)
    (ha : a = ap ∨ a = ac) (hk : removeChildren f h a = .ok k) : HeapOK k r ap ac := by
  have fo := ok.forest
  obtain ⟨t, hta, hka, hrest⟩ := removeChildren_exact fo hk
  have hchild : ∀ x, x = ap ∨ x = ac → IsChild h r x := by
    intro x hx
    refine ⟨_, ok.rootCell, ?_⟩
    rcases hx with rfl | rfl <;> simp
  have hnr : ¬ InSub h a r := forest_not_insub_parent fo (hchild a ha)
  have hra : r ≠ a := by
    rintro rfl
    exact hnr Relation.ReflTransGen.refl
  have stable : ∀ x, x = ap ∨ x = ac → ∀ tx, h x = some tx →
      ∃ t2, k x = some t2 ∧ t2.cls = tx.cls := by
    intro x hx tx htx
    by_cases hxa : x = a
    · subst hxa
      rw [hta] at htx
      cases htx
      exact ⟨_, hka, rfl⟩
    · have hnx : ¬ InSub h a x := by
        intro hin
        rcases insub_escape fo (hchild x hx) hin with heq | hr
        · exact hxa heq
        · exact hnr hr
      exact ⟨tx, by rw [(hrest x hxa).2 hnx]; exact htx, rfl⟩
  refine ⟨removeChildren_step_forest fo hk, ?_, ?_, ?_, ?_⟩
  · rw [(hrest r hra).2 hnr]
    exact ok.rootCell
  · obtain ⟨tx, htx, hc⟩ := ok.appCell
    obtain ⟨t2, ht2, hc2⟩ := stable ap (Or.inl rfl) tx htx
    exact ⟨t2, ht2, by rw [hc2, hc]⟩
  · obtain ⟨tx, htx, hc⟩ := ok.actCell
    obtain ⟨t2, ht2, hc2⟩ := stable ac (Or.inr rfl) tx htx
    exact ⟨t2, ht2, by rw [hc2, hc]⟩
  · intro q tq ty hq hcls
    by_cases hqa : q = a
    · subst hqa
      rw [hka] at hq
      cases hq
      rfl
    · by_cases hin : InSub h a q
      · rw [(hrest q hqa).1 hin] at hq
        cases hq
      · rw [(hrest q hqa).2 hin] at hq
        exact ok.leaves q tq ty hq hcls

theorem initHeap_ok {r ap ac : Ptr} (h1 : r ≠ ap) (h2 : r ≠ ac) (h3 : ap ≠ ac) :
    HeapOK (initHeap r ap ac) r ap ac := by
  have fo0 : Forest (construct (fun _ => none) r NodeClass.treeNode) :=
    construct_forest forest_empty rfl _
  have hr0 := construct_at (fun _ => none) r NodeClass.treeNode
  have hap0 : construct (fun _ => none) r NodeClass.treeNode ap = none := by
    rw [construct_other _ _ _ (Ne.symm h1)]
  obtain ⟨k1, hk1, fo1, hk1r, hk1a, hrest1⟩ := addChild_fresh fo0 NodeClass.treeNode hr0 hap0
  have hac1 : k1 ac = none := by
    rw [hrest1 ac (Ne.symm h2) (Ne.symm h3), construct_other _ _ _ (Ne.symm h2)]
  obtain ⟨k2, hk2, fo2, hk2r, hk2c, hrest2⟩ := addChild_fresh fo1 NodeClass.treeNode hk1r hac1
  have heq : initHeap r ap ac = k2 := by
    unfold initHeap
    rw [hk1]
    show Res.heap (addChild (construct k1 ac NodeClass.treeNode) r ac) = k2
    rw [hk2]
    rfl
  rw [heq]
  refine ⟨fo2, hk2r, ⟨_, by rw [hrest2 ap (Ne.symm h1) h3]; exact hk1a, rfl⟩, ⟨_, hk2c, rfl⟩, ?_⟩
  intro q t ty hq hcls
  by_cases hqr : q = r
  · subst hqr
    rw [hk2r] at hq
    cases hq
    cases hcls
  · by_cases hqc : q = ac
    · subst hqc
      rw [hk2c] at hq
      cases hq
      rfl
    · rw [hrest2 q hqr hqc] at hq
      by_cases hqa : q = ap
      · subst hqa
        rw [hk1a] at hq
        cases hq
        rfl
      · rw [hrest1 q hqr hqa, construct_other _ _ _ hqr] at hq
        cases hq

theorem init_core {r ap ac : Ptr} (h1 : r ≠ ap) (h2 : r ≠ ac) (h3 : ap ≠ ac) :
    Core (IconItemsModel.init r ap ac) := by
  refine ⟨initHeap_ok h1 h2 h3, ?_, ?_⟩
  · intro s p hs
    cases hs
  · intro p s hp
    cases hp

/-! ## Notifications keep the invariant -/

theorem root_ne_group {h : Heap} {r ap ac : Ptr} (ok : HeapOK h r ap ac) {x : Ptr}
    (hx : x = ap ∨ x = ac) : x ≠ r := by
  rintro rfl
  have hchild : IsChild h x x := by
    refine ⟨_, ok.rootCell, ?_⟩
    rcases hx with hx | hx <;> simp [← hx]
  exact forest_not_insub_parent ok.forest hchild Relation.ReflTransGen.refl

theorem findActivity_some {h : Heap} {act a : Ptr} {sc : Nat}
    (hf : findActivity h act sc = some a) :
    ∃ ta, h a = some ta ∧ ta.cls = NodeClass.activityNode sc := by
  unfold findActivity at hf
  cases hact : h act with
  | none =>
    rw [hact] at hf
    cases hf
  | some t =>
    rw [hact] at hf
    have hp := List.find?_some hf
    unfold isActivityOf at hp
    have hp2 := of_decide_eq_true hp
    cases ha : h a with
    | none =>
      rw [ha] at hp2
      cases hp2
    | some ta =>
      rw [ha] at hp2
      exact ⟨ta, rfl, Option.some.inj hp2⟩

theorem ownerGroup_ok {m : IconItemsModel}
    (ok : HeapOK m.heap m.root m.applicationNode m.activitiesNode) {group : Option Nat}
    {fa : Ptr} {pos : Nat} {h1 : Heap} {g : Ptr}
    (ho : ownerGroup m group fa pos = some (h1, g)) :
    HeapOK h1 m.root m.applicationNode m.activitiesNode ∧
      (∃ tg, h1 g = some tg ∧ ∀ ty, tg.cls ≠ NodeClass.iconNode ty) ∧ g ≠ m.root ∧
      ∀ q t, m.heap q = some t → ∃ t2, h1 q = some t2 ∧ t2.cls = t.cls := by
  cases group with
  | none =>
    simp only [ownerGroup, Option.some.injEq, Prod.mk.injEq] at ho
    obtain ⟨rfl, rfl⟩ := ho
    obtain ⟨t, ht, hc⟩ := ok.appCell
    refine ⟨ok, ⟨t, ht, ?_⟩, root_ne_group ok (Or.inl rfl), fun q t hq => ⟨t, hq, rfl⟩⟩
    intro ty hty
    rw [hc] at hty
    cases hty
  | some sc =>
    simp only [ownerGroup] at ho
    cases hfind : findActivity m.heap m.activitiesNode sc with
    | some a =>
      simp only [hfind, Option.some.injEq, Prod.mk.injEq] at ho
      obtain ⟨rfl, rfl⟩ := ho
      obtain ⟨ta, hta, hc⟩ := findActivity_some hfind
      refine ⟨ok, ⟨ta, hta, ?_⟩, ?_, fun q t hq => ⟨t, hq, rfl⟩⟩
      · intro ty hty
        rw [hc] at hty
        cases hty
      · rintro rfl
        rw [ok.rootCell] at hta
        cases hta
        cases hc
    | none =>
      simp only [hfind] at ho
      by_cases hfa : m.heap fa = none
      · rw [if_pos hfa] at ho
        obtain ⟨tc, htc, hcc⟩ := ok.actCell
        have hne : m.activitiesNode ≠ fa := by
          intro he
          rw [he, hfa] at htc
          cases htc
        cases hins : insertChild (construct m.heap fa (NodeClass.activityNode sc))
            m.activitiesNode pos fa with
        | error e =>
          simp only [hins] at ho
          cases ho
        | ok k =>
          simp only [hins, Option.some.injEq, Prod.mk.injEq] at ho
          obtain ⟨rfl, rfl⟩ := ho
          obtain ⟨t, nd, ht, _, hpos⟩ := insertChild_live hins hne
          rw [construct_other _ _ _ hne, htc] at ht
          cases ht
          obtain ⟨k2, hk2, fo2, hkg, hkf, hrest⟩ :=
            insertChild_fresh ok.forest (NodeClass.activityNode sc) htc hfa hpos
          rw [hins] at hk2
          cases hk2
          have hnic : ∀ ty, tc.cls ≠ NodeClass.iconNode ty := by
            intro ty hty
            rw [hcc] at hty
            cases hty
          obtain ⟨ok2, stable⟩ := grow_heapOK ok fo2 htc hnic
            (root_ne_group ok (Or.inr rfl)) hfa hkg hkf hrest
          refine ⟨ok2, ⟨_, hkf, ?_⟩, ?_, stable⟩
          · intro ty hty
            cases hty
          · rintro rfl
            rw [ok.rootCell] at hfa
            cases hfa
      · rw [if_neg hfa] at ho
        cases ho

theorem createLeaf_inv {m k : IconItemsModel} {s : Nat} {group : Option Nat} {ty : IconType}
    {fi fa : Ptr} {pos : Nat} (hk : createLeaf m s group ty fi fa pos = some k) :
    ∃ h1 g h2, ownerGroup m group fa pos = some (h1, g) ∧ h1 fi = none ∧
      addChild (construct h1 fi (NodeClass.iconNode ty)) g fi = .ok h2 ∧
      k = { m with
        heap := h2
        sourceToProxyMap := m.sourceToProxyMap.insert s fi
        proxyToSourceMap := m.proxyToSourceMap.insert fi s } := by
  unfold createLeaf at hk
  cases hog : ownerGroup m group fa pos with
  | none =>
    simp only [hog] at hk
    cases hk
  | some pr =>
    obtain ⟨h1, g⟩ := pr
    simp only [hog] at hk
    by_cases hfi : h1 fi = none
    · rw [if_pos hfi] at hk
      cases hadd : addChild (construct h1 fi (NodeClass.iconNode ty)) g fi with
      | error e =>
        simp only [hadd] at hk
        cases hk
      | ok h2 =>
        simp only [hadd, Option.some.injEq] at hk
        exact ⟨h1, g, h2, rfl, hfi, hadd, hk.symm⟩
    · rw [if_neg hfi] at hk
      cases hk

theorem append_core {m k : IconItemsModel} (co : Core m) {s : Nat} {group : Option Nat}
    {ty : IconType} {fi fa : Ptr} {pos : Nat}
    (hk : createLeaf m s group ty fi fa pos = some k) : Core k := by
  obtain ⟨h1, g, h2, hog, hfi, hadd, rfl⟩ := createLeaf_inv hk
  obtain ⟨ok1, ⟨tg, htg, hnic⟩, hgr, stable1⟩ := ownerGroup_ok co.heapOK hog
  obtain ⟨k2, hk2, fo2, hkg, hkf, hrest⟩ :=
    addChild_fresh ok1.forest (NodeClass.iconNode ty) htg hfi
  rw [hadd] at hk2
  cases hk2
  obtain ⟨ok2, stable2⟩ := grow_heapOK ok1 fo2 htg hnic hgr hfi hkg hkf hrest
  refine ⟨ok2, ?_, ?_⟩
  · intro s2 p hs
    simp only [QHash.insert] at hs ⊢
    by_cases hs2 : s2 = s
    · subst hs2
      rw [if_pos rfl] at hs
      cases hs
      rw [if_pos rfl]
    · rw [if_neg hs2] at hs
      have hold := co.forward s2 p hs
      have hpf : p ≠ fi := by
        rintro rfl
        obtain ⟨t, _, ht, _⟩ := co.keys p s2 hold
        obtain ⟨t2, ht2, _⟩ := stable1 p t ht
        rw [hfi] at ht2
        cases ht2
      rw [if_neg hpf]
      exact hold
  · intro p s2 hp
    simp only [QHash.insert] at hp
    by_cases hpf : p = fi
    · subst hpf
      exact ⟨_, ty, hkf, rfl⟩
    · rw [if_neg hpf] at hp
      obtain ⟨t, ty2, ht, hc⟩ := co.keys p s2 hp
      obtain ⟨t2, ht2, hc2⟩ := stable1 p t ht
      obtain ⟨t3, ht3, hc3⟩ := stable2 p t2 ht2
      exact ⟨t3, ty2, ht3, by rw [hc3, hc2, hc]⟩

theorem remove_inv {fuel : Nat} {m k : IconItemsModel} {s : Nat}
    (hk : removeSourceRow fuel m s = some k) :
    (m.sourceToProxyMap s = none ∧ k = m) ∨
    ∃ p g h1, m.sourceToProxyMap s = some p ∧ getParent m.heap p = some (some g) ∧
      removeSelf fuel m.heap p = .ok h1 ∧
      ((isActivity h1 g = true ∧ childCount h1 g = some 0 ∧ ∃ h2, removeSelf fuel h1 g = .ok h2 ∧
          k = { m with
            heap := h2
            sourceToProxyMap := m.sourceToProxyMap.remove s
            proxyToSourceMap := m.proxyToSourceMap.remove p }) ∨
        k = { m with
          heap := h1
          sourceToProxyMap := m.sourceToProxyMap.remove s
          proxyToSourceMap := m.proxyToSourceMap.remove p }) := by
  unfold removeSourceRow at hk
  cases hs : m.sourceToProxyMap s with
  | none =>
    simp only [hs, Option.some.injEq] at hk
    exact Or.inl ⟨rfl, hk.symm⟩
  | some p =>
    simp only [hs] at hk
    cases hgp : getParent m.heap p with
    | none =>
      simp only [hgp] at hk
      cases hk
    | some o =>
      cases o with
      | none =>
        simp only [hgp] at hk
        cases hk
      | some g =>
        simp only [hgp] at hk
        cases hrs : removeSelf fuel m.heap p with
        | error e =>
          simp only [hrs] at hk
          cases hk
        | ok h1 =>
          simp only [hrs] at hk
          refine Or.inr ⟨p, g, h1, rfl, hgp, hrs, ?_⟩
          by_cases hcond : (isActivity h1 g && decide (childCount h1 g = some 0)) = true
          · rw [if_pos hcond] at hk
            rw [Bool.and_eq_true] at hcond
            cases hrg : removeSelf fuel h1 g with
            | error e =>
              simp only [hrg] at hk
              cases hk
            | ok h2 =>
              simp only [hrg, Option.some.injEq] at hk
              exact Or.inl ⟨hcond.1, of_decide_eq_true hcond.2, h2, rfl, hk.symm⟩
          · rw [if_neg hcond] at hk
            simp only [Option.some.injEq] at hk
            exact Or.inr hk.symm

theorem isActivity_true {h : Heap} {g : Ptr} (hg : isActivity h g = true) :
    ∃ t, h g = some t ∧ t.cls ≠ NodeClass.treeNode ∧ ∀ ty, t.cls ≠ NodeClass.iconNode ty := by
  unfold isActivity at hg
  cases hh : h g with
  | none =>
    rw [hh] at hg
    cases hg
  | some t =>
    rw [hh] at hg
    refine ⟨t, rfl, ?_, ?_⟩
    · intro hc
      simp only [hc] at hg
      cases hg
    · intro ty hc
      simp only [hc] at hg
      cases hg

theorem remove_core {fuel : Nat} {m k : IconItemsModel} {s : Nat} (co : Core m)
    (hk : removeSourceRow fuel m s = some k) : Core k := by
  rcases remove_inv hk with ⟨_, rfl⟩ | ⟨p, g, h1, hs, _, hrs, hcase⟩
  · exact co
  · obtain ⟨tp, ty, htp, hcls⟩ := co.keys p s (co.forward s p hs)
    have hleaf := co.heapOK.leaves p tp ty htp hcls
    obtain ⟨g1, tg, _, hg1, hmem, _, hkg, hkp, hrest, fo1⟩ :=
      removeSelf_leaf co.heapOK.forest htp hleaf hrs
    have hxc : tp.cls ≠ NodeClass.treeNode := by
      intro hc
      rw [hc] at hcls
      cases hcls
    obtain ⟨ok1, stable1⟩ := shrink_heapOK co.heapOK fo1 htp hxc hg1 hmem hkg hkp hrest
    have fwd : ∀ s2 p2, (m.sourceToProxyMap.remove s) s2 = some p2 →
        (m.proxyToSourceMap.remove p) p2 = some s2 := by
      intro s2 p2 h2
      simp only [QHash.remove] at h2 ⊢
      by_cases hs2 : s2 = s
      · rw [if_pos hs2] at h2
        cases h2
      · rw [if_neg hs2] at h2
        have hold := co.forward s2 p2 h2
        have hp2 : p2 ≠ p := by
          rintro rfl
          rw [co.forward s p2 hs] at hold
          exact hs2 (Option.some.inj hold).symm
        rw [if_neg hp2]
        exact hold
    have keys1 : ∀ p2 s2, (m.proxyToSourceMap.remove p) p2 = some s2 →
        ∃ t ty2, h1 p2 = some t ∧ t.cls = NodeClass.iconNode ty2 := by
      intro p2 s2 h2
      simp only [QHash.remove] at h2
      by_cases hp2 : p2 = p
      · rw [if_pos hp2] at h2
        cases h2
      · rw [if_neg hp2] at h2
        obtain ⟨t, ty2, ht, hc⟩ := co.keys p2 s2 h2
        obtain ⟨t2, ht2, hc2⟩ := stable1 p2 t ht hp2
        exact ⟨t2, ty2, ht2, by rw [hc2, hc]⟩
    rcases hcase with ⟨hact, hcount, h2, hrg, rfl⟩ | rfl
    · obtain ⟨tg1, htg1, hgc, hgi⟩ := isActivity_true hact
      have hgleaf : tg1.children = [] := by
        simp only [childCount, htg1, Option.map_some', Option.some.injEq] at hcount
        exact List.length_eq_zero.1 hcount
      obtain ⟨gp, tgp, _, hgp, hmem2, _, hkg2, hkp2, hrest2, fo2⟩ :=
        removeSelf_leaf fo1 htg1 hgleaf hrg
      obtain ⟨ok2, stable2⟩ := shrink_heapOK ok1 fo2 htg1 hgc hgp hmem2 hkg2 hkp2 hrest2
      refine ⟨ok2, fwd, ?_⟩
      intro p2 s2 hp2
      obtain ⟨t, ty2, ht, hc⟩ := keys1 p2 s2 hp2
      have hne : p2 ≠ g := by
        rintro rfl
        rw [htg1] at ht
        cases ht
        exact hgi ty2 hc
      obtain ⟨t2, ht2, hc2⟩ := stable2 p2 t ht hne
      exact ⟨t2, ty2, ht2, by rw [hc2, hc]⟩
    · exact ⟨ok1, fwd, keys1⟩

theorem reset_inv {fuel : Nat} {m k : IconItemsModel} (hk : discardTree fuel m = some k) :
    ∃ h1 h2, removeChildren fuel m.heap m.applicationNode = .ok h1 ∧
      removeChildren fuel h1 m.activitiesNode = .ok h2 ∧
      k = { m with
        heap := h2
        sourceToProxyMap := QHash.empty
        proxyToSourceMap := QHash.empty } := by
  unfold discardTree at hk
  cases h1 : removeChildren fuel m.heap m.applicationNode with
  | error e =>
    simp only [h1] at hk
    cases hk
  | ok k1 =>
    simp only [h1] at hk
    cases h2 : removeChildren fuel k1 m.activitiesNode with
    | error e =>
      simp only [h2] at hk
      cases hk
    | ok k2 =>
      simp only [h2, Option.some.injEq] at hk
      exact ⟨k1, k2, rfl, h2, hk.symm⟩

theorem reset_core {fuel : Nat} {m k : IconItemsModel} (co : Core m)
    (hk : discardTree fuel m = some k) : Core k := by
  obtain ⟨h1, h2, hr1, hr2, rfl⟩ := reset_inv hk
  have ok1 := clear_heapOK co.heapOK (Or.inl rfl) hr1
  have ok2 := clear_heapOK ok1 (Or.inr rfl) hr2
  refine ⟨ok2, ?_, ?_⟩
  · intro s p hs
    cases hs
  · intro p s hp
    cases hp

theorem act_append {m k : IconItemsModel} {s : Nat} {group : Option Nat} {ty : IconType}
    {fi fa : Ptr} {pos : Nat} (hk : act m (Action.append s group ty fi fa pos) = some k) :
    ((∃ p, m.sourceToProxyMap s = some p) ∧ k = m) ∨
    (m.sourceToProxyMap s = none ∧ createLeaf m s group ty fi fa pos = some k) := by
  simp only [act, appendIcon] at hk
  cases hs : m.sourceToProxyMap s with
  | some p =>
    rw [hs] at hk
    simp only [Option.map_some', Option.some.injEq] at hk
    exact Or.inl ⟨⟨p, rfl⟩, hk.symm⟩
  | none =>
    rw [hs] at hk
    cases hc : createLeaf m s group ty fi fa pos with
    | none =>
      rw [hc] at hk
      cases hk
    | some k2 =>
      rw [hc] at hk
      simp only [Option.map_some', Option.some.injEq] at hk
      rw [hk]
      exact Or.inr ⟨rfl, rfl⟩

theorem act_core {m k : IconItemsModel} (co : Core m) (ev : Action)
    (hk : act m ev = some k) : Core k := by
  cases ev with
  | append s group ty fi fa pos =>
    rcases act_append hk with ⟨_, rfl⟩ | ⟨_, hc⟩
    · exact co
    · exact append_core co hc
  | aboutToRemove fuel s => exact remove_core co hk
  | dataChanged =>
    simp only [act, Option.some.injEq] at hk
    subst hk
    exact co
  | discard fuel => exact reset_core co hk

theorem run_cons {m k : IconItemsModel} {a : Action} {as : List Action}
    (hk : run m (a :: as) = some k) : ∃ m1, act m a = some m1 ∧ run m1 as = some k := by
  simp only [run] at hk
  cases ha : act m a with
  | none =>
    rw [ha] at hk
    cases hk
  | some m1 =>
    rw [ha] at hk
    exact ⟨m1, rfl, hk⟩

theorem run_core : ∀ (as : List Action) {m k : IconItemsModel}, Core m → run m as = some k →
    Core k := by
  intro as
  induction as with
  | nil =>
    intro m k co hk
    simp only [run, Option.some.injEq] at hk
    subst hk
    exact co
  | cons a as ih =>
    intro m k co hk
    obtain ⟨m1, ha, hrun⟩ := run_cons hk
    exact ih (act_core co a ha) hrun

theorem notify_run (m : IconItemsModel) (n : Notification) : notify m n = run m n.actions := by
  cases n <;> rfl

theorem reachableM_core {m : IconItemsModel} (hr : ReachableM m) : Core m := by
  induction hr with
  | init r ap ac h1 h2 h3 => exact init_core h1 h2 h3
  | step n _ hk ih =>
    rw [notify_run] at hk
    exact run_core _ ih hk

theorem core_topShape {m : IconItemsModel} (co : Core m) : TopShape m := by
  have hroot := co.heapOK.rootCell
  refine ⟨?_, rfl, ?_, ?_⟩
  · simp only [rowCount, Option.getD_none, childCount, hroot, Option.map_some']
    rfl
  · simp only [getChild, hroot, Option.some_bind]
    rfl
  · simp only [getChild, hroot, Option.some_bind]
    rfl

theorem act_backward {m k : IconItemsModel} (ev : Action) (hk : act m ev = some k)
    (hb : ∀ p s, m.proxyToSourceMap p = some s → m.sourceToProxyMap s = some p) :
    ∀ p s, k.proxyToSourceMap p = some s → k.sourceToProxyMap s = some p := by
  cases ev with
  | append s group ty fi fa pos =>
    rcases act_append hk with ⟨_, rfl⟩ | ⟨hs, hc⟩
    · exact hb
    obtain ⟨h1, g, h2, _, _, _, rfl⟩ := createLeaf_inv hc
    intro p s2 hp
    simp only [QHash.insert] at hp ⊢
    by_cases hpf : p = fi
    · rw [if_pos hpf] at hp
      cases hp
      rw [if_pos rfl, hpf]
    · rw [if_neg hpf] at hp
      have hold := hb p s2 hp
      have hne : s2 ≠ s := by
        rintro rfl
        rw [hs] at hold
        cases hold
      rw [if_neg hne]
      exact hold
  | aboutToRemove fuel s =>
    have key : ∀ p0, m.sourceToProxyMap s = some p0 → ∀ p s2,
        (m.proxyToSourceMap.remove p0) p = some s2 →
        (m.sourceToProxyMap.remove s) s2 = some p := by
      intro p0 hs p s2 hp
      simp only [QHash.remove] at hp ⊢
      by_cases hpp : p = p0
      · rw [if_pos hpp] at hp
        cases hp
      · rw [if_neg hpp] at hp
        have hold := hb p s2 hp
        have hne : s2 ≠ s := by
          rintro rfl
          rw [hs] at hold
          exact hpp (Option.some.inj hold).symm
        rw [if_neg hne]
        exact hold
    rcases remove_inv hk with ⟨_, rfl⟩ | ⟨p0, g, h1, hs, _, _, hcase⟩
    · exact hb
    · rcases hcase with ⟨_, _, h2, _, rfl⟩ | rfl
      · exact key p0 hs
      · exact key p0 hs
  | dataChanged =>
    simp only [act, Option.some.injEq] at hk
    subst hk
    exact hb
  | discard fuel =>
    obtain ⟨h1, h2, _, _, rfl⟩ := reset_inv hk
    intro p s hp
    cases hp

theorem run_backward : ∀ (as : List Action) {m k : IconItemsModel}, run m as = some k →
    (∀ p s, m.proxyToSourceMap p = some s → m.sourceToProxyMap s = some p) →
    ∀ p s, k.proxyToSourceMap p = some s → k.sourceToProxyMap s = some p := by
  intro as
  induction as with
  | nil =>
    intro m k hk hb
    simp only [run, Option.some.injEq] at hk
    subst hk
    exact hb
  | cons a as ih =>
    intro m k hk hb
    obtain ⟨m1, ha, hrun⟩ := run_cons hk
    exact ih hrun (act_backward a ha hb)

theorem reachableM_backward {m : IconItemsModel} (hr : ReachableM m) :
    ∀ p s, m.proxyToSourceMap p = some s → m.sourceToProxyMap s = some p := by
  induction hr with
  | init r ap ac h1 h2 h3 =>
    intro p s hp
    cases hp
  | step n _ hk ih =>
    rw [notify_run] at hk
    exact run_backward _ hk ih

theorem onceRegistered_reachableM : ReachableM onceRegistered :=
  ReachableM.step (Notification.populate [hitApplication])
    (ReachableM.init 0 1 2 (by decide) (by decide) (by decide)) rfl

theorem twiceRegistered_reachableM : ReachableM twiceRegistered :=
  ReachableM.step (Notification.populate [hitApplication, hitActivity])
    (ReachableM.init 0 1 2 (by decide) (by decide) (by decide)) rfl

/-! ## Every leaf of the tree is registered -/

theorem insub_of_shrinks {h k : Heap} (hs : Shrinks h k) {a q : Ptr} (hx : InSub k a q) :
    InSub h a q :=
  Relation.ReflTransGen.mono (fun _ _ e => shrinks_edge hs e) hx

theorem removeSelf_shrinks {f : Nat} {h k : Heap} {n : Ptr}
    (hk : removeSelf f h n = .ok k) : Shrinks h k := by
  obtain ⟨nd, p, t, hn, hpar, hp⟩ := removeSelf_inv hk
  rw [removeSelf_eq hn hpar hp] at hk
  exact removeChild_shrinks hk

theorem insub_grow {h k : Heap} {g f r p : Ptr} {tg : TreeNode} {cs : List Ptr}
    {c : NodeClass} (hg : h g = some tg) (hkg : k g = some { tg with children := cs })
    (hcs : ∀ x ∈ cs, x ∈ tg.children ∨ x = f)
    (hkf : k f = some { parent := some g, children := [], cls := c })
    (hrest : ∀ q, q ≠ g → q ≠ f → k q = h q) (hx : InSub k r p) :
    p ≠ f → InSub h r p := by
  induction hx with
  | refl => exact fun _ => Relation.ReflTransGen.refl
  | @tail b x hab hbc ih =>
    intro hp
    obtain ⟨t, ht, hmem⟩ := hbc
    have hbf : b ≠ f := by
      rintro rfl
      rw [hkf] at ht
      cases ht
      exact absurd hmem (List.not_mem_nil _)
    refine Relation.ReflTransGen.tail (ih hbf) ?_
    by_cases hbg : b = g
    · rw [hbg] at ht ⊢
      rw [hkg] at ht
      cases ht
      rcases hcs _ hmem with h1 | h1
      · exact ⟨tg, hg, h1⟩
      · exact absurd h1 hp
    · rw [hrest b hbg hbf] at ht
      exact ⟨t, ht, hmem⟩

theorem icon_grow {h k : Heap} {g f p : Ptr} {tg : TreeNode} {cs : List Ptr}
    (hg : h g = some tg) (hkg : k g = some { tg with children := cs })
    (hrest : ∀ q, q ≠ g → q ≠ f → k q = h q) (hp : IsIconNode k p) (hpf : p ≠ f) :
    IsIconNode h p := by
  obtain ⟨t, ty, ht, hc⟩ := hp
  by_cases hpg : p = g
  · rw [hpg] at ht ⊢
    rw [hkg] at ht
    cases ht
    exact ⟨tg, ty, hg, hc⟩
  · rw [hrest p hpg hpf] at ht
    exact ⟨t, ty, ht, hc⟩

theorem keyed_grow {h k : Heap} {r g f : Ptr} {tg : TreeNode} {cs : List Ptr}
    {c : NodeClass} {p2s q2s : QHash} (ky : Keyed h r p2s) (hg : h g = some tg)
    (hkg : k g = some { tg with children := cs })
    (hcs : ∀ x ∈ cs, x ∈ tg.children ∨ x = f)
    (hkf : k f = some { parent := some g, children := [], cls := c })
    (hrest : ∀ q, q ≠ g → q ≠ f → k q = h q) (hold : ∀ q, q ≠ f → q2s q = p2s q)
    (hnew : (∃ ty, c = NodeClass.iconNode ty) → ∃ s, q2s f = some s) : Keyed k r q2s := by
  intro p hx hp
  by_cases hpf : p = f
  · obtain ⟨t, ty, ht, hc⟩ := hp
    rw [hpf] at ht ⊢
    rw [hkf] at ht
    cases ht
    exact hnew ⟨ty, hc⟩
  · rw [hold p hpf]
    exact ky p (insub_grow hg hkg hcs hkf hrest hx hpf) (icon_grow hg hkg hrest hp hpf)

theorem keyed_shrink {h k : Heap} {r : Ptr} {p2s q2s : QHash} (ky : Keyed h r p2s)
    (hs : Shrinks h k) (hold : ∀ q t, k q = some t → q2s q = p2s q) : Keyed k r q2s := by
  intro p hx hp
  obtain ⟨t, ty, ht, hc⟩ := hp
  obtain ⟨t0, ht0, hcls, _, _⟩ := hs p t ht
  rw [hold p t ht]
  exact ky p (insub_of_shrinks hs hx) ⟨t0, ty, ht0, by rw [← hcls, hc]⟩

theorem ownerGroup_keyed {m : IconItemsModel}
    (ok : HeapOK m.heap m.root m.applicationNode m.activitiesNode) {group : Option Nat}
    {fa : Ptr} {pos : Nat} {h1 : Heap} {g : Ptr}
    (ho : ownerGroup m group fa pos = some (h1, g)) {p2s : QHash}
    (ky : Keyed m.heap m.root p2s) : Keyed h1 m.root p2s := by
  cases group with
  | none =>
    simp only [ownerGroup, Option.some.injEq, Prod.mk.injEq] at ho
    obtain ⟨rfl, rfl⟩ := ho
    exact ky
  | some sc =>
    simp only [ownerGroup] at ho
    cases hfind : findActivity m.heap m.activitiesNode sc with
    | some a =>
      simp only [hfind, Option.some.injEq, Prod.mk.injEq] at ho
      obtain ⟨rfl, rfl⟩ := ho
      exact ky
    | none =>
      simp only [hfind] at ho
      by_cases hfa : m.heap fa = none
      · rw [if_pos hfa] at ho
        obtain ⟨tc, htc, hcc⟩ := ok.actCell
        have hne : m.activitiesNode ≠ fa := by
          intro he
          rw [he, hfa] at htc
          cases htc
        cases hins : insertChild (construct m.heap fa (NodeClass.activityNode sc))
            m.activitiesNode pos fa with
        | error e =>
          simp only [hins] at ho
          cases ho
        | ok k =>
          simp only [hins, Option.some.injEq, Prod.mk.injEq] at ho
          obtain ⟨rfl, rfl⟩ := ho
          obtain ⟨t, nd, ht, _, hpos⟩ := insertChild_live hins hne
          rw [construct_other _ _ _ hne, htc] at ht
          cases ht
          obtain ⟨k2, hk2, fo2, hkg, hkf, hrest⟩ :=
            insertChild_fresh ok.forest (NodeClass.activityNode sc) htc hfa hpos
          rw [hins] at hk2
          cases hk2
          refine keyed_grow ky htc hkg ?_ hkf hrest (fun _ _ => rfl) ?_
          · intro x hx
            rw [List.mem_insertIdx hpos] at hx
            exact hx.symm
          · rintro ⟨ty, hty⟩
            cases hty
      · rw [if_neg hfa] at ho
        cases ho

theorem append_keyed {m k : IconItemsModel} (co : Core m) {s : Nat} {group : Option Nat}
    {ty : IconType} {fi fa : Ptr} {pos : Nat}
    (hk : createLeaf m s group ty fi fa pos = some k)
    (ky : Keyed m.heap m.root m.proxyToSourceMap) :
    Keyed k.heap k.root k.proxyToSourceMap := by
  obtain ⟨h1, g, h2, hog, hfi, hadd, rfl⟩ := createLeaf_inv hk
  obtain ⟨ok1, ⟨tg, htg, _⟩, _, _⟩ := ownerGroup_ok co.heapOK hog
  obtain ⟨k2, hk2, _, hkg, hkf, hrest⟩ :=
    addChild_fresh ok1.forest (NodeClass.iconNode ty) htg hfi
  rw [hadd] at hk2
  cases hk2
  refine keyed_grow (ownerGroup_keyed co.heapOK hog ky) htg hkg ?_ hkf hrest ?_ ?_
  · intro x hx
    rcases List.mem_append.1 hx with h3 | h3
    · exact Or.inl h3
    · exact Or.inr (List.mem_singleton.1 h3)
  · intro q hq
    simp only [QHash.insert, if_neg hq]
  · intro _
    exact ⟨s, by simp only [QHash.insert, if_pos]⟩

theorem remove_keyed {fuel : Nat} {m k : IconItemsModel} {s : Nat} (co : Core m)
    (hk : removeSourceRow fuel m s = some k)
    (ky : Keyed m.heap m.root m.proxyToSourceMap) :
    Keyed k.heap k.root k.proxyToSourceMap := by
  rcases remove_inv hk with ⟨_, rfl⟩ | ⟨p, g, h1, hs, _, hrs, hcase⟩
  · exact ky
  · obtain ⟨tp, ty, htp, hcls⟩ := co.keys p s (co.forward s p hs)
    have hleaf := co.heapOK.leaves p tp ty htp hcls
    obtain ⟨g1, tg, _, _, _, _, _, hkp, _, _⟩ :=
      removeSelf_leaf co.heapOK.forest htp hleaf hrs
    have ky1 : Keyed h1 m.root (m.proxyToSourceMap.remove p) := by
      refine keyed_shrink ky (removeSelf_shrinks hrs) ?_
      intro q t hq
      have hqp : q ≠ p := by
        rintro rfl
        rw [hkp] at hq
        cases hq
      simp only [QHash.remove, if_neg hqp]
    rcases hcase with ⟨_, _, h2, hrg, rfl⟩ | rfl
    · exact keyed_shrink ky1 (removeSelf_shrinks hrg) (fun _ _ _ => rfl)
    · exact ky1

theorem reset_keyed {fuel : Nat} {m k : IconItemsModel} (co : Core m)
    (hk : discardTree fuel m = some k) : Keyed k.heap k.root k.proxyToSourceMap := by
  have ok2 := (reset_core co hk).heapOK
  obtain ⟨h1, h2, hr1, hr2, rfl⟩ := reset_inv hk
  obtain ⟨ta, _, hta⟩ := removeChildren_result hr1
  obtain ⟨tc, _, htc⟩ := removeChildren_result hr2
  obtain ⟨tb, htb, hbc⟩ := ok2.appCell
  obtain ⟨_, hb0, _, _, hsub⟩ := removeChildren_shrinks hr2 _ tb htb
  rw [hta] at hb0
  cases hb0
  have hbl : tb.children = [] := List.sublist_nil.1 hsub
  intro p hx hp
  exfalso
  obtain ⟨t, ty, ht, hc⟩ := hp
  rcases insub_iff_head.1 hx with heq | ⟨d, ⟨tr, htr, hm⟩, hdp⟩
  · rw [heq, ok2.rootCell] at ht
    cases ht
    cases hc
  · rw [ok2.rootCell] at htr
    cases htr
    rcases List.mem_cons.1 hm with hd | hm2
    · have hpd := insub_leaf htb hbl (hd ▸ hdp)
      rw [hpd, htb] at ht
      cases ht
      rw [hbc] at hc
      cases hc
    · have hd := List.mem_singleton.1 hm2
      have hpd := insub_leaf htc rfl (hd ▸ hdp)
      obtain ⟨tc2, htc2, hcc⟩ := ok2.actCell
      rw [hpd, htc2] at ht
      cases ht
      rw [hcc] at hc
      cases hc

theorem act_keyed {m k : IconItemsModel} (co : Core m) (ev : Action)
    (hk : act m ev = some k) (ky : Keyed m.heap m.root m.proxyToSourceMap) :
    Keyed k.heap k.root k.proxyToSourceMap := by
  cases ev with
  | append s group ty fi fa pos =>
    rcases act_append hk with ⟨_, rfl⟩ | ⟨_, hc⟩
    · exact ky
    · exact append_keyed co hc ky
  | aboutToRemove fuel s => exact remove_keyed co hk ky
  | dataChanged =>
    simp only [act, Option.some.injEq] at hk
    subst hk
    exact ky
  | discard fuel => exact reset_keyed co hk

theorem run_keyed : ∀ (as : List Action) {m k : IconItemsModel}, Core m → run m as = some k →
    Keyed m.heap m.root m.proxyToSourceMap → Keyed k.heap k.root k.proxyToSourceMap := by
  intro as
  induction as with
  | nil =>
    intro m k _ hk ky
    simp only [run, Option.some.injEq] at hk
    subst hk
    exact ky
  | cons a as ih =>
    intro m k co hk ky
    obtain ⟨m1, ha, hrun⟩ := run_cons hk
    exact ih (act_core co a ha) hrun (act_keyed co a ha ky)

theorem initHeap_none {r ap ac q : Ptr} (h1 : r ≠ ap) (h2 : r ≠ ac) (h3 : ap ≠ ac)
    (hqr : q ≠ r) (hqa : q ≠ ap) (hqc : q ≠ ac) : initHeap r ap ac q = none := by
  have fo0 : Forest (construct (fun _ => none) r NodeClass.treeNode) :=
    construct_forest forest_empty rfl _
  have hr0 := construct_at (fun _ => none) r NodeClass.treeNode
  have hap0 : construct (fun _ => none) r NodeClass.treeNode ap = none := by
    rw [construct_other _ _ _ (Ne.symm h1)]
  obtain ⟨k1, hk1, fo1, hk1r, _, hrest1⟩ := addChild_fresh fo0 NodeClass.treeNode hr0 hap0
  have hac1 : k1 ac = none := by
    rw [hrest1 ac (Ne.symm h2) (Ne.symm h3), construct_other _ _ _ (Ne.symm h2)]
  obtain ⟨k2, hk2, _, _, _, hrest2⟩ := addChild_fresh fo1 NodeClass.treeNode hk1r hac1
  have heq : initHeap r ap ac = k2 := by
    unfold initHeap
    rw [hk1]
    show Res.heap (addChild (construct k1 ac NodeClass.treeNode) r ac) = k2
    rw [hk2]
    rfl
  rw [heq, hrest2 q hqr hqc, hrest1 q hqr hqa, construct_other _ _ _ hqr]

theorem init_keyed {r ap ac : Ptr} (h1 : r ≠ ap) (h2 : r ≠ ac) (h3 : ap ≠ ac) :
    Keyed (IconItemsModel.init r ap ac).heap r QHash.empty := by
  have ok := initHeap_ok h1 h2 h3
  intro p hx hp
  exfalso
  obtain ⟨t, ty, ht, hc⟩ := hp
  have hlive := fun q => @initHeap_none r ap ac q h1 h2 h3
  by_cases hpr : p = r
  · rw [hpr] at ht
    rw [show (IconItemsModel.init r ap ac).heap = initHeap r ap ac from rfl, ok.rootCell] at ht
    cases ht
    cases hc
  · by_cases hpa : p = ap
    · obtain ⟨ta, hta, hca⟩ := ok.appCell
      rw [hpa] at ht
      rw [show (IconItemsModel.init r ap ac).heap = initHeap r ap ac from rfl, hta] at ht
      cases ht
      rw [hca] at hc
      cases hc
    · by_cases hpc : p = ac
      · obtain ⟨tc, htc, hcc⟩ := ok.actCell
        rw [hpc] at ht
        rw [show (IconItemsModel.init r ap ac).heap = initHeap r ap ac from rfl, htc] at ht
        cases ht
        rw [hcc] at hc
        cases hc
      · rw [show (IconItemsModel.init r ap ac).heap = initHeap r ap ac from rfl,
          hlive p hpr hpa hpc] at ht
        cases ht

theorem reachableM_keyed {m : IconItemsModel} (hr : ReachableM m) :
    Keyed m.heap m.root m.proxyToSourceMap := by
  induction hr with
  | init r ap ac h1 h2 h3 => exact init_keyed h1 h2 h3
  | step n hm hk ih =>
    rw [notify_run] at hk
    exact run_keyed _ (reachableM_core hm) hk ih

/-! ## Claims on the icon model -/

/-- C9: the row enumeration has `ApplicationRow = 0`, `ActivitiesRow = 1`, `RowCount = 2`,
the column enumeration has `CaptionColumn = 0`, `PathColumn = 1`, `TypeColumn = 2`,
`ColumnCount = 3`, and in every state reachable by any sequence of notifications the root
exposes exactly `RowCount` rows, Application at `ApplicationRow` and Activities at
`ActivitiesRow`, and `ColumnCount` columns. -/
theorem top_shape_fixed (m : IconItemsModel) (hr : ReachableM m) :
    (Row.ApplicationRow.value = 0 ∧ Row.ActivitiesRow.value = 1 ∧ Row.RowCount.value = 2) ∧
    (Column.CaptionColumn.value = 0 ∧ Column.PathColumn.value = 1 ∧
      Column.TypeColumn.value = 2 ∧ Column.ColumnCount.value = 3) ∧
    TopShape m :=
  ⟨⟨rfl, rfl, rfl⟩, ⟨rfl, rfl, rfl, rfl⟩, core_topShape (reachableM_core hr)⟩

theorem top_shape_fixed_witness :
    ReachableM onceRegistered ∧
    (Row.ApplicationRow.value = 0 ∧ Row.ActivitiesRow.value = 1 ∧ Row.RowCount.value = 2) ∧
    (Column.CaptionColumn.value = 0 ∧ Column.PathColumn.value = 1 ∧
      Column.TypeColumn.value = 2 ∧ Column.ColumnCount.value = 3) ∧
    TopShape onceRegistered :=
  ⟨onceRegistered_reachableM, top_shape_fixed onceRegistered onceRegistered_reachableM⟩

/-- C10: in every state reachable from the constructed model by initial population,
insert, pre-remove, data-changed and reset notifications, the two maps are mutual
inverses: `sourceToProxyMap` maps `s` to `p` if and only if `proxyToSourceMap` maps `p`
to `s`. -/
theorem maps_inverse (m : IconItemsModel) (hr : ReachableM m) : MutualInverse m :=
  fun s p => ⟨(reachableM_core hr).forward s p, reachableM_backward hr p s⟩

theorem maps_inverse_witness :
    ReachableM twiceRegistered ∧ twiceRegistered.sourceToProxyMap 7 = some 3 ∧
    twiceRegistered.proxyToSourceMap 3 = some 7 ∧ twiceRegistered.proxyToSourceMap 4 = none ∧
    MutualInverse twiceRegistered :=
  ⟨twiceRegistered_reachableM, rfl, rfl, rfl,
    maps_inverse twiceRegistered twiceRegistered_reachableM⟩

/-- C11: in every state reachable by notifications, `mapFromSource (mapToSource p)` is
`p` for every `IconNode` `p` present in the synthetic tree; `mapToSource` returns the
invalid result for every group and activity row; `mapFromSource` returns the invalid
result for every source identity that is not a key of `sourceToProxyMap`, and no node is
sent to such an identity by `mapToSource`; the valid results of `mapFromSource` for an
identity are exactly the live `IconNode`s that `mapToSource` sends to it. -/
theorem mapping_round_trip (m : IconItemsModel) (hr : ReachableM m) :
    (∀ p, InSub m.heap m.root p → IsIconNode m.heap p →
      mapFromSource m (mapToSource m (some p)) = some p) ∧
    (∀ p, IsGroupRow m.heap p → mapToSource m (some p) = none) ∧
    (∀ s, m.sourceToProxyMap s = none →
      mapFromSource m (some s) = none ∧ ∀ p, mapToSource m (some p) ≠ some s) ∧
    (∀ s p, mapFromSource m (some s) = some p ↔
      IsIconNode m.heap p ∧ mapToSource m (some p) = some s) := by
  refine ⟨?_, ?_, ?_, ?_⟩
  · intro p hx hp
    obtain ⟨s, hs⟩ := reachableM_keyed hr p hx hp
    simp only [mapToSource, mapFromSource, Option.some_bind, hs]
    exact reachableM_backward hr p s hs
  · rintro p ⟨t, ht, hn⟩
    simp only [mapToSource, Option.some_bind]
    cases hps : m.proxyToSourceMap p with
    | none => rfl
    | some s =>
      obtain ⟨t2, ty, ht2, hc⟩ := (reachableM_core hr).keys p s hps
      rw [ht] at ht2
      cases ht2
      exact absurd hc (hn ty)
  · intro s hs
    refine ⟨?_, ?_⟩
    · simp only [mapFromSource, Option.some_bind]
      exact hs
    · intro p hp
      simp only [mapToSource, Option.some_bind] at hp
      rw [reachableM_backward hr p s hp] at hs
      cases hs
  · intro s p
    simp only [mapFromSource, mapToSource, Option.some_bind]
    constructor
    · intro hsp
      have hps := (reachableM_core hr).forward s p hsp
      exact ⟨(reachableM_core hr).keys p s hps, hps⟩
    · rintro ⟨_, hps⟩
      exact reachableM_backward hr p s hps

theorem mapping_round_trip_witness :
    ReachableM twiceRegistered ∧
    InSub twiceRegistered.heap twiceRegistered.root 3 ∧ IsIconNode twiceRegistered.heap 3 ∧
    mapToSource twiceRegistered (some 3) = some 7 ∧
    mapFromSource twiceRegistered (mapToSource twiceRegistered (some 3)) = some 3 ∧
    IsGroupRow twiceRegistered.heap 1 ∧ mapToSource twiceRegistered (some 1) = none ∧
    twiceRegistered.sourceToProxyMap 8 = none ∧
    mapFromSource twiceRegistered (some 8) = none :=
  have hm : ReachableM twiceRegistered := twiceRegistered_reachableM
  have hx : InSub twiceRegistered.heap twiceRegistered.root 3 :=
    Relation.ReflTransGen.tail
      (Relation.ReflTransGen.single
        (show IsChild twiceRegistered.heap 0 1 from
          ⟨{ parent := none, children := [1, 2], cls := NodeClass.treeNode }, rfl, by decide⟩))
      (show IsChild twiceRegistered.heap 1 3 from
        ⟨{ parent := some 0, children := [3], cls := NodeClass.treeNode }, rfl, by decide⟩)
  have hi : IsIconNode twiceRegistered.heap 3 :=
    ⟨{ parent := some 1, children := [], cls := NodeClass.iconNode IconType.TypeIcon },
      IconType.TypeIcon, rfl, rfl⟩
  have hg : IsGroupRow twiceRegistered.heap 1 :=
    ⟨{ parent := some 0, children := [3], cls := NodeClass.treeNode }, rfl,
      fun _ hc => NodeClass.noConfusion hc⟩
  ⟨hm, hx, hi, rfl, (mapping_round_trip twiceRegistered hm).1 3 hx hi, hg,
    (mapping_round_trip twiceRegistered hm).2.1 1 hg, rfl,
    ((mapping_round_trip twiceRegistered hm).2.2.1 8 rfl).1⟩

end IconItems

namespace ProjectTabs

/-! ## Lookup and insertion of pages -/

theorem getTab_congr {w w2 : ProjectTabsWidget} (h : w2.pages = w.pages) (i : QString) :
    getTabByIdentifier w2 i = getTabByIdentifier w i := by
  unfold getTabByIdentifier
  rw [h]

theorem getTab_some {w : ProjectTabsWidget} {i : QString} {x : Widget}
    (h : getTabByIdentifier w i = some x) :
    ∃ p, p ∈ w.pages ∧ p.identifier = i ∧ p.widget = x := by
  unfold getTabByIdentifier at h
  cases hf : w.pages.find? (fun tab => decide (tab.identifier = i)) with
  | none =>
    rw [hf] at h
    cases h
  | some p =>
    rw [hf] at h
    have hp := List.find?_some hf
    simp only [decide_eq_true_eq] at hp
    exact ⟨p, List.mem_of_find?_eq_some hf, hp, Option.some.inj h⟩

theorem getTab_none {w : ProjectTabsWidget} {i : QString}
    (h : getTabByIdentifier w i = none) : ∀ p ∈ w.pages, p.identifier ≠ i := by
  unfold getTabByIdentifier at h
  cases hf : w.pages.find? (fun tab => decide (tab.identifier = i)) with
  | none =>
    intro p hp hpi
    exact List.find?_eq_none.1 hf p hp (decide_eq_true hpi)
  | some p =>
    rw [hf] at h
    cases h

theorem getTab_added {w w2 : ProjectTabsWidget} {i : QString} {p : Page}
    (hn : getTabByIdentifier w i = none) (hp : p.identifier = i)
    (h2 : w2.pages = w.pages ++ [p]) : getTabByIdentifier w2 i = some p.widget := by
  unfold getTabByIdentifier at hn ⊢
  rw [h2, List.find?_append]
  cases hf : w.pages.find? (fun tab => decide (tab.identifier = i)) with
  | none =>
    simp only [Option.none_or, List.find?_cons, List.find?_nil, decide_eq_true hp,
      Option.map_some']
  | some q =>
    rw [hf] at hn
    cases hn

theorem setCurrentIndex_pages (w : ProjectTabsWidget) (i : Int) :
    (setCurrentIndex w i).pages = w.pages := by
  unfold setCurrentIndex
  split <;> rfl

theorem indexOf_page {w : ProjectTabsWidget} {x : Widget} (hx : x ∈ widgets w) :
    0 ≤ indexOf w x ∧ indexOf w x < count w ∧
      ∃ q, page? w (indexOf w x) = some q ∧ q.widget = x := by
  unfold widgets at hx
  unfold indexOf
  obtain ⟨_, hat⟩ := TreeNodes.indexOf_of_mem hx
  obtain ⟨h0, hlt, hget⟩ := TreeNodes.at?_some hat
  rw [List.length_map] at hlt
  refine ⟨h0, ?_, w.pages[(TreeNodes.indexOf (w.pages.map Page.widget) x).toNat], ?_, ?_⟩
  · unfold count
    omega
  · unfold page?
    rw [if_pos h0]
    exact List.getElem?_eq_getElem hlt
  · rw [List.getElem_map] at hget
    exact hget

theorem found_current {w : ProjectTabsWidget} {p : Page} (hp : p ∈ w.pages)
    (hnd : (widgets w).Nodup) :
    page? (setCurrentIndex w (indexOf w p.widget))
      (setCurrentIndex w (indexOf w p.widget)).currentIndex = some p := by
  obtain ⟨h0, hlt, q, hq, hqw⟩ := indexOf_page (List.mem_map_of_mem Page.widget hp)
  have hcur : setCurrentIndex w (indexOf w p.widget) =
      { w with currentIndex := indexOf w p.widget } := by
    unfold setCurrentIndex
    rw [if_pos ⟨h0, hlt⟩]
  rw [hcur]
  have hqm : q ∈ w.pages := by
    unfold page? at hq
    rw [if_pos h0] at hq
    exact List.mem_iff_getElem?.2 ⟨_, hq⟩
  have hqp : q = p := List.inj_on_of_nodup_map hnd hqm hp hqw
  subst hqp
  exact hq

theorem addTab_pages (w : ProjectTabsWidget) (p : Page) :
    (addTab w p).2.pages = w.pages ++ [p] ∧
      page? (addTab w p).2 (addTab w p).2.currentIndex = some p := by
  have hin : (0 : Int) ≤ count w ∧
      count w < count { w with pages := w.pages ++ [p] } := by
    unfold count
    simp only [List.length_append, List.length_singleton]
    omega
  have hcur : (addTab w p).2 =
      { w with pages := w.pages ++ [p], currentIndex := count w } := by
    unfold addTab setCurrentIndex
    simp only [if_pos hin]
  rw [hcur]
  refine ⟨rfl, ?_⟩
  unfold page? count
  simp only [Int.toNat_ofNat, Nat.cast_nonneg, if_true]
  rw [List.getElem?_append_right (le_refl _)]
  simp

/-! ## The three opening calls -/

theorem openTab_cases (fm : Formats) (w : ProjectTabsWidget) (t : Target) (e : NewEditor) :
    (∃ x, getTabByIdentifier w t.identifier = some x ∧
        openTab fm w t e = (some x, setCurrentIndex w (indexOf w x))) ∨
    (getTabByIdentifier w t.identifier = none ∧ ¬ Unsupported fm t ∧
        ∃ p : Page, p.identifier = t.identifier ∧ p.widget = e.address ∧
          openTab fm w t e = (some e.address, (addTab w p).2)) ∨
    (getTabByIdentifier w t.identifier = none ∧ Unsupported fm t ∧
        openTab fm w t e = (none, w)) := by
  cases t with
  | project =>
    simp only [Target.identifier, openTab, openProjectTab]
    cases hg : getTabByIdentifier w ['p', 'r', 'o', 'j', 'e', 'c', 't'] with
    | some x => exact Or.inl ⟨x, rfl, rfl⟩
    | none => exact Or.inr (Or.inl ⟨rfl, fun hu => hu, _, rfl, rfl, rfl⟩)
  | titles =>
    simp only [Target.identifier, openTab, openTitlesTab]
    cases hg : getTabByIdentifier w ['t', 'i', 't', 'l', 'e', 's'] with
    | some x => exact Or.inl ⟨x, rfl, rfl⟩
    | none => exact Or.inr (Or.inl ⟨rfl, fun hu => hu, _, rfl, rfl, rfl⟩)
  | resource index =>
    simp only [Target.identifier, openTab, openResourceTab]
    cases hg : getTabByIdentifier w index.path with
    | some x => exact Or.inl ⟨x, rfl, rfl⟩
    | none =>
      by_cases hc : suffix index.path ∈ fm.code
      · rw [if_pos hc]
        exact Or.inr (Or.inl ⟨rfl, fun hu => hu.1 hc, _, rfl, rfl, rfl⟩)
      · by_cases hi : suffix index.path ∈ fm.image
        · rw [if_neg hc, if_pos hi]
          exact Or.inr (Or.inl ⟨rfl, fun hu => hu.2 hi, _, rfl, rfl, rfl⟩)
        · rw [if_neg hc, if_neg hi]
          exact Or.inr (Or.inr ⟨rfl, ⟨hc, hi⟩, rfl⟩)

theorem openTab_outcome {fm : Formats} {w : ProjectTabsWidget} (hnd : (widgets w).Nodup)
    (t : Target) (e : NewEditor) :
    Found w (openTab fm w t e).2 t.identifier (openTab fm w t e).1 ∨
    Added w (openTab fm w t e).2 t.identifier e (openTab fm w t e).1 ∨
    Refused fm w (openTab fm w t e).2 t (openTab fm w t e).1 := by
  rcases openTab_cases fm w t e with ⟨x, hg, hr⟩ | ⟨hg, _, p, hpi, hpw, hr⟩ | ⟨hg, hu, hr⟩
  · obtain ⟨p, hp, hpi, hpw⟩ := getTab_some hg
    subst hpw
    rw [hr]
    exact Or.inl ⟨p, hp, hpi, rfl, setCurrentIndex_pages _ _, found_current hp hnd⟩
  · rw [hr]
    exact Or.inr (Or.inl ⟨getTab_none hg, p, hpi, hpw, rfl, (addTab_pages w p).1,
      (addTab_pages w p).2⟩)
  · rw [hr]
    exact Or.inr (Or.inr ⟨getTab_none hg, hu, rfl, rfl⟩)

theorem openTab_again (fm : Formats) (w : ProjectTabsWidget) (t : Target)
    (e e2 : NewEditor) :
    (openTab fm (openTab fm w t e).2 t e2).1 = (openTab fm w t e).1 ∧
    (openTab fm (openTab fm w t e).2 t e2).2.pages = (openTab fm w t e).2.pages := by
  have key : ∀ (w2 : ProjectTabsWidget) (x : Widget),
      getTabByIdentifier w2 t.identifier = some x →
      (openTab fm w2 t e2).1 = some x ∧ (openTab fm w2 t e2).2.pages = w2.pages := by
    intro w2 x hx
    rcases openTab_cases fm w2 t e2 with ⟨y, hg, hr⟩ | ⟨hg, _⟩ | ⟨hg, _⟩
    · rw [hx] at hg
      cases hg
      rw [hr]
      exact ⟨rfl, setCurrentIndex_pages _ _⟩
    · rw [hx] at hg
      cases hg
    · rw [hx] at hg
      cases hg
  rcases openTab_cases fm w t e with ⟨x, hg, hr⟩ | ⟨hg, _, p, hpi, hpw, hr⟩ | ⟨hg, hu, hr⟩
  · rw [hr]
    exact key _ x (by rw [getTab_congr (setCurrentIndex_pages _ _), hg])
  · rw [hr]
    exact key _ e.address (by rw [getTab_added hg hpi (addTab_pages w p).1, hpw])
  · rw [hr]
    rcases openTab_cases fm w t e2 with ⟨y, hg2, _⟩ | ⟨_, hnu, _⟩ | ⟨_, _, hr2⟩
    · rw [hg] at hg2
      cases hg2
    · exact absurd hu hnu
    · rw [hr2]
      exact ⟨rfl, rfl⟩

theorem openTab_nodup {fm : Formats} {w : ProjectTabsWidget}
    (hi : (identifiers w).Nodup) (hw : (widgets w).Nodup) (t : Target) (e : NewEditor)
    (hf : e.address ∉ widgets w) :
    (identifiers (openTab fm w t e).2).Nodup ∧ (widgets (openTab fm w t e).2).Nodup := by
  unfold identifiers widgets at *
  rcases @openTab_outcome fm w hw t e with ⟨p, _, _, _, hp, _⟩ |
    ⟨hn, p, hpi, hpw, _, hp, _⟩ | ⟨_, _, _, hp⟩
  · rw [hp]
    exact ⟨hi, hw⟩
  · rw [hp, List.map_append, List.map_append]
    constructor
    · refine List.Nodup.append hi (List.nodup_singleton _) ?_
      intro a ha hb
      obtain ⟨q, hq, hqa⟩ := List.mem_map.1 ha
      simp only [List.map_cons, List.map_nil, List.mem_singleton] at hb
      exact hn q hq (by rw [hqa, hb, hpi])
    · refine List.Nodup.append hw (List.nodup_singleton _) ?_
      intro a ha hb
      simp only [List.map_cons, List.map_nil, List.mem_singleton] at hb
      rw [hb, hpw] at ha
      exact hf ha
  · rw [hp]
    exact ⟨hi, hw⟩

theorem reachable_nodup {fm : Formats} {w : ProjectTabsWidget} (hr : Reachable fm w) :
    (identifiers w).Nodup ∧ (widgets w).Nodup := by
  induction hr with
  | init pm e =>
    exact @openTab_nodup fm (emptyTabs pm) List.nodup_nil List.nodup_nil Target.project e
      (List.not_mem_nil _)
  | step t e _ hf ih => exact openTab_nodup ih.1 ih.2 t e hf

theorem sampleTabs_reachable : Reachable sampleFormats sampleTabs :=
  Reachable.step (Target.resource { path := ['a', '.', 'x', 'm', 'l'] })
    { address := 11, title := ['a', '.', 'x', 'm', 'l'] }
    (Reachable.init false { address := 10, title := ['A', 'P', 'K'] }) (by decide)

/-! ## The save indicator -/

theorem endsWith_append (t : QString) : endsWith (t ++ indicator) indicator = true :=
  decide_eq_true (List.suffix_append t indicator)

theorem chop_append (t : QString) : chop (t ++ indicator) indicator.length = t := by
  unfold chop
  rw [List.length_append, Nat.add_sub_cancel, List.take_left]

theorem setTabText_widgets (w : ProjectTabsWidget) (i : Int) (s : QString) :
    widgets (setTabText w i s) = widgets w := by
  unfold setTabText widgets
  cases hp : page? w i with
  | none => rfl
  | some p =>
    simp only
    rw [List.map_set]
    unfold page? at hp
    by_cases h0 : 0 ≤ i
    · rw [if_pos h0] at hp
      apply List.ext_getElem?
      intro n
      rw [List.getElem?_set]
      by_cases hk : i.toNat = n
      · have hlt : i.toNat < (List.map Page.widget w.pages).length := by
          rw [List.length_map]
          exact (List.getElem?_eq_some.1 hp).1
        rw [if_pos hk, if_pos hlt, ← hk, List.getElem?_map, hp]
        rfl
      · rw [if_neg hk]
    · rw [if_neg h0] at hp
      cases hp

theorem indexOf_setTabText (w : ProjectTabsWidget) (i : Int) (s : QString) (x : Widget) :
    indexOf (setTabText w i s) x = indexOf w x :=
  congrArg (fun l => TreeNodes.indexOf l x) (setTabText_widgets w i s)

theorem tabText_setTabText {w : ProjectTabsWidget} {i : Int} {p : Page}
    (hp : page? w i = some p) (s : QString) : tabText (setTabText w i s) i = s := by
  unfold setTabText
  rw [hp]
  unfold tabText
  unfold page? at hp ⊢
  by_cases h0 : 0 ≤ i
  · rw [if_pos h0] at hp ⊢
    have hlt : i.toNat < w.pages.length := (List.getElem?_eq_some.1 hp).1
    simp only
    rw [List.getElem?_set_self hlt]
    rfl
  · rw [if_neg h0] at hp
    cases hp

theorem titleOf_setTabText {w : ProjectTabsWidget} {x : Widget} (hx : x ∈ widgets w)
    (s : QString) : titleOf (setTabText w (indexOf w x) s) x = s := by
  obtain ⟨_, _, q, hq, _⟩ := indexOf_page hx
  unfold titleOf
  rw [indexOf_setTabText]
  exact tabText_setTabText hq s

theorem handled_false (w : ProjectTabsWidget) (x : Widget) :
    savedStateChanged w x false =
      if endsWith (titleOf w x) indicator = true then
        { w with projectModified := true }
      else
        setTabText { w with projectModified := true } (indexOf w x)
          (titleOf w x ++ indicator) := by
  unfold savedStateChanged titleOf
  cases he : endsWith (tabText w (indexOf w x)) indicator with
  | true =>
    have he2 : endsWith (tabText { w with projectModified := true }
        (indexOf { w with projectModified := true } x)) indicator = true := he
    simp [he2]
  | false =>
    have he2 : endsWith (tabText { w with projectModified := true }
        (indexOf { w with projectModified := true } x)) indicator = false := he
    simp [he2]
    rfl

theorem handled_true (w : ProjectTabsWidget) (x : Widget) :
    savedStateChanged w x true =
      if endsWith (titleOf w x) indicator = true then
        setTabText w (indexOf w x) (chop (titleOf w x) indicator.length)
      else w := by
  unfold savedStateChanged titleOf
  cases he : endsWith (tabText w (indexOf w x)) indicator with
  | true => simp [he]
  | false => simp [he]

theorem modified_eta (v : ProjectTabsWidget) (h : v.projectModified = true) :
    { v with projectModified := true } = v := by
  cases v
  simp only at h
  subst h
  rfl

theorem handled_false_widgets (w : ProjectTabsWidget) (x : Widget) :
    widgets (savedStateChanged w x false) = widgets w := by
  rw [handled_false]
  split
  · rfl
  · exact setTabText_widgets _ _ _

theorem handled_false_modified (w : ProjectTabsWidget) (x : Widget) :
    (savedStateChanged w x false).projectModified = true := by
  rw [handled_false]
  split
  · rfl
  · unfold setTabText
    split <;> rfl

theorem handled_false_title {w : ProjectTabsWidget} {x : Widget} (hx : x ∈ widgets w) :
    titleOf (savedStateChanged w x false) x =
      if endsWith (titleOf w x) indicator = true then titleOf w x
      else titleOf w x ++ indicator := by
  rw [handled_false]
  by_cases he : endsWith (titleOf w x) indicator = true
  · rw [if_pos he, if_pos he]
    rfl
  · rw [if_neg he, if_neg he]
    exact @titleOf_setTabText { w with projectModified := true } x hx _

theorem handled_true_title {w : ProjectTabsWidget} {x : Widget} (hx : x ∈ widgets w) :
    titleOf (savedStateChanged w x true) x =
      if endsWith (titleOf w x) indicator = true then chop (titleOf w x) indicator.length
      else titleOf w x := by
  rw [handled_true]
  by_cases he : endsWith (titleOf w x) indicator = true
  · rw [if_pos he, if_pos he]
    exact titleOf_setTabText hx _
  · rw [if_neg he, if_neg he]

theorem handled_false_ends {w : ProjectTabsWidget} {x : Widget} (hx : x ∈ widgets w) :
    endsWith (titleOf (savedStateChanged w x false) x) indicator = true := by
  rw [handled_false_title hx]
  by_cases he : endsWith (titleOf w x) indicator = true
  · rw [if_pos he]
    exact he
  · rw [if_neg he]
    exact endsWith_append _

/-! ## The loop of `saveTabs` -/

theorem saveLoop_succ {σ : Type} (save : Widget → σ → Bool × σ) (w : ProjectTabsWidget)
    {pre rest : List Page} {p : Page} (hp : w.pages = pre ++ p :: rest) (n : Nat)
    (result : Bool) (env : σ) :
    saveLoop save w (n + 1) pre.length result env =
      saveLoop save w n ((pre ++ [p]).length : Nat)
        (if !(save p.widget env).1 then false else result) (save p.widget env).2 := by
  have hlt : ((pre.length : Nat) : Int) < count w := by
    unfold count
    rw [hp, List.length_append, List.length_cons]
    omega
  have hw : widget w ((pre.length : Nat) : Int) = some p.widget := by
    unfold widget page?
    rw [if_pos (Int.ofNat_nonneg _), Int.toNat_ofNat, hp,
      List.getElem?_append_right (le_refl _), Nat.sub_self, List.getElem?_cons_zero,
      Option.map_some']
  have hidx : ((pre.length : Nat) : Int) + 1 = (((pre ++ [p]).length : Nat) : Int) := by
    rw [List.length_append, List.length_singleton]
    rfl
  rw [saveLoop, if_pos hlt, hw, hidx]

theorem saveLoop_record {σ : Type} (save : Widget → σ → Bool × σ) (w : ProjectTabsWidget) :
    ∀ (rest pre : List Page), w.pages = pre ++ rest →
      ∀ (result : Bool) (env : σ) (log : List (Widget × Bool)),
      ∃ new : List (Widget × Bool),
        (saveLoop (recorded save) w rest.length pre.length result (env, log)).2.2 =
          log ++ new ∧
        new.map Prod.fst = rest.map Page.widget ∧
        ((saveLoop (recorded save) w rest.length pre.length result (env, log)).1 = true ↔
          result = true ∧ ∀ c ∈ new, c.2 = true) ∧
        saveLoop save w rest.length pre.length result env =
          ((saveLoop (recorded save) w rest.length pre.length result (env, log)).1,
            (saveLoop (recorded save) w rest.length pre.length result (env, log)).2.1) := by
  intro rest
  induction rest with
  | nil =>
    intro pre _ result env log
    refine ⟨[], ?_, rfl, ?_, rfl⟩
    · simp only [List.length_nil, saveLoop, List.append_nil]
    · simp only [List.length_nil, saveLoop, List.not_mem_nil, false_imp_iff, implies_true,
        and_true]
  | cons p rest ih =>
    intro pre hp result env log
    have hp2 : w.pages = (pre ++ [p]) ++ rest := by
      rw [hp, List.append_assoc]
      rfl
    obtain ⟨new, h1, h2, h3, h4⟩ := ih (pre ++ [p]) hp2
      (if !(save p.widget env).1 then false else result) (save p.widget env).2
      (log ++ [(p.widget, (save p.widget env).1)])
    have e1 := saveLoop_succ (recorded save) w hp rest.length result (env, log)
    have e2 := saveLoop_succ save w hp rest.length result env
    rw [List.length_cons, e1, e2]
    refine ⟨(p.widget, (save p.widget env).1) :: new, ?_, ?_, ?_, h4⟩
    · rw [show (recorded save p.widget (env, log)) = ((save p.widget env).1,
          ((save p.widget env).2, log ++ [(p.widget, (save p.widget env).1)])) from rfl, h1,
        List.append_assoc]
      rfl
    · rw [List.map_cons, List.map_cons, h2]
    · rw [show (recorded save p.widget (env, log)) = ((save p.widget env).1,
          ((save p.widget env).2, log ++ [(p.widget, (save p.widget env).1)])) from rfl, h3]
      cases hb : (save p.widget env).1 <;> cases result <;> simp [hb]

/-! ## Claims on the tabs -/

/-- C12: the constructor leaves the single tab "project"; in every state reachable from it
by calls of `openProjectTab`, `openTitlesTab` and `openResourceTab` the identifiers of the
tabs are pairwise distinct; every such call either finds the tab with the requested
identifier, makes it current and returns it without changing the tabs, or adds exactly one
tab carrying that identifier, or (a resource whose extension neither editor supports)
returns null and changes nothing; and a second call for the same target returns what the
first returned and changes no tab. -/
theorem tab_identifiers_distinct (fm : Formats) (w : ProjectTabsWidget)
    (hr : Reachable fm w) :
    (∀ pm e, identifiers (ProjectTabsWidget.new pm e) = [Target.project.identifier]) ∧
    (identifiers w).Nodup ∧
    ∀ t e, e.address ∉ widgets w →
      (Found w (openTab fm w t e).2 t.identifier (openTab fm w t e).1 ∨
        Added w (openTab fm w t e).2 t.identifier e (openTab fm w t e).1 ∨
        Refused fm w (openTab fm w t e).2 t (openTab fm w t e).1) ∧
      (identifiers (openTab fm w t e).2).Nodup ∧
      ∀ e2, (openTab fm (openTab fm w t e).2 t e2).1 = (openTab fm w t e).1 ∧
        (openTab fm (openTab fm w t e).2 t e2).2.pages = (openTab fm w t e).2.pages :=
  ⟨fun _ _ => rfl, (reachable_nodup hr).1, fun t e hf =>
    ⟨openTab_outcome (reachable_nodup hr).2 t e,
      (openTab_nodup (reachable_nodup hr).1 (reachable_nodup hr).2 t e hf).1,
      fun e2 => openTab_again fm w t e e2⟩⟩

theorem tab_identifiers_distinct_witness :
    Reachable sampleFormats sampleTabs ∧ (12 : Widget) ∉ widgets sampleTabs ∧
    (identifiers sampleTabs).Nodup ∧
    Added sampleTabs
      (openTab sampleFormats sampleTabs Target.titles { address := 12, title := [] }).2
      Target.titles.identifier { address := 12, title := [] }
      (openTab sampleFormats sampleTabs Target.titles { address := 12, title := [] }).1 :=
  have hf : (12 : Widget) ∉ widgets sampleTabs := by decide
  ⟨sampleTabs_reachable, hf,
    (tab_identifiers_distinct sampleFormats sampleTabs sampleTabs_reachable).2.1,
    ((((tab_identifiers_distinct sampleFormats sampleTabs sampleTabs_reachable).2.2
      Target.titles { address := 12, title := [] } hf).1.resolve_left
        (fun ⟨p, hp, hpi, _⟩ => absurd hpi (by revert p; decide))).resolve_right
        (fun h => h.2.1))⟩

/-- C13: for the tab of an editor, whatever its title `t`: after `savedStateChanged(false)`
the title ends with the indicator " •", and handling `savedStateChanged(false)` again
changes nothing; after `savedStateChanged(true)` the title is `t` or `t` without one
trailing indicator, and `savedStateChanged(true)` on a title that does not end with the
indicator changes nothing; and when `t` does not end with the indicator,
`savedStateChanged(false)` followed by `savedStateChanged(true)` gives the title `t`. -/
theorem save_indicator_update (w : ProjectTabsWidget) (x : Widget) (hx : x ∈ widgets w) :
    endsWith (titleOf (savedStateChanged w x false) x) indicator = true ∧
    savedStateChanged (savedStateChanged w x false) x false = savedStateChanged w x false ∧
    (titleOf (savedStateChanged w x true) x = titleOf w x ∨
      titleOf (savedStateChanged w x true) x ++ indicator = titleOf w x) ∧
    (endsWith (titleOf w x) indicator = false → savedStateChanged w x true = w) ∧
    (endsWith (titleOf w x) indicator = false →
      titleOf (savedStateChanged (savedStateChanged w x false) x true) x = titleOf w x) := by
  have hx2 : x ∈ widgets (savedStateChanged w x false) := by
    rw [handled_false_widgets]
    exact hx
  refine ⟨handled_false_ends hx, ?_, ?_, ?_, ?_⟩
  · rw [handled_false (savedStateChanged w x false) x, if_pos (handled_false_ends hx)]
    exact modified_eta _ (handled_false_modified w x)
  · rw [handled_true_title hx]
    by_cases he : endsWith (titleOf w x) indicator = true
    · rw [if_pos he]
      obtain ⟨t, ht⟩ := of_decide_eq_true he
      rw [← ht, chop_append]
      exact Or.inr rfl
    · rw [if_neg he]
      exact Or.inl rfl
  · intro he
    rw [handled_true, if_neg (by rw [he]; exact Bool.false_ne_true)]
  · intro he
    have hne : ¬ endsWith (titleOf w x) indicator = true := by
      rw [he]
      exact Bool.false_ne_true
    have ht : titleOf (savedStateChanged w x false) x = titleOf w x ++ indicator := by
      rw [handled_false_title hx, if_neg hne]
    rw [handled_true_title hx2, ht, if_pos (endsWith_append _), chop_append]

theorem save_indicator_update_witness :
    (11 : Widget) ∈ widgets sampleTabs ∧
    titleOf sampleTabs 11 = ['a', '.', 'x', 'm', 'l'] ∧
    titleOf (savedStateChanged sampleTabs 11 false) 11 =
      ['a', '.', 'x', 'm', 'l', ' ', Char.ofNat 0x2022] ∧
    endsWith (titleOf (savedStateChanged sampleTabs 11 false) 11) indicator = true ∧
    titleOf (savedStateChanged (savedStateChanged sampleTabs 11 false) 11 true) 11 =
      titleOf sampleTabs 11 :=
  have hx : (11 : Widget) ∈ widgets sampleTabs := by decide
  ⟨hx, by decide, by decide, (save_indicator_update sampleTabs 11 hx).1,
    (save_indicator_update sampleTabs 11 hx).2.2.2.2 (by decide)⟩

/-- C14: whatever `save()` does and returns, the invocations `saveTabs` makes are one per
tab, in index order, failures included; `saveTabs` returns true exactly when every one of
these invocations returned true; recording the invocations changes neither the result nor
the effect; and without tabs `saveTabs` returns true. -/
theorem saveTabs_saves_all {σ : Type} (save : Widget → σ → Bool × σ)
    (w : ProjectTabsWidget) (env : σ) :
    (saveTabs (recorded save) w (env, [])).2.2.map Prod.fst = widgets w ∧
    ((saveTabs (recorded save) w (env, [])).1 = true ↔
      ∀ c ∈ (saveTabs (recorded save) w (env, [])).2.2, c.2 = true) ∧
    saveTabs save w env =
      ((saveTabs (recorded save) w (env, [])).1,
        (saveTabs (recorded save) w (env, [])).2.1) ∧
    (saveTabs save { w with pages := [] } env).1 = true := by
  obtain ⟨new, h1, h2, h3, h4⟩ := saveLoop_record save w w.pages [] rfl true env []
  have e1 : saveTabs (recorded save) w (env, []) =
      saveLoop (recorded save) w w.pages.length (([] : List Page).length : Nat) true
        (env, []) := rfl
  have e2 : saveTabs save w env =
      saveLoop save w w.pages.length (([] : List Page).length : Nat) true env := rfl
  rw [e1, e2, h1, h3]
  refine ⟨h2, ?_, h4, rfl⟩
  simp only [List.nil_append, true_and]

theorem saveTabs_saves_all_witness :
    saveTabs (recorded fun x (n : Nat) => (decide (x ≠ 10), n + 1)) sampleTabs (0, []) =
      (false, 2, [(10, false), (11, true)]) ∧
    (saveTabs (recorded fun x (n : Nat) => (decide (x ≠ 10), n + 1)) sampleTabs
      (0, [])).2.2.map Prod.fst = widgets sampleTabs ∧
    saveTabs (fun x (n : Nat) => (decide (x ≠ 10), n + 1)) sampleTabs 0 = (false, 2) :=
  ⟨by decide,
    (saveTabs_saves_all (fun x (n : Nat) => (decide (x ≠ 10), n + 1)) sampleTabs 0).1,
    ((saveTabs_saves_all (fun x (n : Nat) => (decide (x ≠ 10), n + 1)) sampleTabs 0).2.2.1).trans
      (by decide)⟩

end ProjectTabs

namespace Explorer

/-! ## The clipboard and the paste action -/

theorem after_snoc (dflt move0 : Bool) (history : List Event) (ev : Event) :
    after dflt move0 (history ++ [ev]) = Event.apply dflt (after dflt move0 history) ev := by
  unfold after
  rw [List.foldl_append]
  rfl

theorem paste_cut (dflt : Bool) (v : View) (x : AndroidExplorer)
    (he : x.pasteEnabled = true) (hm : x.clipboard.move = true) :
    paste dflt v x =
      { clipboard := { data := [], move := dflt }, pasteEnabled := false,
        requests := x.requests ++ [Request.move x.clipboard.data (destination v)] } := by
  unfold paste pasteTriggered
  rw [if_pos he]
  simp only [hm, if_true]
  rfl

theorem paste_copied (dflt : Bool) (v : View) (x : AndroidExplorer)
    (he : x.pasteEnabled = true) (hm : x.clipboard.move = false) :
    paste dflt v x =
      { x with requests := x.requests ++ [Request.copy x.clipboard.data (destination v)] } := by
  unfold paste pasteTriggered
  rw [if_pos he]
  simp only [hm, Bool.false_eq_true, if_false]
  rfl

theorem paste_disabled (dflt : Bool) (v : View) (x : AndroidExplorer)
    (he : x.pasteEnabled = false) : paste dflt v x = x := by
  unfold paste
  rw [if_neg (by rw [he]; exact Bool.false_ne_true)]

theorem enabled_holds_path (dflt move0 : Bool) (history : List Event) :
    (after dflt move0 history).pasteEnabled = true →
      ∃ v i mv, Event.setClipboard v (some i) mv ∈ history ∧
        (after dflt move0 history).clipboard = { data := v.itemPath i, move := mv } := by
  induction history using List.reverseRecOn with
  | nil =>
    intro he
    cases he
  | append_singleton history ev ih =>
    rw [after_snoc]
    cases ev with
    | setClipboard v index mv =>
      cases index with
      | none =>
        intro he
        cases he
      | some i =>
        intro _
        exact ⟨v, i, mv, List.mem_append_right _ (List.mem_singleton_self _), rfl⟩
    | paste v =>
      intro he
      cases hen : (after dflt move0 history).pasteEnabled with
      | false =>
        rw [show Event.apply dflt (after dflt move0 history) (Event.paste v) =
          paste dflt v (after dflt move0 history) from rfl, paste_disabled dflt v _ hen,
          hen] at he
        cases he
      | true =>
        cases hmv : (after dflt move0 history).clipboard.move with
        | true =>
          rw [show Event.apply dflt (after dflt move0 history) (Event.paste v) =
            paste dflt v (after dflt move0 history) from rfl, paste_cut dflt v _ hen hmv]
            at he
          cases he
        | false =>
          obtain ⟨v2, i, mv, hmem, hclip⟩ := ih hen
          rw [show Event.apply dflt (after dflt move0 history) (Event.paste v) =
            paste dflt v (after dflt move0 history) from rfl, paste_copied dflt v _ hen hmv]
          exact ⟨v2, i, mv, List.mem_append_left _ hmem, hclip⟩

/-! ## Claims on the explorer -/

/-- C15: after any history of `setClipboard` calls and paste actions, the paste action is
enabled only if some earlier `setClipboard` had a valid index whose path and move flag
the clipboard holds; `setClipboard` with an invalid index empties the clipboard path and
disables paste; with a valid index it stores the item path and the move flag and enables
paste; the paste of a cut item sends exactly one `move` request, then the clipboard path
is empty and paste is disabled, so that a further paste does nothing; the paste of a
copied item sends one `copy` request and leaves the clipboard and the paste action as
they were. -/
theorem paste_needs_valid_copy (dflt move0 : Bool) (history : List Event) :
    ((after dflt move0 history).pasteEnabled = true →
      ∃ v i mv, Event.setClipboard v (some i) mv ∈ history ∧
        (after dflt move0 history).clipboard = { data := v.itemPath i, move := mv }) ∧
    (∀ v x mv, (setClipboard v x none mv).clipboard.data = [] ∧
      (setClipboard v x none mv).pasteEnabled = false) ∧
    (∀ v x i mv,
      (setClipboard v x (some i) mv).clipboard = { data := v.itemPath i, move := mv } ∧
      (setClipboard v x (some i) mv).pasteEnabled = true) ∧
    (∀ v x, x.pasteEnabled = true → x.clipboard.move = true →
      (paste dflt v x).requests =
        x.requests ++ [Request.move x.clipboard.data (destination v)] ∧
      (paste dflt v x).clipboard.data = [] ∧ (paste dflt v x).pasteEnabled = false ∧
      ∀ v2, paste dflt v2 (paste dflt v x) = paste dflt v x) ∧
    (∀ v x, x.pasteEnabled = true → x.clipboard.move = false →
      (paste dflt v x).requests =
        x.requests ++ [Request.copy x.clipboard.data (destination v)] ∧
      (paste dflt v x).clipboard = x.clipboard ∧
      (paste dflt v x).pasteEnabled = x.pasteEnabled) := by
  refine ⟨enabled_holds_path dflt move0 history, fun _ _ _ => ⟨rfl, rfl⟩,
    fun _ _ _ _ => ⟨rfl, rfl⟩, ?_, ?_⟩
  · intro v x he hm
    rw [paste_cut dflt v x he hm]
    exact ⟨rfl, rfl, rfl, fun v2 => paste_disabled dflt v2 _ rfl⟩
  · intro v x he hm
    rw [paste_copied dflt v x he hm]
    exact ⟨rfl, rfl, rfl⟩

theorem paste_needs_valid_copy_witness :
    (after false false [Event.setClipboard sampleView (some 0) true]).pasteEnabled = true ∧
    (after false false [Event.setClipboard sampleView (some 0) true]).clipboard =
      { data := ['/', 's', 'd', 'c', 'a', 'r', 'd', '/', 'a'], move := true } ∧
    (after false false
      [Event.setClipboard sampleView (some 0) true, Event.paste sampleView]).requests =
      [Request.move ['/', 's', 'd', 'c', 'a', 'r', 'd', '/', 'a']
        ['/', 's', 'd', 'c', 'a', 'r', 'd']] ∧
    (after false false
      [Event.setClipboard sampleView (some 0) true, Event.paste sampleView]).pasteEnabled =
      false ∧
    after false false [Event.setClipboard sampleView (some 0) true, Event.paste sampleView,
      Event.paste sampleView] =
      after false false [Event.setClipboard sampleView (some 0) true, Event.paste sampleView] :=
  have h := (paste_needs_valid_copy false false
    [Event.setClipboard sampleView (some 0) true]).2.2.2.1 sampleView
    (after false false [Event.setClipboard sampleView (some 0) true]) rfl rfl
  ⟨rfl, rfl, h.1, h.2.2.1, h.2.2.2 sampleView⟩

end Explorer
